import Mathlib

/-!
# Bitboard chess core (`chess/board/board.go`, `chess/HTTP/bridge.go`, `chess/api/server.go`)

A shallow embedding of the Go program.

* `Bitboard` is `uint64`: a natural number below `2 ^ 64`; every Go operation that can
  leave that range (`<<`, `+`, `^`) is reduced modulo `2 ^ 64` explicitly.
* `Square` is `uint8`: a natural number below `256`; `+`, `-`, `*` on squares are
  reduced modulo `256` explicitly (`x - 1` is written `x + 255`, `x - 8` is `x + 248`, ...).
* `Piece` and `Color` are the enumerations of the source (`Empty .. Kings`, `White`, `Black`).
* A Go call that does not return normally (index out of range in `GetRank` or in
  `allKnightMoves[...]`, or a `for` loop that never exits) is `none`.  A loop over a `uint8`
  counter is run for at most `256` rounds: after `256` rounds without `break` the counter
  has cycled through all its values, so the Go loop never exits.
* The struct field `KnightMoves [64]Bitboard` of `Board` is never read or written by any
  function of the repository and is left out of the record.
-/

namespace Chess

/-! ## Types and constants -/

inductive Piece where
  | Empty
  | Pawns
  | Knights
  | Bishops
  | Rooks
  | Queens
  | Kings
  deriving DecidableEq, Repr

inductive Color where
  | White
  | Black
  deriving DecidableEq, Repr

/-- Go `x << n` on `uint64` (a shift count of 64 or more gives 0). -/
def shl (x n : Nat) : Nat := (x <<< n) % 2 ^ 64

/-- Go `^x` on `uint64`: exclusive or with the all-ones word. -/
def bnot (x : Nat) : Nat := (2 ^ 64 - 1) ^^^ (x % 2 ^ 64)

def FileA : Nat := 0x0101010101010101
def FileB : Nat := shl FileA 1
def FileC : Nat := shl FileA 2
def FileD : Nat := shl FileA 3
def FileE : Nat := shl FileA 4
def FileF : Nat := shl FileA 5
def FileG : Nat := shl FileA 6
def FileH : Nat := shl FileA 7

def Rank1 : Nat := 0x00000000000000FF
def Rank2 : Nat := shl Rank1 8
def Rank3 : Nat := shl Rank1 16
def Rank4 : Nat := shl Rank1 24
def Rank5 : Nat := shl Rank1 32
def Rank6 : Nat := shl Rank1 40
def Rank7 : Nat := shl Rank1 48
def Rank8 : Nat := shl Rank1 56

/-- The Go array type `[3]bool` of castling flags. -/
abbrev RKR := Fin 3 → Bool

structure Board where
  PieceBB : Color → Piece → Nat
  ColorBB : Color → Nat
  FullBB : Nat
  Turn : Color
  RKRmoved : Color → RKR
  EnPassantSquare : Option Nat
  MoveCounter : Nat

/-- The loop `for p := Pawns; p <= Kings; p++`. -/
def pieceRange : List Piece :=
  [Piece.Pawns, Piece.Knights, Piece.Bishops, Piece.Rooks, Piece.Queens, Piece.Kings]

/-! ## Bit and square primitives -/

/-- Go `func (bb Bitboard) GetBit(sq Square) bool`. -/
def GetBit (bb sq : Nat) : Bool := (bb &&& shl 1 sq) != 0

/-- Go `func (bb *Bitboard) ZeroBit(sq Square)`: the new value of `*bb`. -/
def ZeroBit (bb sq : Nat) : Nat := bb &&& bnot (shl 1 sq)

/-- Go `func (bb *Bitboard) SetBit(sq Square)`: the new value of `*bb`. -/
def SetBit (bb sq : Nat) : Nat := bb ||| shl 1 sq

/-- Go `func (c Color) Other() Color`. -/
def Color.Other : Color → Color
  | Color.White => Color.Black
  | Color.Black => Color.White

/-- Go `func (sq Square) GetRank() Bitboard`: `ranks[sq/8]`, out of range for `sq ≥ 64`. -/
def GetRank (sq : Nat) : Option Nat :=
  [Rank1, Rank2, Rank3, Rank4, Rank5, Rank6, Rank7, Rank8].get? (sq / 8)

/-- Go `func (sq Square) GetFile() Bitboard`: `files[sq%8]`; the index is always in range. -/
def GetFile (sq : Nat) : Nat :=
  [FileA, FileB, FileC, FileD, FileE, FileF, FileG, FileH].getD (sq % 8) 0

/-- Go `bits.TrailingZeros64`: the index of the lowest set bit, 64 for 0. -/
def TrailingZeros64 (x : Nat) : Nat :=
  ((List.range 64).find? (fun i => x.testBit i)).getD 64

/-- Assignment `b.PieceBB[c][p] = v`. -/
def Board.setPieceBB (b : Board) (c : Color) (p : Piece) (v : Nat) : Board :=
  { b with PieceBB := fun c' p' => if c' = c ∧ p' = p then v else b.PieceBB c' p' }

/-- Assignment `b.RKRmoved[c][i] = true`. -/
def Board.setRKR (b : Board) (c : Color) (i : Fin 3) : Board :=
  { b with RKRmoved := fun c' i' => if c' = c ∧ i' = i then true else b.RKRmoved c' i' }

/-- Go `func (b *Board) GetPieceAt(sq Square, color Color) Piece`. -/
def Board.GetPieceAt (b : Board) (sq : Nat) (color : Color) : Piece :=
  (pieceRange.find? (fun p => GetBit (b.PieceBB color p) sq)).getD Piece.Empty

/-- Go `func (b *Board) CombineBB()`. -/
def Board.CombineBB (b : Board) : Board :=
  let w := pieceRange.foldl (fun acc p => acc ||| b.PieceBB Color.White p) 0
  let k := pieceRange.foldl (fun acc p => acc ||| b.PieceBB Color.Black p) 0
  { b with
    ColorBB := fun c => match c with
      | Color.White => w
      | Color.Black => k
    FullBB := w ||| k }

/-- Go `func NewBoard() *Board`. -/
def NewBoard : Board :=
  let pieces : Color → Piece → Nat := fun c p =>
    match c, p with
    | Color.White, Piece.Pawns => Rank2
    | Color.White, Piece.Knights => shl 1 1 ||| shl 1 6
    | Color.White, Piece.Bishops => shl 1 2 ||| shl 1 5
    | Color.White, Piece.Rooks => shl 1 0 ||| shl 1 7
    | Color.White, Piece.Queens => shl 1 3
    | Color.White, Piece.Kings => shl 1 4
    | Color.Black, Piece.Pawns => Rank7
    | Color.Black, Piece.Knights => shl 1 57 ||| shl 1 62
    | Color.Black, Piece.Bishops => shl 1 58 ||| shl 1 61
    | Color.Black, Piece.Rooks => shl 1 56 ||| shl 1 63
    | Color.Black, Piece.Queens => shl 1 59
    | Color.Black, Piece.Kings => shl 1 60
    | _, Piece.Empty => 0
  Board.CombineBB
    { PieceBB := pieces
      ColorBB := fun _ => 0
      FullBB := 0
      Turn := Color.White
      RKRmoved := fun _ _ => false
      EnPassantSquare := none
      MoveCounter := 0 }

/-! ## Attack tables -/

/-- The body of the inner loop of `GenAllKnightMoves` for one square `sq < 64` and one
distance: the six `continue` tests, then `bbs[sq] |= 1 << uint(end)`. -/
def knightStep (sq : Nat) (acc : Nat) (dist : Int) : Nat :=
  let rank := (GetRank sq).getD 0
  let file := GetFile sq
  if (rank = Rank1 ∧ dist ≤ -6) ∨ (rank = Rank2 ∧ dist ≤ -15) then acc
  else if (rank = Rank8 ∧ dist ≥ 6) ∨ (rank = Rank7 ∧ dist ≥ 15) then acc
  else if (file = FileA ∨ file = FileB) ∧ (dist = 6 ∨ dist = -10) then acc
  else if file = FileA ∧ (dist = 15 ∨ dist = -17) then acc
  else if (file = FileH ∨ file = FileG) ∧ (dist = -6 ∨ dist = 10) then acc
  else if file = FileH ∧ (dist = 17 ∨ dist = -15) then acc
  else
    let e : Int := (sq : Int) + dist
    if e < 0 then acc else acc ||| shl 1 e.toNat

/-- Go `func GenAllKnightMoves() [64]Bitboard`. -/
def GenAllKnightMoves : List Nat :=
  (List.range 64).map
    (fun sq => ([-17, -15, -10, -6, 6, 10, 15, 17] : List Int).foldl (knightStep sq) 0)

/-- The package variable `allKnightMoves = GenAllKnightMoves()`. -/
def allKnightMoves : List Nat := GenAllKnightMoves

/-- Go `func GetPawnMoves(sq Square, fullBB Bitboard, color Color, otherColorBB Bitboard)`.
In the White branch the source text is `1<<sq + 7` and `1<<sq + 9`, which Go parses as
`(1<<sq) + 7` and `(1<<sq) + 9`. -/
def GetPawnMoves (sq fullBB : Nat) (color : Color) (otherColorBB : Nat) : Nat :=
  match color with
  | Color.White =>
    let moves := shl 1 ((sq + 8) % 256) &&& bnot fullBB
    let moves := moves ||| (shl (moves &&& Rank3) 8 &&& bnot fullBB)
    moves ||| (((((shl 1 sq + 7) % 2 ^ 64) &&& bnot FileA) &&& otherColorBB) |||
      ((((shl 1 sq + 9) % 2 ^ 64) &&& bnot FileH) &&& otherColorBB))
  | Color.Black =>
    let moves := shl 1 ((sq + 248) % 256) &&& bnot fullBB
    let moves := moves ||| (((moves &&& Rank6) >>> 8) &&& bnot fullBB)
    moves ||| (((shl 1 ((sq + 249) % 256) &&& bnot FileA) &&& otherColorBB) |||
      ((shl 1 ((sq + 247) % 256) &&& bnot FileH) &&& otherColorBB))

/-- A loop `for c := c0; c < 8; c++ { target := ..; moves |= 1 << uint(target);
if (fullBB & (1 << uint(target))) != 0 { break } }` of `GetRookMoves`. -/
def rookLoopInc (fullBB : Nat) (tgt : Nat → Nat) : Nat → Nat → Nat → Option Nat
  | 0, _, _ => none
  | n + 1, c, moves =>
    if c < 8 then
      let target := tgt c
      let moves := moves ||| shl 1 target
      if fullBB &&& shl 1 target ≠ 0 then some moves
      else rookLoopInc fullBB tgt n ((c + 1) % 256) moves
    else some moves

/-- A loop `for c := c0; c >= 0; c-- { .. }` of `GetRookMoves`: the counter is a `uint8`, so
the condition `c >= 0` always holds and `c--` takes 0 to 255. -/
def rookLoopDec (fullBB : Nat) (tgt : Nat → Nat) : Nat → Nat → Nat → Option Nat
  | 0, _, _ => none
  | n + 1, c, moves =>
    let target := tgt c
    let moves := moves ||| shl 1 target
    if fullBB &&& shl 1 target ≠ 0 then some moves
    else rookLoopDec fullBB tgt n ((c + 255) % 256) moves

/-- Go `func GetRookMoves(sq Square, fullBB Bitboard) Bitboard`. -/
def GetRookMoves (sq fullBB : Nat) : Option Nat := do
  let rank := sq / 8
  let file := sq % 8
  let moves := 0
  let moves ← rookLoopInc fullBB (fun r => (r * 8 + file) % 256) 256 ((rank + 1) % 256) moves
  let moves ← rookLoopInc fullBB (fun f => (rank * 8 + f) % 256) 256 ((file + 1) % 256) moves
  let moves ←
    if rank ≠ 0 then
      rookLoopDec fullBB (fun r => (r * 8 + file) % 256) 256 ((rank + 255) % 256) moves
    else some moves
  let moves ←
    if file ≠ 0 then
      rookLoopDec fullBB (fun f => (rank * 8 + f) % 256) 256 ((file + 255) % 256) moves
    else some moves
  return moves

/-- The loops "up right" and "up left" of `GetBishopMoves`:
`for r := r0; r < 8; r++ { ..; if f >= 7 (or f == 0) { break }; f++ (or f--) }`. -/
def bishopLoopInc (fullBB : Nat) (right : Bool) : Nat → Nat → Nat → Nat → Option Nat
  | 0, _, _, _ => none
  | n + 1, r, f, moves =>
    if r < 8 then
      let target := (r * 8 + f) % 256
      let moves := moves ||| shl 1 target
      if fullBB &&& shl 1 target ≠ 0 then some moves
      else if right then
        if f ≥ 7 then some moves
        else bishopLoopInc fullBB right n ((r + 1) % 256) ((f + 1) % 256) moves
      else
        if f = 0 then some moves
        else bishopLoopInc fullBB right n ((r + 1) % 256) ((f + 255) % 256) moves
    else some moves

/-- The loops "down right" and "down left" of `GetBishopMoves`:
`for r := r0; r >= 0; r-- { ..; if f >= 7 (or f == 0) { break }; f++ (or f--) }`, where
`r >= 0` always holds for the `uint8` counter. -/
def bishopLoopDec (fullBB : Nat) (right : Bool) : Nat → Nat → Nat → Nat → Option Nat
  | 0, _, _, _ => none
  | n + 1, r, f, moves =>
    let target := (r * 8 + f) % 256
    let moves := moves ||| shl 1 target
    if fullBB &&& shl 1 target ≠ 0 then some moves
    else if right then
      if f ≥ 7 then some moves
      else bishopLoopDec fullBB right n ((r + 255) % 256) ((f + 1) % 256) moves
    else
      if f = 0 then some moves
      else bishopLoopDec fullBB right n ((r + 255) % 256) ((f + 255) % 256) moves

/-- Go `func GetBishopMoves(sq Square, fullBB Bitboard) Bitboard`. -/
def GetBishopMoves (sq fullBB : Nat) : Option Nat := do
  let rank := sq / 8
  let file := sq % 8
  let moves := 0
  let moves ← bishopLoopInc fullBB true 256 ((rank + 1) % 256) ((file + 1) % 256) moves
  let moves ←
    if rank ≠ 0 then
      bishopLoopDec fullBB true 256 ((rank + 255) % 256) ((file + 1) % 256) moves
    else some moves
  let moves ←
    if rank ≠ 0 ∧ file ≠ 0 then
      bishopLoopDec fullBB false 256 ((rank + 255) % 256) ((file + 255) % 256) moves
    else some moves
  let moves ←
    if file ≠ 0 then
      bishopLoopInc fullBB false 256 ((rank + 1) % 256) ((file + 255) % 256) moves
    else some moves
  return moves

/-- Go `func GetQueenMoves(sq Square, fullBB Bitboard) Bitboard`. -/
def GetQueenMoves (sq fullBB : Nat) : Option Nat := do
  let r ← GetRookMoves sq fullBB
  let d ← GetBishopMoves sq fullBB
  return r ||| d

/-- One of the two loops of `GetCastles` over the files of a side, with its `break`. -/
def castleLoop (rank fullBB opBB dest : Nat) : List Nat → Nat → Nat
  | [], moves => moves
  | fl :: rest, moves =>
    if (fl &&& rank &&& fullBB) ≠ 0 ∨ (fl &&& rank &&& opBB) ≠ 0 then moves
    else castleLoop rank fullBB opBB dest rest (moves ||| (dest &&& rank))

/-- Go `func GetCastles(color Color, fullBB Bitboard, RKR [3]bool, opBB Bitboard) Bitboard`. -/
def GetCastles (color : Color) (fullBB : Nat) (rkr : RKR) (opBB : Nat) : Nat :=
  let rank := match color with
    | Color.White => Rank1
    | Color.Black => Rank8
  let kingside := [FileF, FileG]
  let queenside := [FileD, FileC, FileB]
  if !rkr 1 then
    let moves := 0
    let moves := if !rkr 0 then castleLoop rank fullBB opBB FileC queenside moves else moves
    let moves := if !rkr 2 then castleLoop rank fullBB opBB FileG kingside moves else moves
    moves
  else 0

/-- Go `func GetKingMoves(sq Square, fullBB Bitboard, color Color, RKR [3]bool, opBB Bitboard)`. -/
def GetKingMoves (sq fullBB : Nat) (color : Color) (rkr : RKR) (opBB : Nat) : Nat :=
  let king := shl 1 sq
  let moves := shl king 8 |||
    (king >>> 8) |||
    (shl king 1 &&& bnot FileA) |||
    ((king >>> 1) &&& bnot FileH) |||
    (shl king 9 &&& bnot FileA) |||
    (shl king 7 &&& bnot FileH) |||
    ((king >>> 7) &&& bnot FileA) |||
    ((king >>> 9) &&& bnot FileH)
  moves ||| GetCastles color fullBB rkr opBB

/-! ## Attack sets of a side -/

/-- The loop `for bb != 0 { loc := bits.TrailingZeros64(bb); bb &= bb - 1; moves |= f(loc) }`
shared by the per-colour generators; a `uint64` has at most 64 set bits. -/
def bitLoop (f : Nat → Option Nat) : Nat → Nat → Nat → Option Nat
  | 0, _, _ => none
  | n + 1, bb, moves =>
    if bb = 0 then some moves
    else do
      let loc := TrailingZeros64 bb
      let m ← f loc
      bitLoop f n (bb &&& (bb - 1)) (moves ||| m)

/-- Go `func (b *Board) GetPawnAttacks(color Color) Bitboard`. -/
def Board.GetPawnAttacks (b : Board) (color : Color) : Nat :=
  let pawns := b.PieceBB color Piece.Pawns
  match color with
  | Color.White =>
    ((shl pawns 7 &&& bnot FileA) &&& b.ColorBB Color.Black) |||
      ((shl pawns 9 &&& bnot FileH) &&& b.ColorBB Color.Black)
  | Color.Black =>
    (((pawns >>> 7) &&& bnot FileA) &&& b.ColorBB Color.White) |||
      (((pawns >>> 9) &&& bnot FileH) &&& b.ColorBB Color.White)

/-- Go `func (b *Board) GetKnightMoves(color Color) Bitboard`. -/
def Board.GetKnightMoves (b : Board) (color : Color) : Option Nat :=
  bitLoop (fun loc => (allKnightMoves.get? loc).map (fun m => m &&& bnot (b.ColorBB color)))
    65 (b.PieceBB color Piece.Knights) 0

/-- Go `func (b *Board) GetBishopMoves(color Color) Bitboard`. -/
def Board.GetBishopMoves (b : Board) (color : Color) : Option Nat :=
  bitLoop (fun loc => (Chess.GetBishopMoves loc b.FullBB).map (fun m => m &&& bnot (b.ColorBB color)))
    65 (b.PieceBB color Piece.Bishops) 0

/-- Go `func (b *Board) GetRookMoves(color Color) Bitboard`. -/
def Board.GetRookMoves (b : Board) (color : Color) : Option Nat :=
  bitLoop (fun loc => (Chess.GetRookMoves loc b.FullBB).map (fun m => m &&& bnot (b.ColorBB color)))
    65 (b.PieceBB color Piece.Rooks) 0

/-- Go `func (b *Board) GetQueenMoves(color Color) Bitboard`. -/
def Board.GetQueenMoves (b : Board) (color : Color) : Option Nat :=
  bitLoop (fun loc => (Chess.GetQueenMoves loc b.FullBB).map (fun m => m &&& bnot (b.ColorBB color)))
    65 (b.PieceBB color Piece.Queens) 0

/-- Go `func (b *Board) GetKingMoves(color Color) Bitboard` (it "treats opBB as empty"). -/
def Board.GetKingMoves (b : Board) (color : Color) : Nat :=
  let king := b.PieceBB color Piece.Kings
  let loc := TrailingZeros64 king
  Chess.GetKingMoves loc b.FullBB color (b.RKRmoved color) 0 &&& bnot (b.ColorBB color)

/-- Go `func (b *Board) AllAttacks(color Color) Bitboard`. -/
def Board.AllAttacks (b : Board) (color : Color) : Option Nat := do
  let n ← b.GetKnightMoves color
  let moves := b.GetPawnAttacks color ||| n
  let d ← b.GetBishopMoves color
  let r ← b.GetRookMoves color
  let moves := moves ||| (d ||| r)
  let q ← b.GetQueenMoves color
  let moves := moves ||| (q ||| b.GetKingMoves color)
  return moves

/-! ## Legality and move application -/

/-- The statements of `IsLegal` after its `switch` ("king can't be in check after move"):
the test of the mover's king against `opponentMoves`, then the promotion test. -/
def IsLegal.finish (b : Board) (color : Color) (opponentMoves : Nat)
    (promotion output outputPromotion : Piece) : Piece × Piece :=
  if (b.PieceBB color Piece.Kings &&& opponentMoves) ≠ 0 then (Piece.Empty, Piece.Empty)
  else if promotion ≠ outputPromotion then (Piece.Empty, Piece.Empty)
  else (output, outputPromotion)

/-- Go `func (b *Board) IsLegal(start Square, end Square, promotion Piece) (Piece, Piece)`.
The function only reads `b`; its two `fmt.Println` calls are not modelled.  In each case of
the `switch` the variable `output` becomes the piece when the masked destination set is not
empty and stays `Empty` otherwise; `notOwn` is `^b.ColorBB[color]`. -/
def Board.IsLegal (b : Board) (start end_ : Nat) (promotion : Piece) :
    Option (Piece × Piece) :=
  let color := b.Turn
  let otherColor := color.Other
  (b.AllAttacks otherColor).bind fun opponentMoves =>
  let piece := b.GetPieceAt start color
  (GetRank end_).bind fun endRank =>
  let endBB := GetFile end_ &&& endRank
  let notOwn := bnot (b.ColorBB color)
  if promotion = Piece.Pawns ∨ promotion = Piece.Kings then some (Piece.Empty, Piece.Empty)
  else
    match piece with
    | Piece.Empty => some (Piece.Empty, Piece.Empty)
    | Piece.Pawns =>
      let pawnMoves := Chess.GetPawnMoves start b.FullBB color (b.ColorBB otherColor)
      if (pawnMoves &&& endBB &&& notOwn) ≠ 0 then
        if endRank = Rank8 ∨ endRank = Rank1 then
          if promotion ≠ Piece.Empty then
            some (IsLegal.finish b color opponentMoves promotion Piece.Pawns promotion)
          else some (Piece.Empty, Piece.Empty)
        else some (IsLegal.finish b color opponentMoves promotion Piece.Pawns Piece.Empty)
      else some (IsLegal.finish b color opponentMoves promotion Piece.Empty Piece.Empty)
    | Piece.Knights =>
      (allKnightMoves.get? start).map fun m =>
        IsLegal.finish b color opponentMoves promotion
          (if (m &&& endBB &&& notOwn) ≠ 0 then Piece.Knights else Piece.Empty) Piece.Empty
    | Piece.Bishops =>
      (Chess.GetBishopMoves start b.FullBB).map fun m =>
        IsLegal.finish b color opponentMoves promotion
          (if (m &&& endBB &&& notOwn) ≠ 0 then Piece.Bishops else Piece.Empty) Piece.Empty
    | Piece.Rooks =>
      (Chess.GetRookMoves start b.FullBB).map fun m =>
        IsLegal.finish b color opponentMoves promotion
          (if (m &&& endBB &&& notOwn) ≠ 0 then Piece.Rooks else Piece.Empty) Piece.Empty
    | Piece.Queens =>
      (Chess.GetQueenMoves start b.FullBB).map fun m =>
        IsLegal.finish b color opponentMoves promotion
          (if (m &&& endBB &&& notOwn) ≠ 0 then Piece.Queens else Piece.Empty) Piece.Empty
    | Piece.Kings =>
      let m := Chess.GetKingMoves start b.FullBB color (b.RKRmoved color) opponentMoves
      some (IsLegal.finish b color opponentMoves promotion
        (if (m &&& endBB &&& notOwn &&& bnot opponentMoves) ≠ 0 then Piece.Kings
          else Piece.Empty) Piece.Empty)

/-- One round of the first loop of `MovePiece`: when the bitboard of piece `p` of the other
colour has the bit of `end` set, the bit is cleared and `capture` becomes true. -/
def captureStep (otherColor : Color) (end_ : Nat) (acc : Board × Bool) (p : Piece) :
    Board × Bool :=
  if (acc.1.PieceBB otherColor p &&& shl 1 end_) ≠ 0 then
    (acc.1.setPieceBB otherColor p (ZeroBit (acc.1.PieceBB otherColor p) end_), true)
  else acc

/-- The first loop of `MovePiece` ("checks through the other colored bb to remove captured
piece if relevent"), from `capture = false`. -/
def captureLoop (b : Board) (otherColor : Color) (end_ : Nat) : Board × Bool :=
  pieceRange.foldl (captureStep otherColor end_) (b, false)

/-- The nested call of `MovePiece` for the rook of a castling, after `b.MoveCounter--`;
`call` is `MovePiece` itself and the result of the nested call is dropped. -/
def castleRook (call : Board → Piece → Nat → Nat → Piece → Option (Board × Bool))
    (b : Board) (rookStart rookEnd : Nat) : Option Board :=
  (call { b with MoveCounter := (b.MoveCounter + 255) % 256 } Piece.Rooks rookStart rookEnd
    Piece.Empty).map (fun r => r.1)

/-- The middle part of `MovePiece` ("checks if castling"): the chain
`if piece == Kings { .. } else if piece == Rooks { .. } else if piece == Pawns { .. }`. -/
def specialRules (call : Board → Piece → Nat → Nat → Piece → Option (Board × Bool))
    (b : Board) (color : Color) (piece : Piece)
    (startFile startRank endFile endRank end_ : Nat) : Option Board :=
  if piece = Piece.Kings then
    (if startFile = FileE ∧ endFile = FileC then
      (match color with
        | Color.White => castleRook call b 1 4
        | Color.Black => castleRook call b 56 59).map (fun (b : Board) => b.setRKR color 2)
    else if startFile = FileE ∧ endFile = FileG then
      (match color with
        | Color.White => castleRook call b 7 5
        | Color.Black => castleRook call b 63 61).map (fun (b : Board) => b.setRKR color 0)
    else some b).map (fun (b : Board) => b.setRKR color 1)
  else if piece = Piece.Rooks then
    if startFile = FileA then some (b.setRKR color 0)
    else if startFile = FileH then some (b.setRKR color 2)
    else some b
  else if piece = Piece.Pawns then
    if color = Color.White ∧ startRank = Rank2 ∧ endRank = Rank4 then
      some { b with EnPassantSquare := some ((end_ + 248) % 256) }
    else if color = Color.Black ∧ startRank = Rank7 ∧ endRank = Rank5 then
      some { b with EnPassantSquare := some ((end_ + 8) % 256) }
    else some { b with EnPassantSquare := none }
  else some b

/-- The last part of `MovePiece` ("actually moves the selected piece with promotion check"):
`SetBit(end)` on the piece's or the promotion's bitboard, `ZeroBit(start)` on the piece's,
`CombineBB()`, `MoveCounter++`. -/
def placePiece (b : Board) (color : Color) (piece : Piece) (start end_ : Nat)
    (promotion : Piece) : Board :=
  let b :=
    if promotion = Piece.Empty then
      b.setPieceBB color piece (SetBit (b.PieceBB color piece) end_)
    else b.setPieceBB color promotion (SetBit (b.PieceBB color promotion) end_)
  let b := b.setPieceBB color piece (ZeroBit (b.PieceBB color piece) start)
  let b := b.CombineBB
  { b with MoveCounter := (b.MoveCounter + 1) % 256 }

/-- Go `func (b *Board) MovePiece(piece Piece, start, end Square, promotion Piece) bool`,
returning the new value of `*b` and the result: the four rank and file lookups, the early
return for `Empty`, the capture loop, `specialRules`, `placePiece`.  The first argument bounds
the depth of the calls of `MovePiece` from itself (the rook move of a castling). -/
def MovePieceAux : Nat → Board → Piece → Nat → Nat → Piece → Option (Board × Bool)
  | 0, _, _, _, _, _ => none
  | depth + 1, b, piece, start, end_, promotion =>
    let color := b.Turn
    let otherColor := color.Other
    let startFile := GetFile start
    (GetRank start).bind fun startRank =>
    let endFile := GetFile end_
    (GetRank end_).bind fun endRank =>
    if piece = Piece.Empty then some (b, false)
    else
      let c := captureLoop b otherColor end_
      (specialRules (MovePieceAux depth) c.1 color piece startFile startRank endFile endRank
        end_).map fun b' => (placePiece b' color piece start end_ promotion, c.2)

/-- The method `MovePiece`: a call from outside, which nests at most one further call. -/
def Board.MovePiece (b : Board) (piece : Piece) (start end_ : Nat) (promotion : Piece) :
    Option (Board × Bool) :=
  MovePieceAux 2 b piece start end_ promotion

/-- Go `func MakeMove(start, end C.int, promotion C.int) C.int` of `HTTP/bridge.go` on the
global `board`, as a function from the old value of `*board` to the new value and the result;
`start`, `end` and `promotion` are the values after conversion to `Square` and `Piece`.
The handler `moveHandler` of `api/server.go` runs the same three statements. -/
def MakeMove (board : Board) (start end_ : Nat) (promotion : Piece) : Option (Board × Nat) :=
  (board.IsLegal start end_ promotion).bind fun r =>
    if r.1 = Piece.Empty then some (board, 0)
    else
      (board.MovePiece r.1 start end_ r.2).map fun m =>
        ({ m.1 with Turn := m.1.Turn.Other }, 1)

/-! ## The legal-move list of `api/server.go` -/

/-- Go `func (b *Board) GetPawnMoves(color Color) Bitboard`: the pushes of all pawns of a
colour at once. -/
def Board.GetPawnMoves (b : Board) (color : Color) : Nat :=
  let pawns := b.PieceBB color Piece.Pawns
  match color with
  | Color.White =>
    let moves := shl pawns 8 &&& bnot b.FullBB
    moves ||| (shl (moves &&& Rank3) 8 &&& bnot b.FullBB)
  | Color.Black =>
    let moves := (pawns >>> 8) &&& bnot b.FullBB
    moves ||| (((moves &&& Rank6) >>> 8) &&& bnot b.FullBB)

/-- The struct `Move` of `api/server.go`. -/
structure Move where
  Start : String
  End : String
  Promotion : String
  deriving DecidableEq, Repr

/-- The map `IndexToNotation` of `api/server.go`: it has the sixteen keys 0..15 only
("complete the map for all squares" is a comment in the source); a lookup of any other key
gives the empty string. -/
def IndexToNotation (sq : Nat) : String :=
  match sq with
  | 0 => "a1" | 1 => "b1" | 2 => "c1" | 3 => "d1"
  | 4 => "e1" | 5 => "f1" | 6 => "g1" | 7 => "h1"
  | 8 => "a2" | 9 => "b2" | 10 => "c2" | 11 => "d2"
  | 12 => "e2" | 13 => "f2" | 14 => "g2" | 15 => "h2"
  | _ => ""

/-- The `switch p` of `getLegalMoves`: the candidate destinations `pieceMoves` of the piece of
kind `p` on `startSq` (`p` runs over `Pawns .. Kings`; `pieceMoves` starts as 0). -/
def pieceMovesOf (board : Board) (color : Color) (p : Piece) (startSq : Nat) : Option Nat :=
  match p with
  | Piece.Empty => some 0
  | Piece.Pawns => some (board.GetPawnMoves color ||| board.GetPawnAttacks color)
  | Piece.Knights =>
    (allKnightMoves.get? startSq).map fun m => m &&& bnot (board.ColorBB color)
  | Piece.Bishops =>
    (GetBishopMoves startSq board.FullBB).map fun m => m &&& bnot (board.ColorBB color)
  | Piece.Rooks =>
    (GetRookMoves startSq board.FullBB).map fun m => m &&& bnot (board.ColorBB color)
  | Piece.Queens =>
    (GetQueenMoves startSq board.FullBB).map fun m => m &&& bnot (board.ColorBB color)
  | Piece.Kings =>
    (board.AllAttacks color.Other).map fun a =>
      GetKingMoves startSq board.FullBB color (board.RKRmoved color) a &&&
        bnot (board.ColorBB color)

/-- The innermost loop of `getLegalMoves` ("for each possible destination"): every
destination that `IsLegal` accepts with promotion `Empty` is appended; a pawn destination on
rank 1 or rank 8 is appended four times, once per promotion name, and ends the loop. -/
def destLoop (board : Board) (p : Piece) (startSq : Nat) :
    Nat → Nat → List Move → Option (List Move)
  | 0, _, _ => none
  | n + 1, pieceMoves, moves =>
    if pieceMoves = 0 then some moves
    else
      let endSq := TrailingZeros64 pieceMoves
      let pieceMoves := pieceMoves &&& (pieceMoves - 1)
      (board.IsLegal startSq endSq Piece.Empty).bind fun r =>
        if r.1 ≠ Piece.Empty then
          let move : Move :=
            { Start := IndexToNotation startSq, End := IndexToNotation endSq, Promotion := "" }
          if p = Piece.Pawns ∧ (endSq ≥ 56 ∨ endSq ≤ 7) then
            some (moves ++ ["bishop", "knight", "rook", "queen"].map
              fun s => { move with Promotion := s })
          else destLoop board p startSq n pieceMoves (moves ++ [move])
        else destLoop board p startSq n pieceMoves moves

/-- The middle loop of `getLegalMoves` ("for each piece of this type"). -/
def startLoop (board : Board) (color : Color) (p : Piece) :
    Nat → Nat → List Move → Option (List Move)
  | 0, _, _ => none
  | n + 1, pieceBB, moves =>
    if pieceBB = 0 then some moves
    else
      let startSq := TrailingZeros64 pieceBB
      let pieceBB := pieceBB &&& (pieceBB - 1)
      (pieceMovesOf board color p startSq).bind fun pieceMoves =>
        (destLoop board p startSq 65 pieceMoves moves).bind fun moves =>
          startLoop board color p n pieceBB moves

/-- Go `func getLegalMoves() []Move` of `api/server.go`, on the global `board`. -/
def getLegalMoves (board : Board) : Option (List Move) :=
  let color := board.Turn
  pieceRange.foldlM
    (fun moves p => startLoop board color p 65 (board.PieceBB color p) moves) []

/-! ## Games: sequences of submissions -/

/-- A scripted game: the moves are submitted in order through `MakeMove`; the value is the
final position when every one of them is accepted (result 1), and `none` otherwise. -/
def submitAll (b : Board) (moves : List (Nat × Nat × Piece)) : Option Board :=
  moves.foldlM
    (fun b m => (MakeMove b m.1 m.2.1 m.2.2).bind (fun r => if r.2 = 1 then some r.1 else none))
    b

/-- The states reachable from `NewBoard()` by successful submissions: `IsLegal` returns a
non-Empty piece, `MovePiece` applies it and `Turn` is flipped, which is a call of `MakeMove`
with result 1. -/
inductive Reachable : Board → Prop where
  | init : Reachable NewBoard
  | step {b b' : Board} {start end_ : Nat} {promotion : Piece} :
      Reachable b → MakeMove b start end_ promotion = some (b', 1) → Reachable b'

/-- The side `c` is in check on `b`: its king bitboard meets `AllAttacks(c.Other())`
(the test of `isInCheck` in `api/server.go` and of `IsLegal`). -/
def kingAttacked (b : Board) (c : Color) : Option Bool :=
  (b.AllAttacks c.Other).map (fun a => (b.PieceBB c Piece.Kings &&& a) != 0)

/-- The union of the six piece bitboards of a colour. -/
def unionBB (b : Board) (c : Color) : Nat :=
  b.PieceBB c Piece.Pawns ||| b.PieceBB c Piece.Knights ||| b.PieceBB c Piece.Bishops |||
    b.PieceBB c Piece.Rooks ||| b.PieceBB c Piece.Queens ||| b.PieceBB c Piece.Kings

/-- The occupancy bitboards agree with the piece bitboards. -/
def Consistent (b : Board) : Prop :=
  (∀ c, b.ColorBB c = unionBB b c) ∧ b.FullBB = b.ColorBB Color.White ||| b.ColorBB Color.Black

/-- A piece of kind `p` (not `Empty`) of colour `c` stands on square `sq`. -/
def At (b : Board) (c : Color) (p : Piece) (sq : Nat) : Prop :=
  p ≠ Piece.Empty ∧ (b.PieceBB c p).testBit sq = true

/-- No square holds two pieces, of the same colour or of different colours. -/
def Exclusive (b : Board) : Prop :=
  ∀ sq c p c' p', At b c p sq → At b c' p' sq → c = c' ∧ p = p'

/-- The original square of a king: e1 for White, e8 for Black. -/
def kingHome : Color → Nat
  | Color.White => 4
  | Color.Black => 60

/-- A king whose flag `RKRmoved[c][1]` is not set stands on its original square (if it is on
the board at all). -/
def KingAtHome (b : Board) : Prop :=
  ∀ c sq, b.RKRmoved c 1 = false → (b.PieceBB c Piece.Kings).testBit sq = true →
    sq = kingHome c

/-- A position with White to move in which the white bishop on e2 is pinned to the white king
on e1 by the black rook on e8 (the black king stands on a8). -/
def pinBoard : Board :=
  Board.CombineBB
    { PieceBB := fun c p =>
        match c, p with
        | Color.White, Piece.Kings => shl 1 4
        | Color.White, Piece.Bishops => shl 1 12
        | Color.Black, Piece.Rooks => shl 1 60
        | Color.Black, Piece.Kings => shl 1 56
        | _, _ => 0
      ColorBB := fun _ => 0
      FullBB := 0
      Turn := Color.White
      RKRmoved := fun _ _ => true
      EnPassantSquare := none
      MoveCounter := 0 }

/-- The position after 1.e4 e5 2.Qh5, Black to move. -/
def afterQh5 : Option Board :=
  submitAll NewBoard [(12, 28, Piece.Empty), (52, 36, Piece.Empty), (3, 39, Piece.Empty)]

/-- The position after 1.e4 f5 2.Qh5+, Black to move and in check. -/
def afterQh5Check : Option Board :=
  submitAll NewBoard [(12, 28, Piece.Empty), (53, 37, Piece.Empty), (3, 39, Piece.Empty)]

/-- The position after 1.e4 d5, White to move. -/
def afterE4D5 : Option Board :=
  submitAll NewBoard [(12, 28, Piece.Empty), (51, 35, Piece.Empty)]

/-- The position after 1.e4 Nc6 2.e5 d5, White to move. -/
def afterE5D5 : Option Board :=
  submitAll NewBoard
    [(12, 28, Piece.Empty), (57, 42, Piece.Empty), (28, 36, Piece.Empty), (51, 35, Piece.Empty)]

/-- The three invariants of the reachable states. -/
def Inv (b : Board) : Prop := Consistent b ∧ Exclusive b ∧ KingAtHome b

/-- The test of the castling branches of `MovePiece`: the piece is a king that goes from the
e-file to the c-file or to the g-file. -/
def isCastle (piece : Piece) (sf ef : Nat) : Prop :=
  piece = Piece.Kings ∧ sf = FileE ∧ (ef = FileC ∨ ef = FileG)

/-- The square on which the nested call of `MovePiece` puts the rook of a castling:
`MovePiece(Rooks, 1, 4, ..)`, `(7, 5)`, `(56, 59)`, `(63, 61)`. -/
def castleRookDest (col : Color) (ef : Nat) : Nat :=
  match col with
  | Color.White => if ef = FileC then 4 else 5
  | Color.Black => if ef = FileC then 59 else 61

/-- The game 1.e4 e5 2.Nf3 Nc6 3.Bc4 Bc5 4.O-O. -/
def castledGame : Option Board :=
  submitAll NewBoard
    [(12, 28, Piece.Empty), (52, 36, Piece.Empty), (6, 21, Piece.Empty), (57, 42, Piece.Empty),
      (5, 26, Piece.Empty), (61, 34, Piece.Empty), (4, 6, Piece.Empty)]

/-- The position after `castledGame` (the game is accepted move by move, see
`castledGame_isSome`). -/
def castledBoard : Board := castledGame.getD NewBoard

/-- The distance between two ranks or between two files. -/
def absDiff (a b : Nat) : Nat := (a - b) + (b - a)

/-- The statement `c--` on a `uint8` counter. -/
def dec8 (x : Nat) : Nat := (x + 255) % 256

/-- A well-formed position: the occupancy bitboards agree with the piece bitboards and every
piece bitboard is a 64-bit value. -/
def WellFormed (b : Board) : Prop :=
  Consistent b ∧ ∀ c p, b.PieceBB c p < 2 ^ 64

/-- The state `b'` is `b` or comes after it: it is reached from `b` by further calls of
`MovePiece` and changes of `Turn` to the other colour, in any order. -/
inductive Later : Board → Board → Prop where
  | refl (b : Board) : Later b b
  | move {b b1 : Board} {piece : Piece} {start end_ : Nat} {promotion : Piece}
      {r : Board × Bool} :
      Later b b1 → b1.MovePiece piece start end_ promotion = some r → Later b r.1
  | turn {b b1 : Board} : Later b b1 → Later b { b1 with Turn := b1.Turn.Other }

/-- The position after 1.e4 e5 2.Qh5 Nc6, White to move. -/
def afterQh5Nc6 : Option Board :=
  submitAll NewBoard
    [(12, 28, Piece.Empty), (52, 36, Piece.Empty), (3, 39, Piece.Empty), (57, 42, Piece.Empty)]

/-- The position after 1.d4 d5 2.Bf4 Nf6 3.Qd3 e6, White to move: c1 and d1 are empty, the
knight still stands on b1. -/
def afterQd3 : Option Board :=
  submitAll NewBoard
    [(11, 27, Piece.Empty), (51, 35, Piece.Empty), (2, 29, Piece.Empty), (62, 45, Piece.Empty),
      (3, 19, Piece.Empty), (52, 44, Piece.Empty)]

/-- The position after 1.d4 d5 2.Bf4 Nf6 3.Qd3 e6 4.Nc3 a6, White to move: b1, c1 and d1 are
empty, king and rooks of White have not moved. -/
def afterNc3 : Option Board :=
  submitAll NewBoard
    [(11, 27, Piece.Empty), (51, 35, Piece.Empty), (2, 29, Piece.Empty), (62, 45, Piece.Empty),
      (3, 19, Piece.Empty), (52, 44, Piece.Empty), (1, 18, Piece.Empty), (48, 40, Piece.Empty)]

/-- The position after 1.Nf3 b6 2.g3 Bb7 3.Bh3 Bxf3 4.a3 Bxh1, White to move: the black bishop
has captured the rook on h1, which had never moved. -/
def afterBxh1 : Option Board :=
  submitAll NewBoard
    [(6, 21, Piece.Empty), (49, 41, Piece.Empty), (14, 22, Piece.Empty), (58, 49, Piece.Empty),
      (5, 23, Piece.Empty), (49, 21, Piece.Empty), (8, 16, Piece.Empty), (21, 7, Piece.Empty)]

/-- The position after 1.e4 e5, White to move, as a board (the game is accepted move by
move, see `afterE4E5_isSome`). -/
def afterE4E5Game : Option Board :=
  submitAll NewBoard [(12, 28, Piece.Empty), (52, 36, Piece.Empty)]

/-- The board of `afterE4E5Game`. -/
def afterE4E5 : Board := afterE4E5Game.getD NewBoard

/-- The result of the call `MovePiece(Kings, e1, e2, Empty)` on `afterE4E5`. -/
def afterKe2 : Board × Bool :=
  (afterE4E5.MovePiece Piece.Kings 4 12 Piece.Empty).getD (afterE4E5, false)

/-- The game 1.e4 b6 2.Bc4 Ba6 3.Nf3 Bxc4: f1 and g1 are empty, king and rook of White have
not moved, and the black bishop on c4 attacks f1. -/
def afterBxc4Game : Option Board :=
  submitAll NewBoard
    [(12, 28, Piece.Empty), (49, 41, Piece.Empty), (5, 26, Piece.Empty), (58, 40, Piece.Empty),
      (6, 21, Piece.Empty), (40, 26, Piece.Empty)]

/-- The board of `afterBxc4Game`, White to move. -/
def afterBxc4 : Board := afterBxc4Game.getD NewBoard

/-! ## Square names, the standard position, the feature tensor -/

/-- The entries of the map literal `NotationToIndex` of `board.go`, in the order of the
source. -/
def NotationToIndexEntries : List (String × Nat) :=
  [("a1", 0), ("b1", 1), ("c1", 2), ("d1", 3), ("e1", 4), ("f1", 5), ("g1", 6), ("h1", 7),
    ("a2", 8), ("b2", 9), ("c2", 10), ("d2", 11), ("e2", 12), ("f2", 13), ("g2", 14), ("h2", 15),
    ("a3", 16), ("b3", 17), ("c3", 18), ("d3", 19), ("e3", 20), ("f3", 21), ("g3", 22),
    ("h3", 23),
    ("a4", 24), ("b4", 25), ("c4", 26), ("d4", 27), ("e4", 28), ("f4", 29), ("g4", 30),
    ("h4", 31),
    ("a5", 32), ("b5", 33), ("c5", 34), ("d5", 35), ("e5", 36), ("f5", 37), ("g5", 38),
    ("h5", 39),
    ("a6", 40), ("b6", 41), ("c6", 42), ("d6", 43), ("e6", 44), ("f6", 45), ("g6", 46),
    ("h6", 47),
    ("a7", 48), ("b7", 49), ("c7", 50), ("d7", 51), ("e7", 52), ("f7", 53), ("g7", 54),
    ("h7", 55),
    ("a8", 56), ("b8", 57), ("c8", 58), ("d8", 59), ("e8", 60), ("f8", 61), ("g8", 62),
    ("h8", 63)]

/-- A lookup `NotationToIndex[s]` in the map of `board.go`, in its two-result form
`sq, ok := NotationToIndex[s]`: `none` stands for `ok == false` (the one-result form then
gives the zero value, square 0). -/
def NotationToIndex (s : String) : Option Nat := NotationToIndexEntries.lookup s

/-- The name of the square on file `file` (a = 0) and rank `rank` (rank 1 = 0): the letter
of the file followed by the digit of the rank. -/
def squareName (file rank : Nat) : String :=
  String.mk [Char.ofNat (97 + file), Char.ofNat (49 + rank)]

/-- The standard initial position of chess, square by square: the pieces of White on ranks 1
and 2, those of Black on ranks 7 and 8; a square that is not listed is empty. -/
def standardPosition : List (String × Color × Piece) :=
  [("a1", Color.White, Piece.Rooks), ("b1", Color.White, Piece.Knights),
    ("c1", Color.White, Piece.Bishops), ("d1", Color.White, Piece.Queens),
    ("e1", Color.White, Piece.Kings), ("f1", Color.White, Piece.Bishops),
    ("g1", Color.White, Piece.Knights), ("h1", Color.White, Piece.Rooks),
    ("a2", Color.White, Piece.Pawns), ("b2", Color.White, Piece.Pawns),
    ("c2", Color.White, Piece.Pawns), ("d2", Color.White, Piece.Pawns),
    ("e2", Color.White, Piece.Pawns), ("f2", Color.White, Piece.Pawns),
    ("g2", Color.White, Piece.Pawns), ("h2", Color.White, Piece.Pawns),
    ("a7", Color.Black, Piece.Pawns), ("b7", Color.Black, Piece.Pawns),
    ("c7", Color.Black, Piece.Pawns), ("d7", Color.Black, Piece.Pawns),
    ("e7", Color.Black, Piece.Pawns), ("f7", Color.Black, Piece.Pawns),
    ("g7", Color.Black, Piece.Pawns), ("h7", Color.Black, Piece.Pawns),
    ("a8", Color.Black, Piece.Rooks), ("b8", Color.Black, Piece.Knights),
    ("c8", Color.Black, Piece.Bishops), ("d8", Color.Black, Piece.Queens),
    ("e8", Color.Black, Piece.Kings), ("f8", Color.Black, Piece.Bishops),
    ("g8", Color.Black, Piece.Knights), ("h8", Color.Black, Piece.Rooks)]

/-- The test of channel 17 in `ToTensor`: `board.EnPassantSquare != nil &&
board.EnPassantSquare.GetRank() == Square(row).GetRank() &&
board.EnPassantSquare.GetFile() == Square(col).GetFile()`. -/
def onEnPassantTarget (board : Board) (row col : Nat) : Option Bool :=
  match board.EnPassantSquare with
  | none => some false
  | some ep =>
    (GetRank ep).bind fun epRank =>
      (GetRank (row % 256)).map fun rowRank =>
        decide (epRank = rowRank ∧ GetFile ep = GetFile (col % 256))

/-- The `float32` value nearest to the rational `q`, ties going to the even significand, for
`q` that is 0 or in the range of the normal numbers: the result of a correctly rounded
`float32` conversion or operation whose exact result is `q` (24 bits of significand). -/
def roundFloat32 (q : Rat) : Rat :=
  if q ≤ 0 then 0
  else
    let e : Int := Int.log 2 q
    let ulp : Rat := (2 : Rat) ^ (e - 23)
    let m : Rat := q / ulp
    let f : Int := ⌊m⌋
    let r : Rat := m - f
    let k : Int :=
      if r < 1 / 2 then f else if 1 / 2 < r then f + 1 else if f % 2 = 0 then f else f + 1
    k * ulp

/-- The body of the two loops of `ToTensor` for the cell `tensor[row][col]`: the nineteen
channels of the cell after the body has run, given as a list of the rational values of the
`float32` entries.  A channel that no statement of the body assigns keeps the zero value of
the array.  Channel 18 is `float32(board.MoveCounter) / 100.0`: the conversion, then the
`float32` division, each rounded to `float32`. -/
def tensorCell (board : Board) (row col : Nat) : Option (List Rat) :=
  let square := (row * 8 + col) % 256
  let color := board.Turn
  let piece := board.GetPieceAt square color
  let plane (c : Color) (p : Piece) : Rat := if color = c ∧ piece = p then 1 else 0
  (board.AllAttacks color.Other).bind fun opBB =>
  let whiteCastles := GetCastles color board.FullBB (board.RKRmoved Color.White) opBB
  let blackCastles := GetCastles color board.FullBB (board.RKRmoved Color.Black) opBB
  (onEnPassantTarget board row col).map fun (onTarget : Bool) =>
  [plane Color.White Piece.Pawns, plane Color.White Piece.Knights,
    plane Color.White Piece.Bishops, plane Color.White Piece.Rooks,
    plane Color.White Piece.Queens, plane Color.White Piece.Kings,
    plane Color.Black Piece.Pawns, plane Color.Black Piece.Knights,
    plane Color.Black Piece.Bishops, plane Color.Black Piece.Rooks,
    plane Color.Black Piece.Queens, plane Color.Black Piece.Kings,
    (match color with
      | Color.White => 1
      | Color.Black => 0),
    (if whiteCastles &&& FileG ≠ 0 then 1 else 1),
    (if whiteCastles &&& FileC ≠ 0 then 1 else 1),
    (if blackCastles &&& FileG ≠ 0 then 1 else 1),
    (if blackCastles &&& FileC ≠ 0 then 1 else 1),
    (if onTarget then 1 else 0),
    roundFloat32 (roundFloat32 (board.MoveCounter : Rat) / 100)]

/-- Go `func (board *Board) ToTensor() [8][8][19]float32`: the cells by row and column. -/
def Board.ToTensor (board : Board) : Option (List (List (List Rat))) :=
  (List.range 8).mapM fun row => (List.range 8).mapM fun col => tensorCell board row col

/-- The squares that the pawns of a colour attack, in words: `sq` is occupied by the other
colour and lies one rank forward (towards the other colour) and one file to the left or to the
right of some pawn of `color`. -/
def pawnAttacked (b : Board) (color : Color) (sq : Nat) : Bool :=
  decide (sq < 64) && (b.ColorBB color.Other).testBit sq &&
    (List.range 64).any fun p =>
      (b.PieceBB color Piece.Pawns).testBit p &&
        (match color with
          | Color.White => decide (sq / 8 = p / 8 + 1)
          | Color.Black => decide (sq / 8 + 1 = p / 8)) &&
        decide (absDiff (sq % 8) (p % 8) = 1)

/-- The game 1.e4 e5 2.Nf3 Nc6 3.d4 exd4. -/
def afterExd4 : Option Board :=
  submitAll NewBoard
    [(12, 28, Piece.Empty), (52, 36, Piece.Empty), (6, 21, Piece.Empty), (57, 42, Piece.Empty),
      (11, 27, Piece.Empty), (36, 27, Piece.Empty)]

/-- The position after 1.g4 h5 2.a3 hxg4 3.a4 g3 4.a5 gxh2 5.a6, Black to move: the black pawn
on h2 can capture the knight on g1 and promote. -/
def beforePromotion : Option Board :=
  submitAll NewBoard
    [(14, 30, Piece.Empty), (55, 39, Piece.Empty), (8, 16, Piece.Empty), (39, 30, Piece.Empty),
      (16, 24, Piece.Empty), (30, 22, Piece.Empty), (24, 32, Piece.Empty),
      (22, 15, Piece.Empty), (32, 40, Piece.Empty)]

/-- The position after 1.e4 e5 2.Ke2 Ke7, White to move: both kings have moved. -/
def afterKe2Ke7 : Option Board :=
  submitAll NewBoard
    [(12, 28, Piece.Empty), (52, 36, Piece.Empty), (4, 12, Piece.Empty), (60, 52, Piece.Empty)]

/-- The position after 1.b4 a5, White to move: the black pawn on a5 stands diagonally in front
of the white pawn on b4, and the white pawn on b4 diagonally in front of the black one. -/
def afterB4A5 : Option Board :=
  submitAll NewBoard [(9, 25, Piece.Empty), (48, 32, Piece.Empty)]

/-- The position after 1.a4 h5 2.b3 h4, White to move: a white pawn on a4, a black pawn on
h4. -/
def afterA4H4 : Option Board :=
  submitAll NewBoard
    [(8, 24, Piece.Empty), (55, 39, Piece.Empty), (9, 17, Piece.Empty), (39, 31, Piece.Empty)]

/-- The position after 1.h3 Nc6 2.h4 Nb4 3.h5 Nxa2 4.h6 Nxc1, White to move: a black knight
on c1, the white pawn on e2 has not moved. -/
def afterNxc1 : Option Board :=
  submitAll NewBoard
    [(15, 23, Piece.Empty), (57, 42, Piece.Empty), (23, 31, Piece.Empty), (42, 25, Piece.Empty),
      (31, 39, Piece.Empty), (25, 8, Piece.Empty), (39, 47, Piece.Empty), (8, 2, Piece.Empty)]

/-! ## The receiver `*Board` as state

`IsLegal` and the methods it calls have the receiver `b *Board`, through which a method can
assign the fields of the board.  The definitions of this section give, next to the value a
call returns, the value of `*b` after the call, statement by statement; `MakeMoveRun` is
`MakeMove` of `HTTP/bridge.go` on the global `board` with that state passed from call to
call. -/

/-- Go `func (b *Board) GetPieceAt(sq Square, color Color) Piece` with the value of `*b`
after the call: the loop reads `b.PieceBB[color][p]` through `GetBit`, whose receiver is a
copy of the bitboard, and assigns nothing. -/
def Board.GetPieceAtRun (b : Board) (sq : Nat) (color : Color) : Board × Piece :=
  (b, (pieceRange.find? (fun p => GetBit (b.PieceBB color p) sq)).getD Piece.Empty)

/-- Go `func (b *Board) GetPawnAttacks(color Color) Bitboard` with the value of `*b` after
the call: `pawns` and `moves` are local variables, the fields of `*b` are read only. -/
def Board.GetPawnAttacksRun (b : Board) (color : Color) : Board × Nat :=
  let pawns := b.PieceBB color Piece.Pawns
  match color with
  | Color.White =>
    (b, ((shl pawns 7 &&& bnot FileA) &&& b.ColorBB Color.Black) |||
      ((shl pawns 9 &&& bnot FileH) &&& b.ColorBB Color.Black))
  | Color.Black =>
    (b, (((pawns >>> 7) &&& bnot FileA) &&& b.ColorBB Color.White) |||
      (((pawns >>> 9) &&& bnot FileH) &&& b.ColorBB Color.White))

/-- The loop `for bb != 0 { loc := bits.TrailingZeros64(bb); bb &= bb - 1; moves |= f(loc) }`
inside a method with receiver `b *Board`, with the value of `*b` carried through the rounds:
`bb` is a local copy of a piece bitboard (`knights := b.PieceBB[color][Knights]`), so that
`bb &= bb - 1` changes the copy, and the round reads `*b` (the first argument of `f`). -/
def bitLoopRun (f : Board → Nat → Option Nat) : Nat → Board → Nat → Nat → Option (Board × Nat)
  | 0, _, _, _ => none
  | n + 1, b, bb, moves =>
    if bb = 0 then some (b, moves)
    else
      (f b (TrailingZeros64 bb)).bind fun m =>
        bitLoopRun f n b (bb &&& (bb - 1)) (moves ||| m)

/-- Go `func (b *Board) GetKnightMoves(color Color) Bitboard` with the value of `*b` after
the call. -/
def Board.GetKnightMovesRun (b : Board) (color : Color) : Option (Board × Nat) :=
  bitLoopRun
    (fun b loc => (allKnightMoves.get? loc).map (fun m => m &&& bnot (b.ColorBB color)))
    65 b (b.PieceBB color Piece.Knights) 0

/-- Go `func (b *Board) GetBishopMoves(color Color) Bitboard` with the value of `*b` after
the call. -/
def Board.GetBishopMovesRun (b : Board) (color : Color) : Option (Board × Nat) :=
  bitLoopRun
    (fun b loc => (Chess.GetBishopMoves loc b.FullBB).map (fun m => m &&& bnot (b.ColorBB color)))
    65 b (b.PieceBB color Piece.Bishops) 0

/-- Go `func (b *Board) GetRookMoves(color Color) Bitboard` with the value of `*b` after the
call. -/
def Board.GetRookMovesRun (b : Board) (color : Color) : Option (Board × Nat) :=
  bitLoopRun
    (fun b loc => (Chess.GetRookMoves loc b.FullBB).map (fun m => m &&& bnot (b.ColorBB color)))
    65 b (b.PieceBB color Piece.Rooks) 0

/-- Go `func (b *Board) GetQueenMoves(color Color) Bitboard` with the value of `*b` after
the call. -/
def Board.GetQueenMovesRun (b : Board) (color : Color) : Option (Board × Nat) :=
  bitLoopRun
    (fun b loc => (Chess.GetQueenMoves loc b.FullBB).map (fun m => m &&& bnot (b.ColorBB color)))
    65 b (b.PieceBB color Piece.Queens) 0

/-- Go `func (b *Board) GetKingMoves(color Color) Bitboard` with the value of `*b` after the
call: `king`, `moves` and `loc` are local variables. -/
def Board.GetKingMovesRun (b : Board) (color : Color) : Board × Nat :=
  let king := b.PieceBB color Piece.Kings
  let loc := TrailingZeros64 king
  (b, Chess.GetKingMoves loc b.FullBB color (b.RKRmoved color) 0 &&& bnot (b.ColorBB color))

/-- Go `func (b *Board) AllAttacks(color Color) Bitboard` with the value of `*b` after the
call: the six calls in the order of the source, each on the board that the call before it
left. -/
def Board.AllAttacksRun (b : Board) (color : Color) : Option (Board × Nat) :=
  let r0 := b.GetPawnAttacksRun color
  (r0.1.GetKnightMovesRun color).bind fun r1 =>
  (r1.1.GetBishopMovesRun color).bind fun r2 =>
  (r2.1.GetRookMovesRun color).bind fun r3 =>
  (r3.1.GetQueenMovesRun color).bind fun r4 =>
  let r5 := r4.1.GetKingMovesRun color
  some (r5.1, r0.2 ||| r1.2 ||| (r2.2 ||| r3.2) ||| (r4.2 ||| r5.2))

/-- The statements of `IsLegal` from `var endBB Bitboard = end.GetFile() & end.GetRank()` to
its end, for the values `color`, `opponentMoves` and `piece` of the local variables: they call
no method of the board and assign none of its fields; they read `b.FullBB`, `b.ColorBB`,
`b.RKRmoved` and `b.PieceBB`. -/
def IsLegal.switch (b : Board) (color : Color) (opponentMoves : Nat) (piece : Piece)
    (start end_ : Nat) (promotion : Piece) : Option (Piece × Piece) :=
  let otherColor := color.Other
  (GetRank end_).bind fun endRank =>
  let endBB := GetFile end_ &&& endRank
  let notOwn := bnot (b.ColorBB color)
  if promotion = Piece.Pawns ∨ promotion = Piece.Kings then some (Piece.Empty, Piece.Empty)
  else
    match piece with
    | Piece.Empty => some (Piece.Empty, Piece.Empty)
    | Piece.Pawns =>
      let pawnMoves := Chess.GetPawnMoves start b.FullBB color (b.ColorBB otherColor)
      if (pawnMoves &&& endBB &&& notOwn) ≠ 0 then
        if endRank = Rank8 ∨ endRank = Rank1 then
          if promotion ≠ Piece.Empty then
            some (IsLegal.finish b color opponentMoves promotion Piece.Pawns promotion)
          else some (Piece.Empty, Piece.Empty)
        else some (IsLegal.finish b color opponentMoves promotion Piece.Pawns Piece.Empty)
      else some (IsLegal.finish b color opponentMoves promotion Piece.Empty Piece.Empty)
    | Piece.Knights =>
      (allKnightMoves.get? start).map fun m =>
        IsLegal.finish b color opponentMoves promotion
          (if (m &&& endBB &&& notOwn) ≠ 0 then Piece.Knights else Piece.Empty) Piece.Empty
    | Piece.Bishops =>
      (Chess.GetBishopMoves start b.FullBB).map fun m =>
        IsLegal.finish b color opponentMoves promotion
          (if (m &&& endBB &&& notOwn) ≠ 0 then Piece.Bishops else Piece.Empty) Piece.Empty
    | Piece.Rooks =>
      (Chess.GetRookMoves start b.FullBB).map fun m =>
        IsLegal.finish b color opponentMoves promotion
          (if (m &&& endBB &&& notOwn) ≠ 0 then Piece.Rooks else Piece.Empty) Piece.Empty
    | Piece.Queens =>
      (Chess.GetQueenMoves start b.FullBB).map fun m =>
        IsLegal.finish b color opponentMoves promotion
          (if (m &&& endBB &&& notOwn) ≠ 0 then Piece.Queens else Piece.Empty) Piece.Empty
    | Piece.Kings =>
      let m := Chess.GetKingMoves start b.FullBB color (b.RKRmoved color) opponentMoves
      some (IsLegal.finish b color opponentMoves promotion
        (if (m &&& endBB &&& notOwn &&& bnot opponentMoves) ≠ 0 then Piece.Kings
          else Piece.Empty) Piece.Empty)

/-- Go `func (b *Board) IsLegal(start Square, end Square, promotion Piece) (Piece, Piece)`
with the value of `*b` after the call: `color := b.Turn` is read first, then
`b.AllAttacks(otherColor)` and `b.GetPieceAt(start, color)` run one after the other on the
board, and the remaining statements read the board that these calls left. -/
def Board.IsLegalRun (b : Board) (start end_ : Nat) (promotion : Piece) :
    Option (Board × (Piece × Piece)) :=
  let color := b.Turn
  let otherColor := color.Other
  (b.AllAttacksRun otherColor).bind fun r1 =>
    let r2 := r1.1.GetPieceAtRun start color
    (IsLegal.switch r2.1 color r1.2 r2.2 start end_ promotion).map fun r => (r2.1, r)

/-- Go `func MakeMove(start, end C.int, promotion C.int) C.int` of `HTTP/bridge.go` (and the
same statements of `moveHandler` in `api/server.go`) on the global `board`, with the board
that `IsLegal` left passed on: on `piece == chess.Empty` the function returns 0 at once,
otherwise `MovePiece` and the change of `Turn` run on that board. -/
def MakeMoveRun (board : Board) (start end_ : Nat) (promotion : Piece) :
    Option (Board × Nat) :=
  (board.IsLegalRun start end_ promotion).bind fun r =>
    if r.2.1 = Piece.Empty then some (r.1, 0)
    else
      (r.1.MovePiece r.2.1 start end_ r.2.2).map fun m =>
        ({ m.1 with Turn := m.1.Turn.Other }, 1)

/-! ## Bit-level lemmas and the invariants of `MovePiece` -/

theorem testBit_shl_one (sq i : Nat) :
    (shl 1 sq).testBit i = (decide (i = sq) && decide (i < 64)) := by
  unfold shl
  rw [Nat.testBit_mod_two_pow, Nat.one_shiftLeft, Nat.testBit_two_pow]
  by_cases h1 : i = sq <;> by_cases h2 : i < 64 <;> simp [h1, h2, eq_comm]
  · omega
  
theorem testBit_bnot (x i : Nat) :
    (bnot x).testBit i = (decide (i < 64) && !x.testBit i) := by
  unfold bnot
  rw [Nat.testBit_xor, Nat.testBit_two_pow_sub_one, Nat.testBit_mod_two_pow]
  by_cases h2 : i < 64 <;> simp [h2]

theorem testBit_SetBit (bb sq i : Nat) :
    (SetBit bb sq).testBit i = (bb.testBit i || (decide (i = sq) && decide (i < 64))) := by
  simp [SetBit, testBit_shl_one]

theorem testBit_ZeroBit (bb sq i : Nat) :
    (ZeroBit bb sq).testBit i = (bb.testBit i && (decide (i < 64) && !decide (i = sq))) := by
  simp only [ZeroBit, Nat.testBit_and, testBit_bnot, testBit_shl_one]
  by_cases h1 : i = sq <;> by_cases h2 : i < 64 <;> simp [h1, h2]

theorem and_shl_one_ne_zero (bb sq : Nat) :
    (bb &&& shl 1 sq) ≠ 0 ↔ bb.testBit sq = true ∧ sq < 64 := by
  constructor
  · intro h
    obtain ⟨i, hi⟩ := Nat.ne_zero_implies_bit_true h
    simp only [Nat.testBit_and, testBit_shl_one, Bool.and_eq_true, decide_eq_true_eq] at hi
    obtain ⟨h1, h2, h3⟩ := hi
    subst h2
    exact ⟨h1, h3⟩
  · rintro ⟨h1, h2⟩ h0
    have := congrArg (fun x => x.testBit sq) h0
    simp [testBit_shl_one, h1, h2] at this

theorem captureLoop_eq (b : Board) (o : Color) (e : Nat) :
    captureLoop b o e = pieceRange.foldl (captureStep o e) (b, false) := rfl

theorem captureStep_frame (o : Color) (e : Nat) (acc : Board × Bool) (p : Piece) :
    (captureStep o e acc p).1.Turn = acc.1.Turn ∧
    (captureStep o e acc p).1.RKRmoved = acc.1.RKRmoved ∧
    (captureStep o e acc p).1.EnPassantSquare = acc.1.EnPassantSquare ∧
    (captureStep o e acc p).1.MoveCounter = acc.1.MoveCounter := by
  unfold captureStep
  split <;> simp [Board.setPieceBB]

theorem captureStep_sub (o : Color) (e : Nat) (acc : Board × Bool) (p : Piece) (c : Color) (q : Piece) (i : Nat)
    (h : ((captureStep o e acc p).1.PieceBB c q).testBit i = true) :
    (acc.1.PieceBB c q).testBit i = true ∧ (c = o → q = p → e < 64 → i ≠ e) := by
  unfold captureStep at h
  split at h
  · rename_i hne
    simp only [Board.setPieceBB] at h
    split at h
    · rename_i hcq
      obtain ⟨rfl, rfl⟩ := hcq
      rw [testBit_ZeroBit] at h
      simp only [Bool.and_eq_true, decide_eq_true_eq, Bool.not_eq_true', decide_eq_false_iff_not] at h
      exact ⟨h.1, fun _ _ _ => h.2.2⟩
    · rename_i hcq
      exact ⟨h, fun h1 h2 => absurd ⟨h1, h2⟩ hcq⟩
  · rename_i hne
    refine ⟨h, ?_⟩
    rintro rfl rfl he rfl
    apply hne
    rw [and_shl_one_ne_zero]
    exact ⟨h, he⟩

theorem captureFold_frame (o : Color) (e : Nat) (l : List Piece) (acc : Board × Bool) :
    (l.foldl (captureStep o e) acc).1.Turn = acc.1.Turn ∧
    (l.foldl (captureStep o e) acc).1.RKRmoved = acc.1.RKRmoved ∧
    (l.foldl (captureStep o e) acc).1.EnPassantSquare = acc.1.EnPassantSquare ∧
    (l.foldl (captureStep o e) acc).1.MoveCounter = acc.1.MoveCounter := by
  induction l generalizing acc with
  | nil => simp
  | cons p l ih =>
    simp only [List.foldl_cons]
    obtain ⟨h1, h2, h3, h4⟩ := ih (captureStep o e acc p)
    obtain ⟨g1, g2, g3, g4⟩ := captureStep_frame o e acc p
    exact ⟨h1.trans g1, h2.trans g2, h3.trans g3, h4.trans g4⟩

theorem captureFold_sub (o : Color) (e : Nat) (l : List Piece) (acc : Board × Bool) (c : Color) (q : Piece) (i : Nat)
    (h : ((l.foldl (captureStep o e) acc).1.PieceBB c q).testBit i = true) :
    (acc.1.PieceBB c q).testBit i = true ∧ (c = o → q ∈ l → e < 64 → i ≠ e) := by
  induction l generalizing acc with
  | nil => exact ⟨h, fun _ hq => by simp at hq⟩
  | cons p l ih =>
    simp only [List.foldl_cons] at h
    obtain ⟨h1, h2⟩ := ih (captureStep o e acc p) h
    obtain ⟨g1, g2⟩ := captureStep_sub o e acc p c q i h1
    refine ⟨g1, fun hc hq he => ?_⟩
    rcases List.mem_cons.1 hq with rfl | hq
    · exact g2 hc rfl he
    · exact h2 hc hq he

theorem mem_pieceRange {p : Piece} (h : p ≠ Piece.Empty) : p ∈ pieceRange := by
  cases p <;> simp [pieceRange] at h ⊢

theorem At_captureLoop {b : Board} {o : Color} {e : Nat} {c : Color} {p : Piece} {sq : Nat} (he : e < 64)
    (h : At (captureLoop b o e).1 c p sq) : At b c p sq ∧ ¬ (c = o ∧ sq = e) := by
  obtain ⟨hp, h⟩ := h
  obtain ⟨h1, h2⟩ := captureFold_sub o e pieceRange (b, false) c p sq h
  exact ⟨⟨hp, h1⟩, fun ⟨hc, hs⟩ => h2 hc (mem_pieceRange hp) he hs⟩


theorem CombineBB_consistent (b : Board) : Consistent b.CombineBB := by
  constructor
  · intro c
    cases c <;> simp [Board.CombineBB, unionBB, pieceRange]
  · simp [Board.CombineBB]

theorem placePiece_frame (X : Board) (col : Color) (piece : Piece) (s e : Nat) (promo : Piece) :
    (placePiece X col piece s e promo).Turn = X.Turn ∧
    (placePiece X col piece s e promo).RKRmoved = X.RKRmoved ∧
    (placePiece X col piece s e promo).EnPassantSquare = X.EnPassantSquare := by
  unfold placePiece
  split <;> simp [Board.setPieceBB, Board.CombineBB]

theorem placePiece_consistent (X : Board) (col : Color) (piece : Piece) (s e : Nat) (promo : Piece) :
    Consistent (placePiece X col piece s e promo) := by
  unfold placePiece
  exact CombineBB_consistent _

theorem At_placePiece {X : Board} {col : Color} {piece : Piece} {s e : Nat} {promo : Piece}
    {c : Color} {p : Piece} {sq : Nat}
    (h : At (placePiece X col piece s e promo) c p sq) :
    (At X c p sq ∨ (c = col ∧ p = (if promo = Piece.Empty then piece else promo) ∧ sq = e)) ∧
      ¬ (c = col ∧ p = piece ∧ sq = s) := by
  obtain ⟨hp, h⟩ := h
  unfold placePiece at h
  simp only [Board.CombineBB, Board.setPieceBB] at h
  by_cases hpr : promo = Piece.Empty
  · simp only [hpr, if_true] at h ⊢
    by_cases hcp : c = col ∧ p = piece
    · simp only [hcp, and_self, if_true, testBit_ZeroBit, testBit_SetBit, Bool.and_eq_true,
        Bool.or_eq_true, decide_eq_true_eq, Bool.not_eq_true', decide_eq_false_iff_not] at h
      obtain ⟨rfl, rfl⟩ := hcp
      refine ⟨?_, fun hh => h.2.2 hh.2.2⟩
      rcases h.1 with h1 | h1
      · exact Or.inl ⟨hp, h1⟩
      · exact Or.inr ⟨rfl, rfl, h1.1⟩
    · simp only [hcp, if_false] at h
      exact ⟨Or.inl ⟨hp, h⟩, fun hh => hcp ⟨hh.1, hh.2.1⟩⟩
  · simp only [hpr, if_false] at h ⊢
    by_cases hcp : c = col ∧ p = piece
    · simp only [hcp, and_self, if_true, testBit_ZeroBit, Bool.and_eq_true,
        decide_eq_true_eq, Bool.not_eq_true', decide_eq_false_iff_not] at h
      obtain ⟨rfl, rfl⟩ := hcp
      refine ⟨?_, fun hh => h.2.2 hh.2.2⟩
      obtain ⟨h1, -, -⟩ := h
      split at h1
      · rename_i hq
        rw [testBit_SetBit] at h1
        simp only [Bool.or_eq_true, Bool.and_eq_true, decide_eq_true_eq] at h1
        rcases h1 with h1 | h1
        · exact Or.inl ⟨hp, hq.2 ▸ h1⟩
        · exact Or.inr ⟨rfl, hq.2, h1.1⟩
      · exact Or.inl ⟨hp, h1⟩
    · simp only [hcp, if_false] at h
      refine ⟨?_, fun hh => hcp ⟨hh.1, hh.2.1⟩⟩
      split at h
      · rename_i hq
        rw [testBit_SetBit] at h
        simp only [Bool.or_eq_true, Bool.and_eq_true, decide_eq_true_eq] at h
        rcases h with h1 | h1
        · exact Or.inl ⟨hp, hq.1 ▸ hq.2 ▸ h1⟩
        · exact Or.inr ⟨hq.1, hq.2, h1.1⟩
      · exact Or.inl ⟨hp, h⟩


theorem GetRank_some_lt {sq r : Nat} (h : GetRank sq = some r) : sq < 64 := by
  unfold GetRank at h
  rw [List.get?_eq_some] at h
  obtain ⟨hl, -⟩ := h
  simp at hl
  omega

theorem specialRules_plain (call : Board → Piece → Nat → Nat → Piece → Option (Board × Bool))
    (b : Board) (col : Color) (piece : Piece) (sf sr ef er e : Nat)
    (h : ¬ isCastle piece sf ef) :
    ∃ X, specialRules call b col piece sf sr ef er e = some X ∧ X.PieceBB = b.PieceBB ∧
      X.Turn = b.Turn ∧ (∀ c i, b.RKRmoved c i = true → X.RKRmoved c i = true) ∧
      (piece = Piece.Kings → X.RKRmoved col 1 = true) := by
  unfold specialRules
  by_cases hk : piece = Piece.Kings
  · have h1 : ¬ (sf = FileE ∧ ef = FileC) := fun hh => h ⟨hk, hh.1, Or.inl hh.2⟩
    have h2 : ¬ (sf = FileE ∧ ef = FileG) := fun hh => h ⟨hk, hh.1, Or.inr hh.2⟩
    simp only [hk, h1, h2, if_true, if_false, Option.map_some']
    refine ⟨_, rfl, rfl, rfl, ?_, ?_⟩
    · intro c i hci
      simp [Board.setRKR, hci]
    · intro _
      simp [Board.setRKR]
  · simp only [hk, if_false]
    by_cases hr : piece = Piece.Rooks
    · simp only [hr, if_true]
      split
      · exact ⟨_, rfl, rfl, rfl, fun c i hci => by simp [Board.setRKR, hci], fun hh => by cases hh⟩
      · split
        · exact ⟨_, rfl, rfl, rfl, fun c i hci => by simp [Board.setRKR, hci], fun hh => by cases hh⟩
        · exact ⟨_, rfl, rfl, rfl, fun c i hci => hci, fun hh => by cases hh⟩
    · simp only [hr, if_false]
      by_cases hpw : piece = Piece.Pawns
      · simp only [hpw, if_true]
        split
        · exact ⟨_, rfl, rfl, rfl, fun c i hci => hci, fun hh => by cases hh⟩
        · split
          · exact ⟨_, rfl, rfl, rfl, fun c i hci => hci, fun hh => by cases hh⟩
          · exact ⟨_, rfl, rfl, rfl, fun c i hci => hci, fun hh => by cases hh⟩
      · simp only [hpw, if_false]
        exact ⟨_, rfl, rfl, rfl, fun c i hci => hci, fun hh => by cases hh⟩

theorem MovePieceAux_plain {d : Nat} {b : Board} {piece : Piece} {s e : Nat} {promo : Piece}
    {b' : Board} {cap : Bool}
    (h : MovePieceAux (d + 1) b piece s e promo = some (b', cap)) (hp : piece ≠ Piece.Empty)
    (hnc : ¬ isCastle piece (GetFile s) (GetFile e)) :
    e < 64 ∧ b'.Turn = b.Turn ∧ Consistent b' ∧
    (∀ c i, b.RKRmoved c i = true → b'.RKRmoved c i = true) ∧
    (piece = Piece.Kings → b'.RKRmoved b.Turn 1 = true) ∧
    ∀ c p sq, At b' c p sq →
      ((At b c p sq ∧ ¬ (c = b.Turn.Other ∧ sq = e)) ∨
        (c = b.Turn ∧ p = (if promo = Piece.Empty then piece else promo) ∧ sq = e)) ∧
      ¬ (c = b.Turn ∧ p = piece ∧ sq = s) := by
  unfold MovePieceAux at h
  simp only [Option.bind_eq_some, hp, if_false, Option.map_eq_some'] at h
  obtain ⟨sr, hsr, er, her, X, hX, hb'⟩ := h
  have he := GetRank_some_lt her
  obtain ⟨X', hX', hPB, hT, hR, hK⟩ := specialRules_plain (MovePieceAux d)
    (captureLoop b b.Turn.Other e).1 b.Turn piece (GetFile s) sr (GetFile e) er e hnc
  rw [hX'] at hX
  have hXX : X' = X := Option.some.inj hX
  subst hXX
  obtain ⟨f1, f2, f3, f4⟩ := captureFold_frame b.Turn.Other e pieceRange (b, false)
  simp only [Prod.mk.injEq] at hb'
  obtain ⟨rfl, -⟩ := hb'
  obtain ⟨g1, g2, g3⟩ := placePiece_frame X' b.Turn piece s e promo
  have hT' : X'.Turn = b.Turn := hT.trans f1
  refine ⟨he, g1.trans hT', placePiece_consistent _ _ _ _ _ _, ?_, ?_, ?_⟩
  · intro c i hci
    rw [g2]
    apply hR
    show (pieceRange.foldl (captureStep b.Turn.Other e) (b, false)).1.RKRmoved c i = true
    rw [f2]
    exact hci
  · intro hk
    rw [g2]
    exact hK hk
  · intro c p sq hat
    obtain ⟨h1, h2⟩ := At_placePiece hat
    refine ⟨?_, h2⟩
    rcases h1 with h1 | h1
    · left
      have : At (captureLoop b b.Turn.Other e).1 c p sq := ⟨h1.1, by rw [← hPB]; exact h1.2⟩
      exact At_captureLoop he this
    · right
      exact h1


theorem specialRules_castle (call : Board → Piece → Nat → Nat → Piece → Option (Board × Bool))
    (b : Board) (col : Color) (sf sr ef er e : Nat) (X : Board)
    (hc : isCastle Piece.Kings sf ef)
    (h : specialRules call b col Piece.Kings sf sr ef er e = some X) :
    ∃ rs r, call { b with MoveCounter := (b.MoveCounter + 255) % 256 } Piece.Rooks rs
        (castleRookDest col ef) Piece.Empty = some r ∧
      X.PieceBB = r.1.PieceBB ∧ X.Turn = r.1.Turn ∧
      (∀ c i, r.1.RKRmoved c i = true → X.RKRmoved c i = true) ∧
      X.RKRmoved col 1 = true := by
  obtain ⟨-, hsf, hef⟩ := hc
  have hGC : FileG ≠ FileC := by decide
  unfold specialRules at h
  rcases hef with hef | hef
  · simp only [hsf, hef, and_self, if_true, Option.map_map, Option.map_eq_some',
      Function.comp] at h
    obtain ⟨Y, hY, rfl⟩ := h
    cases col
    · simp only [castleRook, Option.map_eq_some'] at hY
      obtain ⟨r, hr, rfl⟩ := hY
      refine ⟨1, r, by simpa [castleRookDest, hef] using hr, rfl, rfl, ?_, ?_⟩
      · intro c i hci
        simp [Board.setRKR, hci]
      · simp [Board.setRKR]
    · simp only [castleRook, Option.map_eq_some'] at hY
      obtain ⟨r, hr, rfl⟩ := hY
      refine ⟨56, r, by simpa [castleRookDest, hef] using hr, rfl, rfl, ?_, ?_⟩
      · intro c i hci
        simp [Board.setRKR, hci]
      · simp [Board.setRKR]
  · simp only [hsf, hef, hGC, and_false, and_self, if_true, if_false, Option.map_map,
      Option.map_eq_some', Function.comp] at h
    obtain ⟨Y, hY, rfl⟩ := h
    cases col
    · simp only [castleRook, Option.map_eq_some'] at hY
      obtain ⟨r, hr, rfl⟩ := hY
      refine ⟨7, r, by simpa [castleRookDest, hef, hGC] using hr, rfl, rfl, ?_, ?_⟩
      · intro c i hci
        simp [Board.setRKR, hci]
      · simp [Board.setRKR]
    · simp only [castleRook, Option.map_eq_some'] at hY
      obtain ⟨r, hr, rfl⟩ := hY
      refine ⟨63, r, by simpa [castleRookDest, hef, hGC] using hr, rfl, rfl, ?_, ?_⟩
      · intro c i hci
        simp [Board.setRKR, hci]
      · simp [Board.setRKR]

theorem MovePieceAux_castle {d : Nat} {b : Board} {s e : Nat} {promo : Piece}
    {b' : Board} {cap : Bool}
    (h : MovePieceAux (d + 2) b Piece.Kings s e promo = some (b', cap))
    (hc : isCastle Piece.Kings (GetFile s) (GetFile e)) :
    e < 64 ∧ b'.Turn = b.Turn ∧ Consistent b' ∧
    (∀ c i, b.RKRmoved c i = true → b'.RKRmoved c i = true) ∧
    b'.RKRmoved b.Turn 1 = true ∧
    ∀ c p sq, At b' c p sq →
      ((At b c p sq ∧ ¬ (c = b.Turn.Other ∧ sq = e)) ∨
        (c = b.Turn ∧ p = Piece.Rooks ∧ sq = castleRookDest b.Turn (GetFile e)) ∨
        (c = b.Turn ∧ p = (if promo = Piece.Empty then Piece.Kings else promo) ∧ sq = e)) ∧
      ¬ (c = b.Turn ∧ p = Piece.Kings ∧ sq = s) := by
  unfold MovePieceAux at h
  simp only [Option.bind_eq_some, if_false, Option.map_eq_some', reduceCtorEq] at h
  obtain ⟨sr, hsr, er, her, X, hX, hb'⟩ := h
  have he := GetRank_some_lt her
  obtain ⟨f1, f2, f3, f4⟩ := captureFold_frame b.Turn.Other e pieceRange (b, false)
  obtain ⟨rs, r, hr, hPB, hT, hR, hK⟩ := specialRules_castle _ _ _ _ _ _ _ _ _ hc hX
  obtain ⟨rb, rc⟩ := r
  have hnc : ¬ isCastle Piece.Rooks (GetFile rs) (GetFile (castleRookDest b.Turn (GetFile e))) :=
    fun hh => by cases hh.1
  obtain ⟨-, i2, -, i4, -, i6⟩ := MovePieceAux_plain hr (by decide) hnc
  simp only [Prod.mk.injEq] at hb'
  obtain ⟨rfl, -⟩ := hb'
  obtain ⟨g1, g2, g3⟩ := placePiece_frame X b.Turn Piece.Kings s e promo
  have hcT : (captureLoop b b.Turn.Other e).1.Turn = b.Turn := f1
  have hcR : (captureLoop b b.Turn.Other e).1.RKRmoved = b.RKRmoved := f2
  simp only at i2 i4 i6 hT hR hPB
  refine ⟨he, ?_, placePiece_consistent _ _ _ _ _ _, ?_, ?_, ?_⟩
  · rw [g1, hT, i2, hcT]
  · intro c i hci
    rw [g2]
    apply hR
    apply i4
    rw [hcR]
    exact hci
  · rw [g2]
    exact hK
  · intro c p sq hat
    obtain ⟨h1, h2⟩ := At_placePiece hat
    refine ⟨?_, h2⟩
    rcases h1 with h1 | h1
    · have h3 : At rb c p sq := ⟨h1.1, by rw [← hPB]; exact h1.2⟩
      obtain ⟨h4, -⟩ := i6 c p sq h3
      rcases h4 with h4 | h4
      · left
        have : At (captureLoop b b.Turn.Other e).1 c p sq := h4.1
        exact At_captureLoop he this
      · right; left
        rw [hcT] at h4
        simpa using h4
    · right; right
      exact h1

theorem endBB_table : ∀ e < 64, (GetRank e).map (fun r => GetFile e &&& r) = some (2 ^ e) := by
  decide!

theorem endBB_eq {e er : Nat} (h : GetRank e = some er) : GetFile e &&& er = 2 ^ e := by
  have := endBB_table e (GetRank_some_lt h)
  rw [h] at this
  simpa using this

theorem and_two_pow_ne_zero {m e x : Nat} (h : (m &&& 2 ^ e &&& x) ≠ 0) :
    m.testBit e = true ∧ x.testBit e = true := by
  obtain ⟨i, hi⟩ := Nat.ne_zero_implies_bit_true h
  simp only [Nat.testBit_and, Nat.testBit_two_pow, Bool.and_eq_true, decide_eq_true_eq] at hi
  obtain ⟨⟨h1, h2⟩, h3⟩ := hi
  subst h2
  exact ⟨h1, h3⟩

theorem finish_accept {b : Board} {col : Color} {opp : Nat} {pr out outP piece promo : Piece}
    (h : IsLegal.finish b col opp pr out outP = (piece, promo)) (hp : piece ≠ Piece.Empty) :
    piece = out ∧ promo = outP ∧ pr = outP := by
  unfold IsLegal.finish at h
  split at h
  · simp only [Prod.mk.injEq] at h
    exact absurd h.1.symm hp
  · split at h
    · simp only [Prod.mk.injEq] at h
      exact absurd h.1.symm hp
    · rename_i h2
      simp only [Prod.mk.injEq] at h
      exact ⟨h.1.symm, h.2.symm, by simpa using h2⟩

theorem GetBit_true {bb sq : Nat} (h : GetBit bb sq = true) : bb.testBit sq = true ∧ sq < 64 := by
  unfold GetBit at h
  rw [← and_shl_one_ne_zero]
  simpa using h

theorem GetPieceAt_spec {b : Board} {s : Nat} {c : Color} {p : Piece}
    (h : b.GetPieceAt s c = p) (hp : p ≠ Piece.Empty) :
    (b.PieceBB c p).testBit s = true ∧ s < 64 := by
  unfold Board.GetPieceAt at h
  cases hf : pieceRange.find? (fun p => GetBit (b.PieceBB c p) s) with
  | none =>
    rw [hf] at h
    exact absurd h.symm hp
  | some q =>
    rw [hf] at h
    simp only [Option.getD_some] at h
    subst h
    have := List.find?_some hf
    exact GetBit_true this

theorem IsLegal_accept {b : Board} {s e : Nat} {pr piece promo : Piece}
    (h : b.IsLegal s e pr = some (piece, promo)) (hp : piece ≠ Piece.Empty) :
    e < 64 ∧ s < 64 ∧ At b b.Turn piece s ∧ (b.ColorBB b.Turn).testBit e = false ∧
    promo ≠ Piece.Kings ∧ (promo ≠ Piece.Empty → piece = Piece.Pawns) ∧
    (piece = Piece.Kings → ∃ opp,
      (GetKingMoves s b.FullBB b.Turn (b.RKRmoved b.Turn) opp).testBit e = true) := by
  unfold Board.IsLegal at h
  simp only [Option.bind_eq_some] at h
  obtain ⟨opp, hopp, er, her, h⟩ := h
  have he := GetRank_some_lt her
  rw [endBB_eq her] at h
  split at h
  · simp only [Option.some.injEq, Prod.mk.injEq] at h
    exact absurd h.1.symm hp
  rename_i hpr
  have hprK : pr ≠ Piece.Kings := fun hh => hpr (Or.inr hh)
  have key : ∀ {m : Nat}, (m &&& 2 ^ e &&& bnot (b.ColorBB b.Turn)) ≠ 0 →
      (b.ColorBB b.Turn).testBit e = false := by
    intro m hm
    have := (and_two_pow_ne_zero hm).2
    rw [testBit_bnot] at this
    simp only [Bool.and_eq_true, Bool.not_eq_true', decide_eq_true_eq] at this
    exact this.2
  have fin : ∀ {c1 : Prop} [Decidable c1] {q : Piece},
      IsLegal.finish b b.Turn opp pr (if c1 then q else Piece.Empty) Piece.Empty =
        (piece, promo) → piece = q ∧ promo = Piece.Empty ∧ c1 := by
    intro c1 _ q hf
    obtain ⟨f1, f2, -⟩ := finish_accept hf hp
    by_cases hc1 : c1
    · rw [if_pos hc1] at f1
      exact ⟨f1, f2, hc1⟩
    · rw [if_neg hc1] at f1
      exact absurd f1 hp
  split at h
  · rename_i hpc
    simp only [Option.some.injEq, Prod.mk.injEq] at h
    exact absurd h.1.symm hp
  · rename_i hpc
    have hat := GetPieceAt_spec hpc (by decide)
    split at h
    · rename_i hm
      split at h
      · split at h
        · simp only [Option.some.injEq] at h
          obtain ⟨f1, f2, f3⟩ := finish_accept h hp
          subst f1 f2
          exact ⟨he, hat.2, ⟨by decide, hat.1⟩, key hm, f3 ▸ hprK, fun _ => rfl,
            fun hh => by cases hh⟩
        · simp only [Option.some.injEq, Prod.mk.injEq] at h
          exact absurd h.1.symm hp
      · simp only [Option.some.injEq] at h
        obtain ⟨f1, f2, f3⟩ := finish_accept h hp
        subst f1 f2
        exact ⟨he, hat.2, ⟨by decide, hat.1⟩, key hm, by decide, fun _ => rfl,
          fun hh => by cases hh⟩
    · simp only [Option.some.injEq] at h
      obtain ⟨f1, f2, f3⟩ := finish_accept h hp
      exact absurd f1 hp
  · rename_i hpc
    have hat := GetPieceAt_spec hpc (by decide)
    simp only [Option.map_eq_some'] at h
    obtain ⟨m, -, h⟩ := h
    obtain ⟨f1, f2, f3⟩ := fin h
    subst f1 f2
    exact ⟨he, hat.2, ⟨by decide, hat.1⟩, key f3, by decide, fun hh => absurd rfl hh,
      fun hh => by cases hh⟩
  · rename_i hpc
    have hat := GetPieceAt_spec hpc (by decide)
    simp only [Option.map_eq_some'] at h
    obtain ⟨m, -, h⟩ := h
    obtain ⟨f1, f2, f3⟩ := fin h
    subst f1 f2
    exact ⟨he, hat.2, ⟨by decide, hat.1⟩, key f3, by decide, fun hh => absurd rfl hh,
      fun hh => by cases hh⟩
  · rename_i hpc
    have hat := GetPieceAt_spec hpc (by decide)
    simp only [Option.map_eq_some'] at h
    obtain ⟨m, -, h⟩ := h
    obtain ⟨f1, f2, f3⟩ := fin h
    subst f1 f2
    exact ⟨he, hat.2, ⟨by decide, hat.1⟩, key f3, by decide, fun hh => absurd rfl hh,
      fun hh => by cases hh⟩
  · rename_i hpc
    have hat := GetPieceAt_spec hpc (by decide)
    simp only [Option.map_eq_some'] at h
    obtain ⟨m, -, h⟩ := h
    obtain ⟨f1, f2, f3⟩ := fin h
    subst f1 f2
    exact ⟨he, hat.2, ⟨by decide, hat.1⟩, key f3, by decide, fun hh => absurd rfl hh,
      fun hh => by cases hh⟩
  · rename_i hpc
    have hat := GetPieceAt_spec hpc (by decide)
    simp only [Option.some.injEq] at h
    obtain ⟨f1, f2, f3⟩ := fin h
    subst f1 f2
    have f5 : (GetKingMoves s b.FullBB b.Turn (b.RKRmoved b.Turn) opp &&& 2 ^ e &&&
        bnot (b.ColorBB b.Turn)) ≠ 0 := by
      intro h0
      apply f3
      rw [h0]
      exact Nat.zero_and _
    exact ⟨he, hat.2, ⟨by decide, hat.1⟩, key f5, by decide, fun hh => absurd rfl hh,
      fun _ => ⟨opp, (and_two_pow_ne_zero f5).1⟩⟩


theorem kingSteps_table : ∀ s < 64, ∀ e < 64, GetFile s = FileE →
    (GetFile e = FileC ∨ GetFile e = FileG) →
    (GetKingMoves s 0 Color.White (fun _ => true) 0).testBit e = false := by
  decide!

theorem GetKingMoves_split (s full : Nat) (col : Color) (rkr : RKR) (opp : Nat) :
    GetKingMoves s full col rkr opp =
      GetKingMoves s 0 Color.White (fun _ => true) 0 ||| GetCastles col full rkr opp := by
  simp [GetKingMoves, GetCastles]

theorem castleLoop_bits (rank full opp dest : Nat) (l : List Nat) (moves i : Nat)
    (h : (castleLoop rank full opp dest l moves).testBit i = true) :
    moves.testBit i = true ∨ ((dest &&& rank).testBit i = true ∧
      ∃ fl rest, l = fl :: rest ∧ fl &&& rank &&& full = 0) := by
  induction l generalizing moves with
  | nil => exact Or.inl h
  | cons fl rest ih =>
    unfold castleLoop at h
    split at h
    · exact Or.inl h
    · rename_i hb
      simp only [not_or, ne_eq, not_not] at hb
      rcases ih _ h with h1 | h1
      · rw [Nat.testBit_or] at h1
        simp only [Bool.or_eq_true] at h1
        rcases h1 with h1 | h1
        · exact Or.inl h1
        · exact Or.inr ⟨h1, fl, rest, rfl, hb.1⟩
      · exact Or.inr ⟨h1.1, fl, rest, rfl, hb.1⟩

theorem GetCastles_bits (col : Color) (full : Nat) (rkr : RKR) (opp e : Nat)
    (h : (GetCastles col full rkr opp).testBit e = true) :
    rkr 1 = false ∧
    (((FileC &&& (match col with | Color.White => Rank1 | Color.Black => Rank8)).testBit e = true ∧
        FileD &&& (match col with | Color.White => Rank1 | Color.Black => Rank8) &&& full = 0) ∨
      ((FileG &&& (match col with | Color.White => Rank1 | Color.Black => Rank8)).testBit e = true ∧
        FileF &&& (match col with | Color.White => Rank1 | Color.Black => Rank8) &&& full = 0)) := by
  have key : ∀ rank : Nat,
      ((if (!rkr 1) = true then
          (if (!rkr 2) = true then
            castleLoop rank full opp FileG [FileF, FileG]
              (if (!rkr 0) = true then castleLoop rank full opp FileC [FileD, FileC, FileB] 0
                else 0)
          else (if (!rkr 0) = true then castleLoop rank full opp FileC [FileD, FileC, FileB] 0
                else 0))
        else 0).testBit e = true) →
      rkr 1 = false ∧ (((FileC &&& rank).testBit e = true ∧ FileD &&& rank &&& full = 0) ∨
        ((FileG &&& rank).testBit e = true ∧ FileF &&& rank &&& full = 0)) := by
    intro rank h
    split at h
    · rename_i h1
      refine ⟨by simpa using h1, ?_⟩
      have q : ((if (!rkr 0) = true then
          castleLoop rank full opp FileC [FileD, FileC, FileB] 0 else 0).testBit e = true) →
          (FileC &&& rank).testBit e = true ∧ FileD &&& rank &&& full = 0 := by
        intro h2
        split at h2
        · rcases castleLoop_bits _ _ _ _ _ _ _ h2 with h4 | ⟨h4, fl, rest, hl, h5⟩
          · simp at h4
          · simp only [List.cons.injEq] at hl
            exact ⟨h4, hl.1 ▸ h5⟩
        · simp at h2
      split at h
      · rcases castleLoop_bits _ _ _ _ _ _ _ h with h2 | ⟨h2, fl, rest, hl, h3⟩
        · exact Or.inl (q h2)
        · right
          simp only [List.cons.injEq] at hl
          exact ⟨h2, hl.1 ▸ h3⟩
      · exact Or.inl (q h)
    · simp at h
  cases col
  · exact key Rank1 h
  · exact key Rank8 h

theorem two_pow_and_eq_zero {n x : Nat} (h : 2 ^ n &&& x = 0) : x.testBit n = false := by
  have := congrArg (fun y => y.testBit n) h
  simpa [Nat.testBit_two_pow] using this

theorem king_castle_facts {s e full : Nat} {col : Color} {rkr : RKR} {opp : Nat}
    (hs : s < 64) (he : e < 64) (hsf : GetFile s = FileE)
    (hef : GetFile e = FileC ∨ GetFile e = FileG)
    (h : (GetKingMoves s full col rkr opp).testBit e = true) :
    rkr 1 = false ∧ e ≠ castleRookDest col (GetFile e) ∧
    (castleRookDest col (GetFile e) = kingHome col ∨
      full.testBit (castleRookDest col (GetFile e)) = false) := by
  rw [GetKingMoves_split, Nat.testBit_or, kingSteps_table s hs e he hsf hef] at h
  simp only [Bool.false_or] at h
  obtain ⟨h1, h2⟩ := GetCastles_bits col full rkr opp e h
  refine ⟨h1, ?_⟩
  have c1 : FileC &&& Rank1 = 2 ^ 2 := by decide
  have c2 : FileG &&& Rank1 = 2 ^ 6 := by decide
  have c3 : FileC &&& Rank8 = 2 ^ 58 := by decide
  have c4 : FileG &&& Rank8 = 2 ^ 62 := by decide
  have d1 : FileF &&& Rank1 = 2 ^ 5 := by decide
  have d3 : FileD &&& Rank8 = 2 ^ 59 := by decide
  have d4 : FileF &&& Rank8 = 2 ^ 61 := by decide
  cases col
  · simp only [c1, c2, d1, Nat.testBit_two_pow, decide_eq_true_eq] at h2
    rcases h2 with ⟨rfl, -⟩ | ⟨rfl, h3⟩
    · exact ⟨by decide, Or.inl (by decide)⟩
    · exact ⟨by decide, Or.inr (two_pow_and_eq_zero h3)⟩
  · simp only [c3, c4, d3, d4, Nat.testBit_two_pow, decide_eq_true_eq] at h2
    rcases h2 with ⟨rfl, h3⟩ | ⟨rfl, h3⟩
    · exact ⟨by decide, Or.inr (two_pow_and_eq_zero h3)⟩
    · exact ⟨by decide, Or.inr (two_pow_and_eq_zero h3)⟩


theorem color_cases (col c : Color) : c = col ∨ c = col.Other := by
  cases col <;> cases c <;> simp [Color.Other]

theorem testBit_unionBB {b : Board} {c : Color} {sq : Nat} :
    (unionBB b c).testBit sq = true ↔ ∃ p, At b c p sq := by
  unfold unionBB At
  simp only [Nat.testBit_or, Bool.or_eq_true]
  constructor
  · rintro (((((h | h) | h) | h) | h) | h)
    · exact ⟨Piece.Pawns, by decide, h⟩
    · exact ⟨Piece.Knights, by decide, h⟩
    · exact ⟨Piece.Bishops, by decide, h⟩
    · exact ⟨Piece.Rooks, by decide, h⟩
    · exact ⟨Piece.Queens, by decide, h⟩
    · exact ⟨Piece.Kings, by decide, h⟩
  · rintro ⟨p, hp, h⟩
    cases p
    · exact absurd rfl hp
    all_goals simp [h]

theorem At_ColorBB {b : Board} {c : Color} {p : Piece} {sq : Nat} (hC : Consistent b)
    (h : At b c p sq) : (b.ColorBB c).testBit sq = true := by
  rw [hC.1 c, testBit_unionBB]
  exact ⟨p, h⟩

theorem At_FullBB {b : Board} {c : Color} {p : Piece} {sq : Nat} (hC : Consistent b)
    (h : At b c p sq) : b.FullBB.testBit sq = true := by
  have := At_ColorBB hC h
  rw [hC.2, Nat.testBit_or]
  cases c <;> simp [this]

theorem MakeMove_accept {b b' : Board} {s e : Nat} {pr : Piece}
    (h : MakeMove b s e pr = some (b', 1)) :
    ∃ piece promo m cap, b.IsLegal s e pr = some (piece, promo) ∧ piece ≠ Piece.Empty ∧
      MovePieceAux 2 b piece s e promo = some (m, cap) ∧
      b' = { m with Turn := m.Turn.Other } := by
  unfold MakeMove at h
  simp only [Option.bind_eq_some] at h
  obtain ⟨⟨piece, promo⟩, hl, h⟩ := h
  simp only at h
  split at h
  · simp at h
  · rename_i hp
    simp only [Option.map_eq_some', Prod.mk.injEq, and_true] at h
    obtain ⟨⟨m, cap⟩, hm, rfl⟩ := h
    exact ⟨piece, promo, m, cap, hl, hp, hm, rfl⟩

theorem Inv_step {b b' : Board} {s e : Nat} {pr : Piece} (hI : Inv b)
    (h : MakeMove b s e pr = some (b', 1)) : Inv b' := by
  obtain ⟨hC, hE, hK⟩ := hI
  obtain ⟨piece, promo, m, cap, hl, hp, hm, rfl⟩ := MakeMove_accept h
  obtain ⟨he, hs, hat, hown, hprK, hprP, hking⟩ := IsLegal_accept hl hp
  -- the bounds shared by the two kinds of move
  have tgtK : (if promo = Piece.Empty then piece else promo) = Piece.Kings → piece = Piece.Kings := by
    intro ht
    by_cases hpe : promo = Piece.Empty
    · simpa [hpe] using ht
    · simp only [hpe, if_false] at ht
      exact absurd ht hprK
  have newOld : ∀ c p, At b c p e → ¬ (c = b.Turn.Other ∧ e = e) → False := by
    intro c p h1 h2
    rcases color_cases b.Turn c with rfl | rfl
    · have := At_ColorBB hC h1
      rw [hown] at this
      cases this
    · exact h2 ⟨rfl, rfl⟩
  by_cases hc : isCastle piece (GetFile s) (GetFile e)
  · obtain ⟨rfl, hsf, hef⟩ := hc
    obtain ⟨opp, hopp⟩ := hking rfl
    obtain ⟨k1, k2, k3⟩ := king_castle_facts hs he hsf hef hopp
    have hsHome : s = kingHome b.Turn := hK b.Turn s k1 hat.2
    obtain ⟨-, mT, mC, mR, mK, mB⟩ := MovePieceAux_castle (d := 0) hm ⟨rfl, hsf, hef⟩
    have rookOld : ∀ c p, At b c p (castleRookDest b.Turn (GetFile e)) →
        ¬ (c = b.Turn ∧ p = Piece.Kings ∧ castleRookDest b.Turn (GetFile e) = s) → False := by
      intro c p h1 h2
      rcases k3 with k3 | k3
      · rw [k3, ← hsHome] at h1
        obtain ⟨rfl, rfl⟩ := hE s c p b.Turn Piece.Kings h1 hat
        exact h2 ⟨rfl, rfl, by rw [k3, hsHome]⟩
      · have := At_FullBB hC h1
        rw [k3] at this
        cases this
    refine ⟨mC, ?_, ?_⟩
    · intro sq c p c' p' h1 h2
      obtain ⟨a1, n1⟩ := mB c p sq h1
      obtain ⟨a2, n2⟩ := mB c' p' sq h2
      rcases a1 with ⟨a1, x1⟩ | ⟨rfl, rfl, rfl⟩ | ⟨rfl, rfl, rfl⟩ <;>
        rcases a2 with ⟨a2, x2⟩ | ⟨rfl, rfl, r2⟩ | ⟨rfl, rfl, r2⟩
      · exact hE sq c p c' p' a1 a2
      · subst r2
        exact (rookOld c p a1 n1).elim
      · subst r2
        exact (newOld c p a1 x1).elim
      · exact (rookOld c' p' a2 n2).elim
      · exact ⟨rfl, rfl⟩
      · exact absurd r2.symm k2
      · exact (newOld c' p' a2 x2).elim
      · exact absurd r2 k2
      · exact ⟨rfl, rfl⟩
    · intro c sq hr hb
      have hb' : At m c Piece.Kings sq := ⟨by decide, hb⟩
      obtain ⟨a1, n1⟩ := mB c Piece.Kings sq hb'
      have hr0 : b.RKRmoved c 1 = false := by
        cases hx : b.RKRmoved c 1
        · rfl
        · have := mR c 1 hx
          simp only at hr
          rw [this] at hr
          cases hr
      rcases a1 with ⟨a1, -⟩ | ⟨-, hh, -⟩ | ⟨rfl, -, -⟩
      · exact hK c sq hr0 a1.2
      · cases hh
      · simp only at hr
        rw [mK] at hr
        cases hr
  · obtain ⟨-, mT, mC, mR, mK, mB⟩ := MovePieceAux_plain (d := 1) hm hp hc
    refine ⟨mC, ?_, ?_⟩
    · intro sq c p c' p' h1 h2
      obtain ⟨a1, n1⟩ := mB c p sq h1
      obtain ⟨a2, n2⟩ := mB c' p' sq h2
      rcases a1 with ⟨a1, x1⟩ | ⟨rfl, rfl, rfl⟩ <;>
        rcases a2 with ⟨a2, x2⟩ | ⟨rfl, rfl, r2⟩
      · exact hE sq c p c' p' a1 a2
      · subst r2
        exact (newOld c p a1 x1).elim
      · exact (newOld c' p' a2 x2).elim
      · exact ⟨rfl, rfl⟩
    · intro c sq hr hb
      have hb' : At m c Piece.Kings sq := ⟨by decide, hb⟩
      obtain ⟨a1, n1⟩ := mB c Piece.Kings sq hb'
      have hr0 : b.RKRmoved c 1 = false := by
        cases hx : b.RKRmoved c 1
        · rfl
        · have := mR c 1 hx
          simp only at hr
          rw [this] at hr
          cases hr
      rcases a1 with ⟨a1, -⟩ | ⟨rfl, hh, -⟩
      · exact hK c sq hr0 a1.2
      · have := mK (tgtK hh.symm)
        simp only at hr
        rw [this] at hr
        cases hr


theorem NewBoard_table : ∀ c p c' p', p ≠ Piece.Empty → p' ≠ Piece.Empty →
    NewBoard.PieceBB c p &&& NewBoard.PieceBB c' p' ≠ 0 → c = c' ∧ p = p' := by
  intro c p c' p'
  cases c <;> cases p <;> cases c' <;> cases p' <;> decide!

theorem Inv_NewBoard : Inv NewBoard := by
  refine ⟨CombineBB_consistent _, ?_, ?_⟩
  · intro sq c p c' p' h1 h2
    apply NewBoard_table c p c' p' h1.1 h2.1
    intro h0
    have := congrArg (fun x => x.testBit sq) h0
    simp only [Nat.testBit_and, h1.2, h2.2, Nat.zero_testBit, Bool.and_self] at this
    cases this
  · intro c sq _ h
    cases c
    · have h' : (shl 1 4).testBit sq = true := h
      rw [testBit_shl_one] at h'
      simp only [Bool.and_eq_true, decide_eq_true_eq] at h'
      exact h'.1
    · have h' : (shl 1 60).testBit sq = true := h
      rw [testBit_shl_one] at h'
      simp only [Bool.and_eq_true, decide_eq_true_eq] at h'
      exact h'.1

theorem Reachable_Inv {b : Board} (h : Reachable b) : Inv b := by
  induction h with
  | init => exact Inv_NewBoard
  | step _ hm ih => exact Inv_step ih hm

theorem Reachable_submitAll (ms : List (Nat × Nat × Piece)) :
    ∀ b b', Reachable b → submitAll b ms = some b' → Reachable b' := by
  induction ms with
  | nil =>
    intro b b' hb h
    simp only [submitAll, List.foldlM_nil, pure, Option.some.injEq] at h
    exact h ▸ hb
  | cons m ms ih =>
    intro b b' hb h
    simp only [submitAll, List.foldlM_cons, bind, Option.bind_eq_some] at h
    obtain ⟨b1, ⟨r, hr, h1⟩, h2⟩ := h
    split at h1
    · rename_i h3
      simp only [Option.some.injEq] at h1
      subst h1
      have hr' : MakeMove b m.1 m.2.1 m.2.2 = some (r.1, 1) := by
        rw [hr, ← h3]
      exact ih r.1 b' (Reachable.step hb hr') h2
    · cases h1

theorem getD_of_isSome {α : Type} (o : Option α) (d : α) (h : o.isSome = true) :
    o = some (o.getD d) := by
  cases o with
  | none => cases h
  | some x => rfl

theorem castledGame_isSome : castledGame.isSome = true := by decide!

theorem Reachable_castledBoard : Reachable castledBoard :=
  Reachable_submitAll _ NewBoard castledBoard Reachable.init
    (getD_of_isSome castledGame NewBoard castledGame_isSome)

/-! ## The depth bound of `MovePieceAux` -/

theorem specialRules_rooks (call call' : Board → Piece → Nat → Nat → Piece → Option (Board × Bool))
    (b : Board) (col : Color) (sf sr ef er e : Nat) :
    specialRules call b col Piece.Rooks sf sr ef er e =
      specialRules call' b col Piece.Rooks sf sr ef er e := by
  simp [specialRules]

theorem MovePieceAux_rooks_depth (n : Nat) (b : Board) (s e : Nat) (promo : Piece) :
    MovePieceAux (n + 1) b Piece.Rooks s e promo = MovePieceAux 1 b Piece.Rooks s e promo := by
  unfold MovePieceAux
  simp only [specialRules_rooks (MovePieceAux n) (MovePieceAux 0)]

theorem castleRook_depth (n : Nat) (b : Board) (rs re : Nat) :
    castleRook (MovePieceAux (n + 1)) b rs re = castleRook (MovePieceAux 1) b rs re := by
  unfold castleRook
  rw [MovePieceAux_rooks_depth]

theorem specialRules_depth (n : Nat) (b : Board) (col : Color) (piece : Piece)
    (sf sr ef er e : Nat) :
    specialRules (MovePieceAux (n + 1)) b col piece sf sr ef er e =
      specialRules (MovePieceAux 1) b col piece sf sr ef er e := by
  unfold specialRules
  simp only [castleRook_depth n]

/-- A call of `MovePiece` nests at most one further call: any depth bound from 2 on gives the
result of `Board.MovePiece`. -/
theorem MovePieceAux_depth (n : Nat) (b : Board) (piece : Piece) (s e : Nat) (promo : Piece) :
    MovePieceAux (n + 2) b piece s e promo = b.MovePiece piece s e promo := by
  unfold Board.MovePiece
  unfold MovePieceAux
  simp only [specialRules_depth n]

/-! ## Termination of the attack generators -/

theorem rookLoopInc_isSome (full : Nat) (tgt : Nat → Nat) :
    ∀ n c moves, c ≤ 8 → 9 ≤ n + c → (rookLoopInc full tgt n c moves).isSome = true := by
  intro n
  induction n with
  | zero => intro c moves h1 h2; omega
  | succ n ih =>
    intro c moves h1 h2
    unfold rookLoopInc
    split
    · rename_i hc
      simp only
      split
      · rfl
      · have : (c + 1) % 256 = c + 1 := by omega
        rw [this]
        exact ih (c + 1) _ (by omega) (by omega)
    · rfl

theorem rookLoopDec_isSome (full : Nat) (tgt : Nat → Nat) :
    ∀ n c moves, (∃ k, k < n ∧ (full &&& shl 1 (tgt (dec8^[k] c))) ≠ 0) →
      (rookLoopDec full tgt n c moves).isSome = true := by
  intro n
  induction n with
  | zero => rintro c moves ⟨k, hk, -⟩; omega
  | succ n ih =>
    rintro c moves ⟨k, hk, hocc⟩
    unfold rookLoopDec
    simp only
    split
    · rfl
    · rename_i hfree
      cases k with
      | zero => exact absurd hocc hfree
      | succ k =>
        apply ih
        refine ⟨k, by omega, ?_⟩
        rw [Function.iterate_succ_apply] at hocc
        exact hocc

theorem rookDown_table : ∀ sq < 64,
    (dec8^[255] ((sq / 8 + 255) % 256) * 8 + sq % 8) % 256 = sq ∧
    ((sq / 8) * 8 + dec8^[255] ((sq % 8 + 255) % 256)) % 256 = sq := by
  decide!

theorem GetRookMoves_eq (sq full : Nat) :
    GetRookMoves sq full =
      (rookLoopInc full (fun r => (r * 8 + sq % 8) % 256) 256 ((sq / 8 + 1) % 256) 0).bind
        fun m1 =>
      (rookLoopInc full (fun f => (sq / 8 * 8 + f) % 256) 256 ((sq % 8 + 1) % 256) m1).bind
        fun m2 =>
      (if sq / 8 ≠ 0 then
        rookLoopDec full (fun r => (r * 8 + sq % 8) % 256) 256 ((sq / 8 + 255) % 256) m2
        else some m2).bind fun m3 =>
      if sq % 8 ≠ 0 then
        rookLoopDec full (fun f => (sq / 8 * 8 + f) % 256) 256 ((sq % 8 + 255) % 256) m3
      else some m3 := by
  unfold GetRookMoves
  by_cases h1 : sq / 8 ≠ 0 <;> by_cases h2 : sq % 8 ≠ 0 <;>
    simp only [h1, h2, if_true, if_false, Option.bind_eq_bind, Option.pure_def,
      Option.some_bind, Option.bind_some, not_true_eq_false, not_false_eq_true, ne_eq]

theorem GetRookMoves_isSome {sq full : Nat} (hsq : sq < 64) (hocc : full.testBit sq = true) :
    (GetRookMoves sq full).isSome = true := by
  have hne : (full &&& shl 1 sq) ≠ 0 := (and_shl_one_ne_zero full sq).2 ⟨hocc, hsq⟩
  obtain ⟨t1, t2⟩ := rookDown_table sq hsq
  rw [GetRookMoves_eq]
  have h1 := rookLoopInc_isSome full (fun r => (r * 8 + sq % 8) % 256) 256
    ((sq / 8 + 1) % 256) 0 (by omega) (by omega)
  obtain ⟨m1, hm1⟩ := Option.isSome_iff_exists.1 h1
  rw [hm1, Option.some_bind]
  have h2 := rookLoopInc_isSome full (fun f => (sq / 8 * 8 + f) % 256) 256
    ((sq % 8 + 1) % 256) m1 (by omega) (by omega)
  obtain ⟨m2, hm2⟩ := Option.isSome_iff_exists.1 h2
  rw [hm2, Option.some_bind]
  have h3 : ∃ m3, (if sq / 8 ≠ 0 then
      rookLoopDec full (fun r => (r * 8 + sq % 8) % 256) 256 ((sq / 8 + 255) % 256) m2
      else some m2) = some m3 := by
    apply Option.isSome_iff_exists.1
    split
    · apply rookLoopDec_isSome
      refine ⟨255, by omega, ?_⟩
      show full &&& shl 1 ((dec8^[255] ((sq / 8 + 255) % 256) * 8 + sq % 8) % 256) ≠ 0
      rw [t1]
      exact hne
    · rfl
  obtain ⟨m3, hm3⟩ := h3
  rw [hm3, Option.some_bind]
  split
  · apply rookLoopDec_isSome
    refine ⟨255, by omega, ?_⟩
    show full &&& shl 1 ((sq / 8 * 8 + dec8^[255] ((sq % 8 + 255) % 256)) % 256) ≠ 0
    rw [t2]
    exact hne
  · rfl

theorem bishopLoopInc_isSome (full : Nat) (right : Bool) :
    ∀ n r f moves, r ≤ 8 → 9 ≤ n + r →
      (bishopLoopInc full right n r f moves).isSome = true := by
  intro n
  induction n with
  | zero => intro r f moves h1 h2; omega
  | succ n ih =>
    intro r f moves h1 h2
    unfold bishopLoopInc
    split
    · simp only
      have hr : (r + 1) % 256 = r + 1 := by omega
      split
      · rfl
      · split
        · split
          · rfl
          · rw [hr]
            exact ih _ _ _ (by omega) (by omega)
        · split
          · rfl
          · rw [hr]
            exact ih _ _ _ (by omega) (by omega)
    · rfl

theorem bishopLoopDec_isSome_right (full : Nat) :
    ∀ n r f moves, 1 ≤ n → 8 ≤ n + f →
      (bishopLoopDec full true n r f moves).isSome = true := by
  intro n
  induction n with
  | zero => intro r f moves h1 h2; omega
  | succ n ih =>
    intro r f moves h1 h2
    unfold bishopLoopDec
    simp only [if_true]
    split
    · rfl
    · split
      · rfl
      · have hf : (f + 1) % 256 = f + 1 := by omega
        rw [hf]
        exact ih _ _ _ (by omega) (by omega)

theorem bishopLoopDec_isSome_left (full : Nat) :
    ∀ n r f moves, f < n → f < 256 →
      (bishopLoopDec full false n r f moves).isSome = true := by
  intro n
  induction n with
  | zero => intro r f moves h1 h2; omega
  | succ n ih =>
    intro r f moves h1 h2
    unfold bishopLoopDec
    simp only [Bool.false_eq_true, if_false]
    split
    · rfl
    · split
      · rfl
      · have hf : (f + 255) % 256 = f - 1 := by omega
        rw [hf]
        exact ih _ _ _ (by omega) (by omega)

theorem GetBishopMoves_eq (sq full : Nat) :
    GetBishopMoves sq full =
      (bishopLoopInc full true 256 ((sq / 8 + 1) % 256) ((sq % 8 + 1) % 256) 0).bind fun m1 =>
      (if sq / 8 ≠ 0 then
        bishopLoopDec full true 256 ((sq / 8 + 255) % 256) ((sq % 8 + 1) % 256) m1
        else some m1).bind fun m2 =>
      (if sq / 8 ≠ 0 ∧ sq % 8 ≠ 0 then
        bishopLoopDec full false 256 ((sq / 8 + 255) % 256) ((sq % 8 + 255) % 256) m2
        else some m2).bind fun m3 =>
      if sq % 8 ≠ 0 then
        bishopLoopInc full false 256 ((sq / 8 + 1) % 256) ((sq % 8 + 255) % 256) m3
      else some m3 := by
  unfold GetBishopMoves
  by_cases h1 : sq / 8 ≠ 0 <;> by_cases h2 : sq % 8 ≠ 0 <;>
    simp only [h1, h2, if_true, if_false, Option.bind_eq_bind, Option.pure_def,
      Option.some_bind, Option.bind_some, not_true_eq_false, not_false_eq_true, ne_eq,
      and_self, and_true, and_false, false_and]

theorem GetBishopMoves_isSome {sq : Nat} (full : Nat) (hsq : sq < 64) :
    (GetBishopMoves sq full).isSome = true := by
  rw [GetBishopMoves_eq]
  have h1 := bishopLoopInc_isSome full true 256 ((sq / 8 + 1) % 256) ((sq % 8 + 1) % 256) 0
    (by omega) (by omega)
  obtain ⟨m1, hm1⟩ := Option.isSome_iff_exists.1 h1
  rw [hm1, Option.some_bind]
  have h2 : ∃ m2, (if sq / 8 ≠ 0 then
      bishopLoopDec full true 256 ((sq / 8 + 255) % 256) ((sq % 8 + 1) % 256) m1
      else some m1) = some m2 := by
    apply Option.isSome_iff_exists.1
    split
    · exact bishopLoopDec_isSome_right full 256 _ _ _ (by omega) (by omega)
    · rfl
  obtain ⟨m2, hm2⟩ := h2
  rw [hm2, Option.some_bind]
  have h3 : ∃ m3, (if sq / 8 ≠ 0 ∧ sq % 8 ≠ 0 then
      bishopLoopDec full false 256 ((sq / 8 + 255) % 256) ((sq % 8 + 255) % 256) m2
      else some m2) = some m3 := by
    apply Option.isSome_iff_exists.1
    split
    · exact bishopLoopDec_isSome_left full 256 _ _ _ (by omega) (by omega)
    · rfl
  obtain ⟨m3, hm3⟩ := h3
  rw [hm3, Option.some_bind]
  split
  · exact bishopLoopInc_isSome full false 256 _ _ _ (by omega) (by omega)
  · rfl

theorem GetQueenMoves_isSome {sq full : Nat} (hsq : sq < 64) (hocc : full.testBit sq = true) :
    (GetQueenMoves sq full).isSome = true := by
  unfold GetQueenMoves
  obtain ⟨m1, hm1⟩ := Option.isSome_iff_exists.1 (GetRookMoves_isSome hsq hocc)
  obtain ⟨m2, hm2⟩ := Option.isSome_iff_exists.1 (GetBishopMoves_isSome full hsq)
  simp only [hm1, hm2, Option.bind_eq_bind, Option.some_bind, Option.pure_def]
  rfl


theorem mod_two_pow_eq_zero_iff (x n : Nat) :
    x % 2 ^ n = 0 ↔ ∀ i, i < n → x.testBit i = false := by
  constructor
  · intro h i hi
    have := Nat.testBit_mod_two_pow x n i
    rw [h, Nat.zero_testBit] at this
    simpa [hi] using this.symm
  · intro h
    apply Nat.eq_of_testBit_eq
    intro i
    rw [Nat.testBit_mod_two_pow, Nat.zero_testBit]
    by_cases hi : i < n
    · simp [h i hi]
    · simp [hi]

theorem testBit_pred_of_lowest {bb j : Nat} (h0 : bb % 2 ^ j = 0) (hj : bb.testBit j = true) :
    (bb - 1).testBit j = false := by
  obtain ⟨q, rfl⟩ := Nat.dvd_of_mod_eq_zero h0
  have hq : q.testBit 0 = true := by
    rw [Nat.testBit_mul_pow_two] at hj
    simpa using hj
  have hq1 : q % 2 = 1 := by simpa using hq
  have hpos : 0 < 2 ^ j := Nat.two_pow_pos j
  have hsplit : 2 ^ j * q - 1 = 2 ^ j * (q - 1) + (2 ^ j - 1) := by
    have hq' : q = (q - 1) + 1 := by omega
    conv_lhs => rw [hq', Nat.mul_add, Nat.mul_one]
    omega
  rw [hsplit, Nat.testBit_mul_pow_two_add (q - 1) (by omega : 2 ^ j - 1 < 2 ^ j) j]
  simp only [Nat.lt_irrefl, if_false, Nat.sub_self, Nat.testBit_zero]
  simp only [decide_eq_false_iff_not]
  omega

theorem clear_lowest_mod {bb j : Nat} (h0 : bb % 2 ^ j = 0) :
    (bb &&& (bb - 1)) % 2 ^ (j + 1) = 0 := by
  rw [mod_two_pow_eq_zero_iff] at h0 ⊢
  intro i hi
  rw [Nat.testBit_and]
  by_cases hij : i < j
  · simp [h0 i hij]
  · have : i = j := by omega
    subst this
    cases hb : bb.testBit i
    · simp
    · have := testBit_pred_of_lowest ((mod_two_pow_eq_zero_iff bb i).2 h0) hb
      simp [this]

theorem TrailingZeros64_spec {bb : Nat} (hne : bb ≠ 0) (hlt : bb < 2 ^ 64) :
    bb.testBit (TrailingZeros64 bb) = true ∧ TrailingZeros64 bb < 64 := by
  unfold TrailingZeros64
  cases hf : (List.range 64).find? (fun i => bb.testBit i) with
  | none =>
    exfalso
    rw [List.find?_eq_none] at hf
    obtain ⟨i, hi⟩ := Nat.ne_zero_implies_bit_true hne
    have hi64 : i < 64 := by
      by_contra hge
      have h1 : 2 ^ 64 ≤ 2 ^ i := Nat.pow_le_pow_right (by decide) (by omega)
      have h2 := Nat.testBit_implies_ge hi
      omega
    exact hf i (List.mem_range.2 hi64) hi
  | some loc =>
    simp only [Option.getD_some]
    exact ⟨List.find?_some hf, List.mem_range.1 (List.mem_of_find?_eq_some hf)⟩

theorem bitLoop_isSome (f : Nat → Option Nat) :
    ∀ n j bb moves, bb < 2 ^ 64 → bb % 2 ^ j = 0 → 1 ≤ n → 65 ≤ n + j →
      (∀ loc, loc < 64 → bb.testBit loc = true → (f loc).isSome = true) →
      (bitLoop f n bb moves).isSome = true := by
  intro n
  induction n with
  | zero => intro j bb moves _ _ h _ _; omega
  | succ n ih =>
    intro j bb moves hlt hmod h1 h65 hf
    unfold bitLoop
    split
    · rfl
    · rename_i hne
      obtain ⟨t1, t2⟩ := TrailingZeros64_spec hne hlt
      obtain ⟨m, hm⟩ := Option.isSome_iff_exists.1 (hf _ t2 t1)
      simp only [hm, Option.bind_eq_bind, Option.some_bind]
      have hj : j ≤ 63 := by
        by_contra hge
        have h2 : 2 ^ 64 ≤ 2 ^ j := Nat.pow_le_pow_right (by decide) (by omega)
        have : bb % 2 ^ j = bb := Nat.mod_eq_of_lt (by omega)
        omega
      apply ih (j + 1)
      · exact Nat.lt_of_le_of_lt Nat.and_le_left hlt
      · exact clear_lowest_mod hmod
      · omega
      · omega
      · intro loc hl hb
        rw [Nat.testBit_and] at hb
        simp only [Bool.and_eq_true] at hb
        exact hf loc hl hb.1

theorem allKnightMoves_length : allKnightMoves.length = 64 := by
  simp [allKnightMoves, GenAllKnightMoves]

theorem allKnightMoves_isSome {loc : Nat} (h : loc < 64) :
    (allKnightMoves.get? loc).isSome = true := by
  rw [Option.isSome_iff_exists]
  exact ⟨allKnightMoves.get ⟨loc, by rw [allKnightMoves_length]; exact h⟩,
    List.get?_eq_get _⟩

theorem isSome_map {α β : Type} (o : Option α) (f : α → β) (h : o.isSome = true) :
    (o.map f).isSome = true := by
  cases o with
  | none => cases h
  | some x => rfl

theorem AllAttacks_eq (b : Board) (c : Color) :
    b.AllAttacks c =
      (b.GetKnightMoves c).bind fun n =>
      (b.GetBishopMoves c).bind fun d =>
      (b.GetRookMoves c).bind fun r =>
      (b.GetQueenMoves c).bind fun q =>
        some (b.GetPawnAttacks c ||| n ||| (d ||| r) ||| (q ||| b.GetKingMoves c)) := by
  rfl

theorem AllAttacks_isSome {b : Board} (hW : WellFormed b) (c : Color) :
    (b.AllAttacks c).isSome = true := by
  obtain ⟨hC, hB⟩ := hW
  have occ : ∀ {p : Piece} {loc : Nat}, p ≠ Piece.Empty →
      (b.PieceBB c p).testBit loc = true → b.FullBB.testBit loc = true :=
    fun hp hb => At_FullBB hC ⟨hp, hb⟩
  have hn : (b.GetKnightMoves c).isSome = true :=
    bitLoop_isSome _ 65 0 _ 0 (hB c _) (Nat.mod_one _) (by omega) (by omega)
      (fun loc hl _ => isSome_map _ _ (allKnightMoves_isSome hl))
  have hd : (b.GetBishopMoves c).isSome = true :=
    bitLoop_isSome _ 65 0 _ 0 (hB c _) (Nat.mod_one _) (by omega) (by omega)
      (fun loc hl _ => isSome_map _ _ (GetBishopMoves_isSome _ hl))
  have hr : (b.GetRookMoves c).isSome = true :=
    bitLoop_isSome _ 65 0 _ 0 (hB c _) (Nat.mod_one _) (by omega) (by omega)
      (fun loc hl hb => isSome_map _ _ (GetRookMoves_isSome hl (occ (by decide) hb)))
  have hq : (b.GetQueenMoves c).isSome = true :=
    bitLoop_isSome _ 65 0 _ 0 (hB c _) (Nat.mod_one _) (by omega) (by omega)
      (fun loc hl hb => isSome_map _ _ (GetQueenMoves_isSome hl (occ (by decide) hb)))
  obtain ⟨n, hn⟩ := Option.isSome_iff_exists.1 hn
  obtain ⟨d, hd⟩ := Option.isSome_iff_exists.1 hd
  obtain ⟨r, hr⟩ := Option.isSome_iff_exists.1 hr
  obtain ⟨q, hq⟩ := Option.isSome_iff_exists.1 hq
  rw [AllAttacks_eq, hn, hd, hr, hq]
  rfl

theorem GetRank_isSome_table : ∀ e < 64, (GetRank e).isSome = true := by
  decide!

theorem IsLegal_isSome {b : Board} (hW : WellFormed b) (s : Nat) {e : Nat} (he : e < 64)
    (pr : Piece) : (b.IsLegal s e pr).isSome = true := by
  obtain ⟨a, ha⟩ := Option.isSome_iff_exists.1 (AllAttacks_isSome hW b.Turn.Other)
  obtain ⟨er, her⟩ := Option.isSome_iff_exists.1 (GetRank_isSome_table e he)
  unfold Board.IsLegal
  simp only [ha, her, Option.some_bind]
  split
  · rfl
  · split
    · rfl
    · split
      · split
        · split
          · rfl
          · rfl
        · rfl
      · rfl
    · rename_i hpc
      exact isSome_map _ _ (allKnightMoves_isSome (GetPieceAt_spec hpc (by decide)).2)
    · rename_i hpc
      exact isSome_map _ _ (GetBishopMoves_isSome _ (GetPieceAt_spec hpc (by decide)).2)
    · rename_i hpc
      have := GetPieceAt_spec hpc (by decide)
      exact isSome_map _ _ (GetRookMoves_isSome this.2 (At_FullBB hW.1 ⟨by decide, this.1⟩))
    · rename_i hpc
      have := GetPieceAt_spec hpc (by decide)
      exact isSome_map _ _ (GetQueenMoves_isSome this.2 (At_FullBB hW.1 ⟨by decide, this.1⟩))
    · rfl

/-! ## Well-formed positions -/

theorem bnot_lt (x : Nat) : bnot x < 2 ^ 64 := by
  unfold bnot
  exact Nat.xor_lt_two_pow (by decide) (Nat.mod_lt _ (by decide))

theorem ZeroBit_lt (bb sq : Nat) : ZeroBit bb sq < 2 ^ 64 :=
  Nat.lt_of_le_of_lt Nat.and_le_right (bnot_lt _)

theorem SetBit_lt {bb : Nat} (sq : Nat) (h : bb < 2 ^ 64) : SetBit bb sq < 2 ^ 64 :=
  Nat.or_lt_two_pow h (Nat.mod_lt _ (by decide))

theorem setPieceBB_bounded {b : Board} (c : Color) (p : Piece) {v : Nat}
    (hb : ∀ c p, b.PieceBB c p < 2 ^ 64) (hv : v < 2 ^ 64) :
    ∀ c' p', (b.setPieceBB c p v).PieceBB c' p' < 2 ^ 64 := by
  intro c' p'
  simp only [Board.setPieceBB]
  split
  · exact hv
  · exact hb c' p'

theorem captureFold_bounded (o : Color) (e : Nat) (l : List Piece) (acc : Board × Bool)
    (hb : ∀ c p, acc.1.PieceBB c p < 2 ^ 64) :
    ∀ c p, (l.foldl (captureStep o e) acc).1.PieceBB c p < 2 ^ 64 := by
  induction l generalizing acc with
  | nil => exact hb
  | cons q l ih =>
    simp only [List.foldl_cons]
    apply ih
    unfold captureStep
    split
    · exact setPieceBB_bounded _ _ hb (ZeroBit_lt _ _)
    · exact hb

theorem placePiece_bounded {X : Board} (col : Color) (piece : Piece) (s e : Nat)
    (promo : Piece) (hb : ∀ c p, X.PieceBB c p < 2 ^ 64) :
    ∀ c p, (placePiece X col piece s e promo).PieceBB c p < 2 ^ 64 := by
  unfold placePiece
  simp only [Board.CombineBB]
  apply setPieceBB_bounded _ _ _ (ZeroBit_lt _ _)
  split
  · exact setPieceBB_bounded _ _ hb (SetBit_lt _ (hb _ _))
  · exact setPieceBB_bounded _ _ hb (SetBit_lt _ (hb _ _))

theorem MovePieceAux_shape {d : Nat} {b : Board} {piece : Piece} {s e : Nat} {promo : Piece}
    {r : Board × Bool} (h : MovePieceAux (d + 1) b piece s e promo = some r) :
    (piece = Piece.Empty ∧ r = (b, false)) ∨
    (piece ≠ Piece.Empty ∧ ∃ sr er X, GetRank s = some sr ∧ GetRank e = some er ∧
      specialRules (MovePieceAux d) (captureLoop b b.Turn.Other e).1 b.Turn piece (GetFile s) sr
        (GetFile e) er e = some X ∧
      r = (placePiece X b.Turn piece s e promo, (captureLoop b b.Turn.Other e).2)) := by
  unfold MovePieceAux at h
  simp only [Option.bind_eq_some] at h
  obtain ⟨sr, hsr, er, her, h⟩ := h
  split at h
  · rename_i hp
    exact Or.inl ⟨hp, (Option.some.inj h).symm⟩
  · rename_i hp
    simp only [Option.map_eq_some'] at h
    obtain ⟨X, hX, rfl⟩ := h
    exact Or.inr ⟨hp, sr, er, X, hsr, her, hX, rfl⟩

theorem MovePieceAux_bounded :
    ∀ (d : Nat) (b : Board) (piece : Piece) (s e : Nat) (promo : Piece) (r : Board × Bool),
      (∀ c p, b.PieceBB c p < 2 ^ 64) → MovePieceAux d b piece s e promo = some r →
      ∀ c p, r.1.PieceBB c p < 2 ^ 64 := by
  intro d
  induction d with
  | zero =>
    intro b piece s e promo r _ h
    simp [MovePieceAux] at h
  | succ d ih =>
    intro b piece s e promo r hb h
    rcases MovePieceAux_shape h with ⟨-, rfl⟩ | ⟨hp, sr, er, X, -, -, hX, rfl⟩
    · exact hb
    · apply placePiece_bounded
      have hc : ∀ c p, (captureLoop b b.Turn.Other e).1.PieceBB c p < 2 ^ 64 :=
        captureFold_bounded _ _ _ _ hb
      by_cases hcs : isCastle piece (GetFile s) (GetFile e)
      · obtain ⟨rfl, -, -⟩ := id hcs
        obtain ⟨rs, r', hr', hPB, -⟩ := specialRules_castle _ _ _ _ _ _ _ _ _ hcs hX
        rw [hPB]
        refine ih _ _ _ _ _ _ ?_ hr'
        exact hc
      · obtain ⟨X', hX', hPB, -⟩ := specialRules_plain (MovePieceAux d)
          (captureLoop b b.Turn.Other e).1 b.Turn piece (GetFile s) sr (GetFile e) er e hcs
        rw [hX'] at hX
        have : X' = X := Option.some.inj hX
        subst this
        rw [hPB]
        exact hc

theorem MovePiece_wellFormed {b : Board} {piece : Piece} {s e : Nat} {promo : Piece}
    {r : Board × Bool} (hW : WellFormed b) (h : b.MovePiece piece s e promo = some r) :
    WellFormed r.1 := by
  refine ⟨?_, MovePieceAux_bounded _ _ _ _ _ _ _ hW.2 h⟩
  rcases MovePieceAux_shape h with ⟨-, rfl⟩ | ⟨-, sr, er, X, -, -, -, rfl⟩
  · exact hW.1
  · exact placePiece_consistent _ _ _ _ _ _

theorem NewBoard_bounded : ∀ c p, NewBoard.PieceBB c p < 2 ^ 64 := by
  intro c p
  cases c <;> cases p <;> decide!

theorem WellFormed_NewBoard : WellFormed NewBoard :=
  ⟨CombineBB_consistent _, NewBoard_bounded⟩

theorem Reachable_WellFormed {b : Board} (h : Reachable b) : WellFormed b := by
  induction h with
  | init => exact WellFormed_NewBoard
  | step _ hm ih =>
    obtain ⟨piece, promo, m, cap, -, -, hmv, rfl⟩ := MakeMove_accept hm
    exact MovePiece_wellFormed (r := (m, cap)) ih hmv

theorem Later_wellFormed {b b2 : Board} (hW : WellFormed b) (h : Later b b2) :
    WellFormed b2 := by
  induction h with
  | refl => exact hW
  | move _ hm ih => exact MovePiece_wellFormed ih hm
  | turn _ ih => exact ih

/-! ## The cases of `IsLegal` -/

theorem finish_empty (b : Board) (col : Color) (a : Nat) (pr : Piece) :
    IsLegal.finish b col a pr Piece.Empty Piece.Empty = (Piece.Empty, Piece.Empty) := by
  unfold IsLegal.finish
  split
  · rfl
  · split <;> rfl

theorem finish_attacked (b : Board) (col : Color) (a : Nat) (pr out outP : Piece)
    (h : (b.PieceBB col Piece.Kings &&& a) ≠ 0) :
    IsLegal.finish b col a pr out outP = (Piece.Empty, Piece.Empty) := by
  unfold IsLegal.finish
  rw [if_pos h]

theorem finish_cases (b : Board) (col : Color) (a : Nat) (pr out outP : Piece) :
    IsLegal.finish b col a pr out outP = (Piece.Empty, Piece.Empty) ∨
    (IsLegal.finish b col a pr out outP = (out, outP) ∧ pr = outP) := by
  unfold IsLegal.finish
  split
  · exact Or.inl rfl
  · split
    · exact Or.inl rfl
    · rename_i h
      exact Or.inr ⟨rfl, by simpa using h⟩

theorem IsLegal_some_cases {b : Board} {s e : Nat} {pr : Piece} {r : Piece × Piece}
    (h : b.IsLegal s e pr = some r) :
    r = (Piece.Empty, Piece.Empty) ∨
    (r.1 = b.GetPieceAt s b.Turn ∧ r.1 ≠ Piece.Empty ∧ r.2 = pr ∧ pr ≠ Piece.Pawns ∧
      pr ≠ Piece.Kings ∧
      ∃ er, GetRank e = some er ∧
        (pr ≠ Piece.Empty ↔ (r.1 = Piece.Pawns ∧ (er = Rank8 ∨ er = Rank1)))) := by
  unfold Board.IsLegal at h
  simp only [Option.bind_eq_some] at h
  obtain ⟨opp, hopp, er, her, h⟩ := h
  split at h
  · exact Or.inl (Option.some.inj h).symm
  rename_i hpr
  have hprP : pr ≠ Piece.Pawns := fun hh => hpr (Or.inl hh)
  have hprK : pr ≠ Piece.Kings := fun hh => hpr (Or.inr hh)
  have plain : ∀ {c1 : Prop} [Decidable c1] {q : Piece}, q ≠ Piece.Pawns →
      b.GetPieceAt s b.Turn = q →
      IsLegal.finish b b.Turn opp pr (if c1 then q else Piece.Empty) Piece.Empty = r →
      r = (Piece.Empty, Piece.Empty) ∨
      (r.1 = b.GetPieceAt s b.Turn ∧ r.1 ≠ Piece.Empty ∧ r.2 = pr ∧ pr ≠ Piece.Pawns ∧
        pr ≠ Piece.Kings ∧
        ∃ er, GetRank e = some er ∧
          (pr ≠ Piece.Empty ↔ (r.1 = Piece.Pawns ∧ (er = Rank8 ∨ er = Rank1)))) := by
    intro c1 _ q hq hpc hf
    rcases finish_cases b b.Turn opp pr (if c1 then q else Piece.Empty) Piece.Empty with
      h1 | ⟨h1, h2⟩
    · exact Or.inl (hf ▸ h1)
    · rw [h1] at hf
      subst hf
      by_cases hc1 : c1
      · rw [if_pos hc1]
        by_cases hqe : q = Piece.Empty
        · exact Or.inl (by rw [hqe])
        · right
          refine ⟨hpc.symm, hqe, h2.symm, hprP, hprK, er, her, ?_⟩
          constructor
          · intro hh
            exact absurd h2 hh
          · intro hh
            exact absurd hh.1 hq
      · rw [if_neg hc1]
        exact Or.inl rfl
  split at h
  · exact Or.inl (Option.some.inj h).symm
  · rename_i hpc
    split at h
    · split at h
      · rename_i hlast
        split at h
        · rename_i hne
          have h := Option.some.inj h
          rcases finish_cases b b.Turn opp pr Piece.Pawns pr with h1 | ⟨h1, -⟩
          · exact Or.inl (h ▸ h1)
          · rw [h1] at h
            subst h
            right
            exact ⟨hpc.symm, (fun hh => by cases hh), rfl, hprP, hprK, er, her,
              ⟨fun _ => ⟨rfl, hlast⟩, fun _ => hne⟩⟩
        · exact Or.inl (Option.some.inj h).symm
      · rename_i hlast
        have h := Option.some.inj h
        rcases finish_cases b b.Turn opp pr Piece.Pawns Piece.Empty with h1 | ⟨h1, h2⟩
        · exact Or.inl (h ▸ h1)
        · rw [h1] at h
          subst h
          right
          exact ⟨hpc.symm, (fun hh => by cases hh), h2.symm, hprP, hprK, er, her,
            ⟨fun hh => absurd h2 hh, fun hh => absurd hh.2 hlast⟩⟩
    · have h := Option.some.inj h
      rw [finish_empty] at h
      exact Or.inl h.symm
  · rename_i hpc
    simp only [Option.map_eq_some'] at h
    obtain ⟨m, -, h⟩ := h
    exact plain (by decide) hpc h
  · rename_i hpc
    simp only [Option.map_eq_some'] at h
    obtain ⟨m, -, h⟩ := h
    exact plain (by decide) hpc h
  · rename_i hpc
    simp only [Option.map_eq_some'] at h
    obtain ⟨m, -, h⟩ := h
    exact plain (by decide) hpc h
  · rename_i hpc
    simp only [Option.map_eq_some'] at h
    obtain ⟨m, -, h⟩ := h
    exact plain (by decide) hpc h
  · rename_i hpc
    exact plain (by decide) hpc (Option.some.inj h)

theorem IsLegal_kings {b : Board} {s e a er : Nat} (pr : Piece)
    (hA : b.AllAttacks b.Turn.Other = some a) (hR : GetRank e = some er)
    (hK : b.GetPieceAt s b.Turn = Piece.Kings) :
    b.IsLegal s e pr = some (Piece.Empty, Piece.Empty) ∨
    b.IsLegal s e pr = some (IsLegal.finish b b.Turn a pr
      (if (GetKingMoves s b.FullBB b.Turn (b.RKRmoved b.Turn) a &&& 2 ^ e &&&
          bnot (b.ColorBB b.Turn) &&& bnot a) ≠ 0 then Piece.Kings else Piece.Empty)
      Piece.Empty) := by
  unfold Board.IsLegal
  simp only [hA, hR, Option.some_bind]
  rw [endBB_eq hR]
  split
  · exact Or.inl rfl
  · right
    simp only [hK]

theorem IsLegal_kings_rejected {b : Board} {s e a er : Nat} (pr : Piece)
    (hA : b.AllAttacks b.Turn.Other = some a) (hR : GetRank e = some er)
    (hK : b.GetPieceAt s b.Turn = Piece.Kings)
    (h : (b.PieceBB b.Turn Piece.Kings &&& a) ≠ 0 ∨
      (GetKingMoves s b.FullBB b.Turn (b.RKRmoved b.Turn) a &&& 2 ^ e &&&
        bnot (b.ColorBB b.Turn) &&& bnot a) = 0) :
    b.IsLegal s e pr = some (Piece.Empty, Piece.Empty) := by
  rcases IsLegal_kings pr hA hR hK with h1 | h1
  · exact h1
  · rw [h1]
    rcases h with h | h
    · rw [finish_attacked _ _ _ _ _ _ h]
    · rw [if_neg (by simpa using h), finish_empty]

/-! ## Castling conditions and flags -/

theorem castleLoop_bits_full (rank full opp dest : Nat) (l : List Nat) (moves i : Nat)
    (h : (castleLoop rank full opp dest l moves).testBit i = true) :
    moves.testBit i = true ∨ ((dest &&& rank).testBit i = true ∧
      ∃ fl rest, l = fl :: rest ∧ fl &&& rank &&& full = 0 ∧ fl &&& rank &&& opp = 0) := by
  induction l generalizing moves with
  | nil => exact Or.inl h
  | cons fl rest ih =>
    unfold castleLoop at h
    split at h
    · exact Or.inl h
    · rename_i hb
      simp only [not_or, ne_eq, not_not] at hb
      rcases ih _ h with h1 | h1
      · rw [Nat.testBit_or] at h1
        simp only [Bool.or_eq_true] at h1
        rcases h1 with h1 | h1
        · exact Or.inl h1
        · exact Or.inr ⟨h1, fl, rest, rfl, hb.1, hb.2⟩
      · exact Or.inr ⟨h1.1, fl, rest, rfl, hb.1, hb.2⟩

theorem GetCastles_bits_full (col : Color) (full : Nat) (rkr : RKR) (opp e : Nat)
    (h : (GetCastles col full rkr opp).testBit e = true) :
    rkr 1 = false ∧
    (((FileC &&& (match col with | Color.White => Rank1 | Color.Black => Rank8)).testBit e = true ∧
        rkr 0 = false ∧
        FileD &&& (match col with | Color.White => Rank1 | Color.Black => Rank8) &&& full = 0 ∧
        FileD &&& (match col with | Color.White => Rank1 | Color.Black => Rank8) &&& opp = 0) ∨
      ((FileG &&& (match col with | Color.White => Rank1 | Color.Black => Rank8)).testBit e = true ∧
        rkr 2 = false ∧
        FileF &&& (match col with | Color.White => Rank1 | Color.Black => Rank8) &&& full = 0 ∧
        FileF &&& (match col with | Color.White => Rank1 | Color.Black => Rank8) &&& opp = 0)) := by
  have key : ∀ rank : Nat,
      ((if (!rkr 1) = true then
          (if (!rkr 2) = true then
            castleLoop rank full opp FileG [FileF, FileG]
              (if (!rkr 0) = true then castleLoop rank full opp FileC [FileD, FileC, FileB] 0
                else 0)
          else (if (!rkr 0) = true then castleLoop rank full opp FileC [FileD, FileC, FileB] 0
                else 0))
        else 0).testBit e = true) →
      rkr 1 = false ∧
        (((FileC &&& rank).testBit e = true ∧ rkr 0 = false ∧ FileD &&& rank &&& full = 0 ∧
            FileD &&& rank &&& opp = 0) ∨
          ((FileG &&& rank).testBit e = true ∧ rkr 2 = false ∧ FileF &&& rank &&& full = 0 ∧
            FileF &&& rank &&& opp = 0)) := by
    intro rank h
    split at h
    · rename_i h1
      refine ⟨by simpa using h1, ?_⟩
      have q : ((if (!rkr 0) = true then
          castleLoop rank full opp FileC [FileD, FileC, FileB] 0 else 0).testBit e = true) →
          (FileC &&& rank).testBit e = true ∧ rkr 0 = false ∧ FileD &&& rank &&& full = 0 ∧
            FileD &&& rank &&& opp = 0 := by
        intro h2
        split at h2
        · rename_i h0
          rcases castleLoop_bits_full _ _ _ _ _ _ _ h2 with h4 | ⟨h4, fl, rest, hl, h5, h6⟩
          · simp at h4
          · simp only [List.cons.injEq] at hl
            exact ⟨h4, by simpa using h0, hl.1 ▸ h5, hl.1 ▸ h6⟩
        · simp at h2
      split at h
      · rename_i h2'
        rcases castleLoop_bits_full _ _ _ _ _ _ _ h with h2 | ⟨h2, fl, rest, hl, h3, h4⟩
        · exact Or.inl (q h2)
        · right
          simp only [List.cons.injEq] at hl
          exact ⟨h2, by simpa using h2', hl.1 ▸ h3, hl.1 ▸ h4⟩
      · exact Or.inl (q h)
    · simp at h
  cases col
  · exact key Rank1 h
  · exact key Rank8 h

theorem testBit_of_and4_ne_zero {m e x y : Nat} (h : (m &&& 2 ^ e &&& x &&& y) ≠ 0) :
    m.testBit e = true ∧ x.testBit e = true ∧ y.testBit e = true := by
  obtain ⟨i, hi⟩ := Nat.ne_zero_implies_bit_true h
  simp only [Nat.testBit_and, Nat.testBit_two_pow, Bool.and_eq_true, decide_eq_true_eq] at hi
  obtain ⟨⟨⟨h1, h2⟩, h3⟩, h4⟩ := hi
  subst h2
  exact ⟨h1, h3, h4⟩

theorem castle_dest_table :
    FileC &&& Rank1 = 2 ^ 2 ∧ FileG &&& Rank1 = 2 ^ 6 ∧ FileC &&& Rank8 = 2 ^ 58 ∧
    FileG &&& Rank8 = 2 ^ 62 ∧ FileD &&& Rank1 = 2 ^ 3 ∧ FileF &&& Rank1 = 2 ^ 5 ∧
    FileD &&& Rank8 = 2 ^ 59 ∧ FileF &&& Rank8 = 2 ^ 61 := by
  decide

/-- What an accepted king move from the e-file to the c- or g-file needs: it is one of the
two castling destinations of `GetCastles`, with the flags and the first file of that side. -/
theorem castle_needs {s e full : Nat} {col : Color} {rkr : RKR} {a : Nat}
    (hs : s < 64) (he : e < 64) (hsf : GetFile s = FileE)
    (hef : GetFile e = FileG ∨ GetFile e = FileC)
    (h : (GetKingMoves s full col rkr a).testBit e = true) :
    rkr 1 = false ∧
    ((GetFile e = FileC ∧ rkr 0 = false ∧ e + 2 = kingHome col ∧
        a.testBit (e + 1) = false) ∨
      (GetFile e = FileG ∧ rkr 2 = false ∧ e = kingHome col + 2 ∧
        a.testBit (e - 1) = false)) := by
  rw [GetKingMoves_split, Nat.testBit_or, kingSteps_table s hs e he hsf hef.symm] at h
  simp only [Bool.false_or] at h
  obtain ⟨h1, h2⟩ := GetCastles_bits_full col full rkr a e h
  refine ⟨h1, ?_⟩
  obtain ⟨c1, c2, c3, c4, d1, d2, d3, d4⟩ := castle_dest_table
  cases col
  · simp only [c1, c2, d1, d2, Nat.testBit_two_pow, decide_eq_true_eq] at h2
    rcases h2 with ⟨rfl, h3, -, h4⟩ | ⟨rfl, h3, -, h4⟩
    · exact Or.inl ⟨by decide, h3, rfl, two_pow_and_eq_zero h4⟩
    · exact Or.inr ⟨by decide, h3, rfl, two_pow_and_eq_zero h4⟩
  · simp only [c3, c4, d3, d4, Nat.testBit_two_pow, decide_eq_true_eq] at h2
    rcases h2 with ⟨rfl, h3, -, h4⟩ | ⟨rfl, h3, -, h4⟩
    · exact Or.inl ⟨by decide, h3, rfl, two_pow_and_eq_zero h4⟩
    · exact Or.inr ⟨by decide, h3, rfl, two_pow_and_eq_zero h4⟩

theorem fileC_ne_fileG : FileC ≠ FileG := by decide

/-- A king move from the e-file to the c- or g-file is rejected when the king flag is set, or
the flag of that side is set, or the king's square, the square next to it on that side or the
end square is attacked. -/
theorem castle_rejected {b : Board} {s e a : Nat} (pr : Piece)
    (hA : b.AllAttacks b.Turn.Other = some a) (he : e < 64)
    (hK : b.GetPieceAt s b.Turn = Piece.Kings) (hsf : GetFile s = FileE)
    (hef : GetFile e = FileG ∨ GetFile e = FileC)
    (h : b.RKRmoved b.Turn 1 = true ∨
      (GetFile e = FileG ∧ b.RKRmoved b.Turn 2 = true) ∨
      (GetFile e = FileC ∧ b.RKRmoved b.Turn 0 = true) ∨
      a.testBit s = true ∨
      (GetFile e = FileG ∧ a.testBit (e - 1) = true) ∨
      (GetFile e = FileC ∧ a.testBit (e + 1) = true) ∨
      a.testBit e = true) :
    b.IsLegal s e pr = some (Piece.Empty, Piece.Empty) := by
  obtain ⟨er, hR⟩ := Option.isSome_iff_exists.1 (GetRank_isSome_table e he)
  obtain ⟨hkb, hs⟩ := GetPieceAt_spec hK (by decide)
  apply IsLegal_kings_rejected pr hA hR hK
  by_cases hz : (GetKingMoves s b.FullBB b.Turn (b.RKRmoved b.Turn) a &&& 2 ^ e &&&
      bnot (b.ColorBB b.Turn) &&& bnot a) = 0
  · exact Or.inr hz
  · obtain ⟨z1, -, z3⟩ := testBit_of_and4_ne_zero hz
    rw [testBit_bnot] at z3
    simp only [Bool.and_eq_true, decide_eq_true_eq, Bool.not_eq_true'] at z3
    obtain ⟨n1, n2⟩ := castle_needs hs he hsf hef z1
    rcases h with h | ⟨hg, h⟩ | ⟨hc, h⟩ | h | ⟨hg, h⟩ | ⟨hc, h⟩ | h
    · rw [n1] at h; cases h
    · rcases n2 with ⟨f1, -⟩ | ⟨-, f2, -⟩
      · exact absurd (f1.symm.trans hg) fileC_ne_fileG
      · rw [f2] at h; cases h
    · rcases n2 with ⟨-, f2, -⟩ | ⟨f1, -⟩
      · rw [f2] at h; cases h
      · exact absurd (hc.symm.trans f1) fileC_ne_fileG
    · left
      intro h0
      have := congrArg (fun x => x.testBit s) h0
      simp [hkb, h] at this
    · rcases n2 with ⟨f1, -⟩ | ⟨-, -, -, f4⟩
      · exact absurd (f1.symm.trans hg) fileC_ne_fileG
      · rw [f4] at h; cases h
    · rcases n2 with ⟨-, -, -, f4⟩ | ⟨f1, -⟩
      · rw [f4] at h; cases h
      · exact absurd (hc.symm.trans f1) fileC_ne_fileG
    · rw [z3.2] at h; cases h

theorem specialRules_rook_flags
    (call : Board → Piece → Nat → Nat → Piece → Option (Board × Bool))
    (b : Board) (col : Color) (sf sr ef er e : Nat) (X : Board)
    (h : specialRules call b col Piece.Rooks sf sr ef er e = some X) :
    (sf = FileH → X.RKRmoved col 2 = true) ∧ (sf = FileA → X.RKRmoved col 0 = true) := by
  have hAH : FileH ≠ FileA := by decide
  unfold specialRules at h
  simp only [reduceCtorEq, if_false, if_true] at h
  split at h
  · rename_i hA
    have h := Option.some.inj h
    subst h
    exact ⟨fun hh => absurd (hh.symm.trans hA) hAH, fun _ => by simp [Board.setRKR]⟩
  · rename_i hA
    split at h
    · have h := Option.some.inj h
      subst h
      exact ⟨fun _ => by simp [Board.setRKR], fun hh => absurd hh hA⟩
    · rename_i hH
      exact ⟨fun hh => absurd hh hH, fun hh => absurd hh hA⟩

theorem MovePiece_flags {b : Board} {piece : Piece} {s e : Nat} {promo : Piece}
    {r : Board × Bool} (h : b.MovePiece piece s e promo = some r) :
    r.1.Turn = b.Turn ∧
    (∀ c i, b.RKRmoved c i = true → r.1.RKRmoved c i = true) ∧
    (piece = Piece.Kings → r.1.RKRmoved b.Turn 1 = true) ∧
    (piece = Piece.Rooks → GetFile s = FileH → r.1.RKRmoved b.Turn 2 = true) ∧
    (piece = Piece.Rooks → GetFile s = FileA → r.1.RKRmoved b.Turn 0 = true) := by
  have h' : MovePieceAux 2 b piece s e promo = some (r.1, r.2) := h
  rcases MovePieceAux_shape h with ⟨hp, rfl⟩ | ⟨hp, sr, er, X, -, -, hX, hr⟩
  · subst hp
    exact ⟨rfl, fun _ _ hh => hh, (fun hh => by cases hh), (fun hh => by cases hh),
      (fun hh => by cases hh)⟩
  · have rook : (piece = Piece.Rooks → GetFile s = FileH → r.1.RKRmoved b.Turn 2 = true) ∧
        (piece = Piece.Rooks → GetFile s = FileA → r.1.RKRmoved b.Turn 0 = true) := by
      subst hr
      rw [(placePiece_frame X b.Turn piece s e promo).2.1]
      constructor
      · rintro rfl hf
        exact (specialRules_rook_flags _ _ _ _ _ _ _ _ _ hX).1 hf
      · rintro rfl hf
        exact (specialRules_rook_flags _ _ _ _ _ _ _ _ _ hX).2 hf
    by_cases hcs : isCastle piece (GetFile s) (GetFile e)
    · obtain ⟨rfl, -, -⟩ := id hcs
      obtain ⟨-, mT, -, mR, mK, -⟩ := MovePieceAux_castle (d := 0) h' hcs
      exact ⟨mT, mR, fun _ => mK, rook.1, rook.2⟩
    · obtain ⟨-, mT, -, mR, mK, -⟩ := MovePieceAux_plain (d := 1) h' hp hcs
      exact ⟨mT, mR, mK, rook.1, rook.2⟩

theorem Later_flags {b b2 : Board} (h : Later b b2) :
    ∀ c i, b.RKRmoved c i = true → b2.RKRmoved c i = true := by
  induction h with
  | refl => exact fun _ _ hh => hh
  | move _ hm ih => exact fun c i hh => (MovePiece_flags hm).2.1 c i (ih c i hh)
  | turn _ ih => exact ih

theorem rank_table : ∀ e < 64,
    (GetRank e = some Rank8 ↔ e / 8 = 7) ∧ (GetRank e = some Rank1 ↔ e / 8 = 0) := by
  decide!

theorem lastRank_iff {e er : Nat} (h : GetRank e = some er) :
    (er = Rank8 ∨ er = Rank1) ↔ (e / 8 = 7 ∨ e / 8 = 0) := by
  obtain ⟨t1, t2⟩ := rank_table e (GetRank_some_lt h)
  rw [h] at t1 t2
  simp only [Option.some.injEq] at t1 t2
  rw [t1, t2]

theorem GetPieceAt_empty {b : Board} {s : Nat} {c : Color}
    (h : ∀ p, p ≠ Piece.Empty → (b.PieceBB c p).testBit s = false) :
    b.GetPieceAt s c = Piece.Empty := by
  unfold Board.GetPieceAt
  have : pieceRange.find? (fun p => GetBit (b.PieceBB c p) s) = none := by
    rw [List.find?_eq_none]
    intro p hp hg
    have hne : p ≠ Piece.Empty := by
      rintro rfl
      simp [pieceRange] at hp
    have := (GetBit_true (by simpa using hg)).1
    rw [h p hne] at this
    cases this
  rw [this]
  rfl

theorem GetCastles_flag (col : Color) (full : Nat) (rkr : RKR) (opp : Nat)
    (h : rkr 1 = true) : GetCastles col full rkr opp = 0 := by
  unfold GetCastles
  simp [h]

theorem knight_table : ∀ sq < 64, ∀ t < 64,
    ((allKnightMoves.getD sq 0).testBit t = true ↔
      ((absDiff (sq / 8) (t / 8) = 1 ∧ absDiff (sq % 8) (t % 8) = 2) ∨
        (absDiff (sq / 8) (t / 8) = 2 ∧ absDiff (sq % 8) (t % 8) = 1))) := by
  decide!

theorem knight_bound : ∀ sq < 64, allKnightMoves.getD sq 0 < 2 ^ 64 := by
  decide!

theorem kingSteps_full_table : ∀ sq < 64, ∀ t < 64,
    ((GetKingMoves sq 0 Color.White (fun _ => true) 0).testBit t = true ↔
      (t ≠ sq ∧ absDiff (sq / 8) (t / 8) ≤ 1 ∧ absDiff (sq % 8) (t % 8) ≤ 1)) := by
  decide!

theorem kingSteps_bound :
    ∀ sq < 64, GetKingMoves sq 0 Color.White (fun _ => true) 0 < 2 ^ 64 := by
  decide!

theorem testBit_false_of_lt {x t : Nat} (hx : x < 2 ^ 64) (ht : 64 ≤ t) :
    x.testBit t = false :=
  Nat.testBit_lt_two_pow (Nat.lt_of_lt_of_le hx (Nat.pow_le_pow_right (by decide) ht))

theorem afterE4E5_isSome : afterE4E5Game.isSome = true := by decide!

theorem Reachable_afterE4E5 : Reachable afterE4E5 :=
  Reachable_submitAll _ NewBoard afterE4E5 Reachable.init
    (getD_of_isSome afterE4E5Game NewBoard afterE4E5_isSome)

theorem afterKe2_eq : afterE4E5.MovePiece Piece.Kings 4 12 Piece.Empty = some afterKe2 :=
  getD_of_isSome _ _ (by decide!)

theorem kingHome_file (c : Color) :
    GetFile (kingHome c) = FileE ∧ GetFile (kingHome c + 2) = FileG ∧
      GetFile (kingHome c - 2) = FileC ∧ kingHome c + 2 < 64 ∧ 2 ≤ kingHome c := by
  cases c <;> decide

/-! ## The exact effect of a plain move -/

theorem captureStep_bits (o : Color) (e : Nat) (acc : Board × Bool) (p : Piece) (c : Color)
    (q : Piece) (i : Nat) (he : e < 64) (hi : i < 64) :
    ((captureStep o e acc p).1.PieceBB c q).testBit i = true ↔
      (acc.1.PieceBB c q).testBit i = true ∧ ¬ (c = o ∧ q = p ∧ i = e) := by
  constructor
  · intro h
    obtain ⟨h1, h2⟩ := captureStep_sub o e acc p c q i h
    exact ⟨h1, fun hh => h2 hh.1 hh.2.1 he hh.2.2⟩
  · rintro ⟨h1, h2⟩
    unfold captureStep
    split
    · simp only [Board.setPieceBB]
      split
      · rename_i hcq
        obtain ⟨rfl, rfl⟩ := hcq
        rw [testBit_ZeroBit]
        simp only [Bool.and_eq_true, decide_eq_true_eq, Bool.not_eq_true',
          decide_eq_false_iff_not]
        exact ⟨h1, hi, fun hh => h2 ⟨rfl, rfl, hh⟩⟩
      · exact h1
    · exact h1

theorem captureStep_flag (o : Color) (e : Nat) (acc : Board × Bool) (p : Piece) (he : e < 64) :
    (captureStep o e acc p).2 = true ↔
      acc.2 = true ∨ (acc.1.PieceBB o p).testBit e = true := by
  unfold captureStep
  split
  · rename_i h
    rw [and_shl_one_ne_zero] at h
    exact ⟨fun _ => Or.inr h.1, fun _ => rfl⟩
  · rename_i h
    rw [and_shl_one_ne_zero] at h
    constructor
    · intro hh
      exact Or.inl hh
    · rintro (hh | hh)
      · exact hh
      · exact absurd ⟨hh, he⟩ h

theorem captureFold_bits (o : Color) (e : Nat) (he : e < 64) (l : List Piece) :
    ∀ (acc : Board × Bool) (c : Color) (q : Piece) (i : Nat), i < 64 →
      (((l.foldl (captureStep o e) acc).1.PieceBB c q).testBit i = true ↔
        (acc.1.PieceBB c q).testBit i = true ∧ ¬ (c = o ∧ q ∈ l ∧ i = e)) := by
  induction l with
  | nil =>
    intro acc c q i _
    simp
  | cons p l ih =>
    intro acc c q i hi
    rw [List.foldl_cons, ih _ c q i hi, captureStep_bits o e acc p c q i he hi]
    simp only [List.mem_cons]
    tauto

theorem captureFold_flag (o : Color) (e : Nat) (he : e < 64) (l : List Piece) :
    ∀ (acc : Board × Bool), ((l.foldl (captureStep o e) acc).2 = true ↔
      acc.2 = true ∨ ∃ p, p ∈ l ∧ (acc.1.PieceBB o p).testBit e = true) := by
  induction l with
  | nil =>
    intro acc
    simp
  | cons p l ih =>
    intro acc
    rw [List.foldl_cons, ih, captureStep_flag o e acc p he]
    constructor
    · rintro ((h | h) | ⟨p', hp', h⟩)
      · exact Or.inl h
      · exact Or.inr ⟨p, List.mem_cons_self _ _, h⟩
      · exact Or.inr ⟨p', List.mem_cons_of_mem _ hp',
          ((captureStep_bits o e acc p o p' e he he).1 h).1⟩
    · rintro (h | ⟨p', hp', h⟩)
      · exact Or.inl (Or.inl h)
      · by_cases hpp : p' = p
        · subst hpp
          exact Or.inl (Or.inr h)
        · rcases List.mem_cons.1 hp' with h1 | h1
          · exact absurd h1 hpp
          · exact Or.inr ⟨p', h1,
              (captureStep_bits o e acc p o p' e he he).2 ⟨h, fun hh => hpp hh.2.1⟩⟩

theorem pieceRange_mem_iff (q : Piece) : q ∈ pieceRange ↔ q ≠ Piece.Empty := by
  cases q <;> decide

theorem placePiece_bits (X : Board) (col : Color) (piece : Piece) (s e : Nat) (promo : Piece)
    (c : Color) (q : Piece) (i : Nat) (hi : i < 64) :
    ((placePiece X col piece s e promo).PieceBB c q).testBit i = true ↔
      ((X.PieceBB c q).testBit i = true ∨
        (c = col ∧ q = (if promo = Piece.Empty then piece else promo) ∧ i = e)) ∧
      ¬ (c = col ∧ q = piece ∧ i = s) := by
  unfold placePiece
  simp only [Board.CombineBB, Board.setPieceBB]
  by_cases hpr : promo = Piece.Empty
  · simp only [hpr, if_true]
    by_cases hcp : c = col ∧ q = piece
    · obtain ⟨rfl, rfl⟩ := hcp
      simp only [and_self, if_true, testBit_ZeroBit, testBit_SetBit, Bool.and_eq_true,
        Bool.or_eq_true, decide_eq_true_eq, Bool.not_eq_true', decide_eq_false_iff_not,
        true_and]
      constructor
      · rintro ⟨h1 | h1, -, h3⟩
        · exact ⟨Or.inl h1, h3⟩
        · exact ⟨Or.inr h1.1, h3⟩
      · rintro ⟨h1 | h1, h3⟩
        · exact ⟨Or.inl h1, hi, h3⟩
        · exact ⟨Or.inr ⟨h1, hi⟩, hi, h3⟩
    · simp only [hcp, if_false]
      constructor
      · intro h
        exact ⟨Or.inl h, fun hh => hcp ⟨hh.1, hh.2.1⟩⟩
      · rintro ⟨h1 | h1, -⟩
        · exact h1
        · exact absurd ⟨h1.1, h1.2.1⟩ hcp
  · simp only [hpr, if_false]
    have key : (if c = col ∧ q = promo then SetBit (X.PieceBB col promo) e
        else X.PieceBB c q).testBit i = true ↔
        ((X.PieceBB c q).testBit i = true ∨ (c = col ∧ q = promo ∧ i = e)) := by
      split
      · rename_i hq
        obtain ⟨rfl, rfl⟩ := hq
        rw [testBit_SetBit]
        simp only [Bool.or_eq_true, Bool.and_eq_true, decide_eq_true_eq, true_and]
        constructor
        · rintro (h1 | h1)
          · exact Or.inl h1
          · exact Or.inr h1.1
        · rintro (h1 | h1)
          · exact Or.inl h1
          · exact Or.inr ⟨h1, hi⟩
      · rename_i hq
        constructor
        · intro h
          exact Or.inl h
        · rintro (h1 | h1)
          · exact h1
          · exact absurd ⟨h1.1, h1.2.1⟩ hq
    by_cases hcp : c = col ∧ q = piece
    · simp only [hcp, and_self, if_true, testBit_ZeroBit, Bool.and_eq_true,
        decide_eq_true_eq, Bool.not_eq_true', decide_eq_false_iff_not]
      obtain ⟨rfl, rfl⟩ := hcp
      simp only [true_and] at key ⊢
      rw [key]
      constructor
      · rintro ⟨h1, -, h3⟩
        exact ⟨h1, h3⟩
      · rintro ⟨h1, h3⟩
        exact ⟨h1, hi, h3⟩
    · simp only [hcp, if_false]
      rw [key]
      constructor
      · intro h
        exact ⟨h, fun hh => hcp ⟨hh.1, hh.2.1⟩⟩
      · rintro ⟨h, -⟩
        exact h

theorem MovePiece_plain_bits {b : Board} {piece : Piece} {s e : Nat} (promo : Piece)
    (hs : s < 64) (he : e < 64) (hp : piece ≠ Piece.Empty)
    (hnc : ¬ isCastle piece (GetFile s) (GetFile e)) :
    ∃ r, b.MovePiece piece s e promo = some r ∧ r.1.Turn = b.Turn ∧
      (r.2 = true ↔ ∃ p, At b b.Turn.Other p e) ∧
      ∀ c q i, i < 64 → (((r.1.PieceBB c q).testBit i = true) ↔
        (((b.PieceBB c q).testBit i = true ∧ ¬ (c = b.Turn.Other ∧ q ≠ Piece.Empty ∧ i = e)) ∨
          (c = b.Turn ∧ q = (if promo = Piece.Empty then piece else promo) ∧ i = e)) ∧
        ¬ (c = b.Turn ∧ q = piece ∧ i = s)) := by
  obtain ⟨sr, hsr⟩ := Option.isSome_iff_exists.1 (GetRank_isSome_table s hs)
  obtain ⟨er, her⟩ := Option.isSome_iff_exists.1 (GetRank_isSome_table e he)
  obtain ⟨X, hX, hPB, hT, -, -⟩ := specialRules_plain (MovePieceAux 1)
    (captureLoop b b.Turn.Other e).1 b.Turn piece (GetFile s) sr (GetFile e) er e hnc
  have hm : b.MovePiece piece s e promo =
      some (placePiece X b.Turn piece s e promo, (captureLoop b b.Turn.Other e).2) := by
    unfold Board.MovePiece MovePieceAux
    simp only [hsr, her, Option.some_bind, hp, if_false, hX, Option.map_some']
  obtain ⟨f1, -, -, -⟩ := captureFold_frame b.Turn.Other e pieceRange (b, false)
  obtain ⟨g1, -, -⟩ := placePiece_frame X b.Turn piece s e promo
  refine ⟨_, hm, ?_, ?_, ?_⟩
  · exact g1.trans (hT.trans f1)
  · show (pieceRange.foldl (captureStep b.Turn.Other e) (b, false)).2 = true ↔ _
    rw [captureFold_flag _ _ he]
    constructor
    · rintro (h | ⟨p, hp', h⟩)
      · cases h
      · exact ⟨p, (pieceRange_mem_iff p).1 hp', h⟩
    · rintro ⟨p, hp', h⟩
      exact Or.inr ⟨p, (pieceRange_mem_iff p).2 hp', h⟩
  · intro c q i hi
    show ((placePiece X b.Turn piece s e promo).PieceBB c q).testBit i = true ↔ _
    rw [placePiece_bits _ _ _ _ _ _ _ _ _ hi, hPB]
    have := captureFold_bits b.Turn.Other e he pieceRange (b, false) c q i hi
    rw [captureLoop_eq, this, pieceRange_mem_iff]

/-! ## Tables of the initial position and of the square names, exits of the rook loops -/

theorem lookup_mem {β : Type} (l : List (String × β)) (k : String) (v : β)
    (h : l.lookup k = some v) : (k, v) ∈ l := by
  induction l with
  | nil => simp [List.lookup] at h
  | cons x l ih =>
    obtain ⟨k', v'⟩ := x
    unfold List.lookup at h
    split at h
    · rename_i hk
      have hk' : k = k' := by simpa using hk
      have hv : v' = v := Option.some.inj h
      rw [hk', hv]
      exact List.mem_cons_self _ _
    · exact List.mem_cons_of_mem _ (ih h)

theorem NewBoard_standard_table : ∀ e ∈ NotationToIndexEntries,
    ∀ c ∈ [Color.White, Color.Black], ∀ p ∈ pieceRange,
      ((NewBoard.PieceBB c p).testBit e.2 = true ↔
        standardPosition.lookup e.1 = some (c, p)) := by
  decide!

theorem squareName_table : ∀ sq < 64,
    NotationToIndex (squareName (sq % 8) (sq / 8)) = some sq := by
  decide!

theorem rookLoopDec_exit (full : Nat) (tgt : Nat → Nat) :
    ∀ n c moves m, rookLoopDec full tgt n c moves = some m →
      ∃ k, k < n ∧ (full &&& shl 1 (tgt (dec8^[k] c))) ≠ 0 := by
  intro n
  induction n with
  | zero =>
    intro c moves m h
    simp [rookLoopDec] at h
  | succ n ih =>
    intro c moves m h
    unfold rookLoopDec at h
    simp only at h
    split at h
    · rename_i hocc
      exact ⟨0, by omega, hocc⟩
    · obtain ⟨k, hk, hocc⟩ := ih _ _ _ h
      refine ⟨k + 1, by omega, ?_⟩
      rw [Function.iterate_succ_apply]
      exact hocc

/-! ## The receiver as state: `IsLegal` gives back its board -/

theorem bitLoopRun_eq (f : Board → Nat → Option Nat) :
    ∀ n b bb moves,
      bitLoopRun f n b bb moves = (bitLoop (f b) n bb moves).map (fun m => (b, m)) := by
  intro n
  induction n with
  | zero =>
    intro b bb moves
    rfl
  | succ n ih =>
    intro b bb moves
    unfold bitLoopRun bitLoop
    by_cases h : bb = 0
    · simp only [h, if_true, Option.map_some']
    · simp only [h, if_false, Option.bind_eq_bind]
      cases f b (TrailingZeros64 bb) with
      | none => rfl
      | some m => simp only [Option.some_bind, ih]

theorem GetPieceAtRun_eq (b : Board) (sq : Nat) (color : Color) :
    b.GetPieceAtRun sq color = (b, b.GetPieceAt sq color) := rfl

theorem GetPawnAttacksRun_eq (b : Board) (color : Color) :
    b.GetPawnAttacksRun color = (b, b.GetPawnAttacks color) := by
  cases color <;> rfl

theorem GetKingMovesRun_eq (b : Board) (color : Color) :
    b.GetKingMovesRun color = (b, b.GetKingMoves color) := rfl

theorem AllAttacksRun_eq (b : Board) (color : Color) :
    b.AllAttacksRun color = (b.AllAttacks color).map (fun a => (b, a)) := by
  rw [AllAttacks_eq]
  unfold Board.AllAttacksRun Board.GetKnightMovesRun Board.GetBishopMovesRun
    Board.GetRookMovesRun Board.GetQueenMovesRun
  simp only [GetPawnAttacksRun_eq, GetKingMovesRun_eq, bitLoopRun_eq]
  unfold Board.GetKnightMoves Board.GetBishopMoves Board.GetRookMoves Board.GetQueenMoves
  cases bitLoop (fun loc => (allKnightMoves.get? loc).map
      (fun m => m &&& bnot (b.ColorBB color))) 65 (b.PieceBB color Piece.Knights) 0 with
  | none => rfl
  | some n =>
    simp only [Option.map_some', Option.some_bind]
    cases bitLoop (fun loc => (Chess.GetBishopMoves loc b.FullBB).map
        (fun m => m &&& bnot (b.ColorBB color))) 65 (b.PieceBB color Piece.Bishops) 0 with
    | none => rfl
    | some d =>
      simp only [Option.map_some', Option.some_bind]
      cases bitLoop (fun loc => (Chess.GetRookMoves loc b.FullBB).map
          (fun m => m &&& bnot (b.ColorBB color))) 65 (b.PieceBB color Piece.Rooks) 0 with
      | none => rfl
      | some r =>
        simp only [Option.map_some', Option.some_bind]
        cases bitLoop (fun loc => (Chess.GetQueenMoves loc b.FullBB).map
            (fun m => m &&& bnot (b.ColorBB color))) 65 (b.PieceBB color Piece.Queens) 0 with
        | none => rfl
        | some q => rfl

theorem IsLegal_eq_switch (b : Board) (s e : Nat) (pr : Piece) :
    b.IsLegal s e pr =
      (b.AllAttacks b.Turn.Other).bind fun opponentMoves =>
        IsLegal.switch b b.Turn opponentMoves (b.GetPieceAt s b.Turn) s e pr := rfl

theorem IsLegalRun_eq (b : Board) (s e : Nat) (pr : Piece) :
    b.IsLegalRun s e pr = (b.IsLegal s e pr).map (fun r => (b, r)) := by
  rw [IsLegal_eq_switch]
  unfold Board.IsLegalRun
  simp only [AllAttacksRun_eq, GetPieceAtRun_eq]
  cases b.AllAttacks b.Turn.Other with
  | none => rfl
  | some a => rfl

theorem MakeMoveRun_eq (b : Board) (s e : Nat) (pr : Piece) :
    MakeMoveRun b s e pr = MakeMove b s e pr := by
  unfold MakeMoveRun MakeMove
  rw [IsLegalRun_eq]
  cases b.IsLegal s e pr with
  | none => rfl
  | some r => rfl

/-! ## The promotion tests of `IsLegal` -/

/-- The promotion tests of `IsLegal` on a well-formed position, for an end square in 0..63:
the piece returned is `Empty` when the promotion is `Pawns` or `Kings`, when a pawn goes to
rank 8 or rank 1 (the test `end.GetRank() == Rank8 || end.GetRank() == Rank1`, the same for
both colours) with the promotion `Empty`, and when the move is not such a pawn move and the
promotion is not `Empty`; a move that is accepted returns the requested promotion. -/
theorem IsLegal_promotion_rules (b : Board) (start end_ : Nat) (promotion : Piece)
    (hW : WellFormed b) (he : end_ < 64) :
    ∃ r, b.IsLegal start end_ promotion = some r ∧
      (promotion = Piece.Pawns ∨ promotion = Piece.Kings → r.1 = Piece.Empty) ∧
      (b.GetPieceAt start b.Turn = Piece.Pawns → (end_ / 8 = 7 ∨ end_ / 8 = 0) →
        promotion = Piece.Empty → r.1 = Piece.Empty) ∧
      (¬ (b.GetPieceAt start b.Turn = Piece.Pawns ∧ (end_ / 8 = 7 ∨ end_ / 8 = 0)) →
        promotion ≠ Piece.Empty → r.1 = Piece.Empty) ∧
      (r.1 ≠ Piece.Empty →
        r.2 = promotion ∧
        ((r.2 = Piece.Knights ∨ r.2 = Piece.Bishops ∨ r.2 = Piece.Rooks ∨ r.2 = Piece.Queens) ↔
          (b.GetPieceAt start b.Turn = Piece.Pawns ∧ (end_ / 8 = 7 ∨ end_ / 8 = 0))) ∧
        (¬ (b.GetPieceAt start b.Turn = Piece.Pawns ∧ (end_ / 8 = 7 ∨ end_ / 8 = 0)) →
          r.2 = Piece.Empty)) := by
  obtain ⟨r, hr⟩ := Option.isSome_iff_exists.1 (IsLegal_isSome hW start he promotion)
  refine ⟨r, hr, ?_⟩
  rcases IsLegal_some_cases hr with h | ⟨h1, h2, h3, h4, h5, er, her, h6⟩
  · subst h
    exact ⟨fun _ => rfl, fun _ _ _ => rfl, fun _ _ => rfl, fun hh => absurd rfl hh⟩
  · rw [lastRank_iff her, h1] at h6
    refine ⟨?_, ?_, ?_, ?_⟩
    · rintro (hh | hh)
      · exact absurd hh h4
      · exact absurd hh h5
    · intro hp hl hpe
      exact absurd hpe (h6.2 ⟨hp, hl⟩)
    · intro hn hpe
      exact absurd (h6.1 hpe) hn
    · intro _
      refine ⟨h3, ?_, ?_⟩
      · rw [h3, ← h6]
        constructor
        · rintro (hh | hh | hh | hh) <;> rw [hh] <;> decide
        · intro hne
          cases promotion
          · exact absurd rfl hne
          · exact absurd rfl h4
          · exact Or.inl rfl
          · exact Or.inr (Or.inl rfl)
          · exact Or.inr (Or.inr (Or.inl rfl))
          · exact Or.inr (Or.inr (Or.inr rfl))
          · exact absurd rfl h5
      · intro hn
        rw [h3]
        by_contra hpe
        exact hn (h6.1 hpe)

/-! ## The claims -/


/-- C1 (the code departs from the claim): after 1.e4 e5 2.Qh5 the black f-pawn is pinned to
the king on e8; `IsLegal` accepts f7-f6 all the same, and in the position that `MovePiece`
produces the black king is attacked by White.  Likewise on `pinBoard` the bishop move e2-d3
off the pin line is accepted and leaves the white king attacked by the rook. -/
theorem C1_pinned_piece_move_accepted :
    (afterQh5.bind fun b => b.IsLegal 53 45 Piece.Empty) = some (Piece.Pawns, Piece.Empty) ∧
    (afterQh5.bind fun b => (b.MovePiece Piece.Pawns 53 45 Piece.Empty).bind fun r =>
      kingAttacked r.1 Color.Black) = some true ∧
    pinBoard.IsLegal 12 19 Piece.Empty = some (Piece.Bishops, Piece.Empty) ∧
    ((pinBoard.MovePiece Piece.Bishops 12 19 Piece.Empty).bind fun r =>
      kingAttacked r.1 Color.White) = some true := by
  decide!

/-- C2 (the code departs from the claim): the game 1.e4 e5 2.Qh5 f6 3.Qxe8 is accepted move
by move, and in the position reached Black has no king bit left: the king was captured. -/
theorem C2_king_captured :
    ((submitAll NewBoard [(12, 28, Piece.Empty), (52, 36, Piece.Empty), (3, 39, Piece.Empty),
        (53, 45, Piece.Empty), (39, 60, Piece.Empty)]).map
      fun b => b.PieceBB Color.Black Piece.Kings) = some 0 := by
  decide!

/-- C3 (the code departs from the claim): after 1.e4 f5 2.Qh5+ Black is in check; g7-g6 is
in the pawn's destination set and the position after it has the black king safe, yet
`IsLegal` rejects it. -/
theorem C3_block_of_check_rejected :
    (afterQh5Check.bind fun b => kingAttacked b Color.Black) = some true ∧
    (afterQh5Check.map fun b =>
      (GetPawnMoves 54 b.FullBB Color.Black (b.ColorBB Color.White)).testBit 46) = some true ∧
    (afterQh5Check.bind fun b => (b.MovePiece Piece.Pawns 54 46 Piece.Empty).bind fun r =>
      kingAttacked r.1 Color.Black) = some false ∧
    (afterQh5Check.bind fun b => b.IsLegal 54 46 Piece.Empty) =
      some (Piece.Empty, Piece.Empty) := by
  decide!

/-- C4: in every state reachable from `NewBoard()` by successful submissions, `ColorBB[c]`
is the union of the six piece bitboards `PieceBB[c][Pawns..Kings]` of colour `c`, and `FullBB`
is `ColorBB[White] | ColorBB[Black]`. -/
theorem C4_occupancy_is_union_of_pieces (b : Board) (h : Reachable b) :
    (∀ c, b.ColorBB c = b.PieceBB c Piece.Pawns ||| b.PieceBB c Piece.Knights |||
        b.PieceBB c Piece.Bishops ||| b.PieceBB c Piece.Rooks ||| b.PieceBB c Piece.Queens |||
        b.PieceBB c Piece.Kings) ∧
      b.FullBB = b.ColorBB Color.White ||| b.ColorBB Color.Black :=
  (Reachable_Inv h).1

/-- The statement of C4 at the position after 1.e4 e5 2.Nf3 Nc6 3.Bc4 Bc5 4.O-O. -/
theorem C4_witness :
    Reachable castledBoard ∧
    ((∀ c, castledBoard.ColorBB c = castledBoard.PieceBB c Piece.Pawns |||
        castledBoard.PieceBB c Piece.Knights ||| castledBoard.PieceBB c Piece.Bishops |||
        castledBoard.PieceBB c Piece.Rooks ||| castledBoard.PieceBB c Piece.Queens |||
        castledBoard.PieceBB c Piece.Kings) ∧
      castledBoard.FullBB =
        castledBoard.ColorBB Color.White ||| castledBoard.ColorBB Color.Black) :=
  ⟨Reachable_castledBoard, C4_occupancy_is_union_of_pieces castledBoard Reachable_castledBoard⟩

/-- C5: in every state reachable from `NewBoard()` by successful submissions, two different
piece bitboards (`Pawns .. Kings`) of the same colour have no square in common, and no square
is occupied by both colours. -/
theorem C5_pieces_disjoint (b : Board) (h : Reachable b) :
    (∀ c p q, p ≠ Piece.Empty → q ≠ Piece.Empty → p ≠ q →
        b.PieceBB c p &&& b.PieceBB c q = 0) ∧
      b.ColorBB Color.White &&& b.ColorBB Color.Black = 0 := by
  obtain ⟨hC, hE, -⟩ := Reachable_Inv h
  constructor
  · intro c p q hp hq hpq
    apply Nat.eq_of_testBit_eq
    intro i
    rw [Nat.zero_testBit, Nat.testBit_and]
    cases h1 : (b.PieceBB c p).testBit i
    · rfl
    · cases h2 : (b.PieceBB c q).testBit i
      · rfl
      · exact absurd (hE i c p c q ⟨hp, h1⟩ ⟨hq, h2⟩).2 hpq
  · apply Nat.eq_of_testBit_eq
    intro i
    rw [Nat.zero_testBit, Nat.testBit_and]
    cases h1 : (b.ColorBB Color.White).testBit i
    · rfl
    · cases h2 : (b.ColorBB Color.Black).testBit i
      · rfl
      · rw [hC.1, testBit_unionBB] at h1 h2
        obtain ⟨p, hp⟩ := h1
        obtain ⟨q, hq⟩ := h2
        have := (hE i _ p _ q hp hq).1
        cases this

/-- The statement of C5 at the position after 1.e4 e5 2.Nf3 Nc6 3.Bc4 Bc5 4.O-O. -/
theorem C5_witness :
    Reachable castledBoard ∧
    ((∀ c p q, p ≠ Piece.Empty → q ≠ Piece.Empty → p ≠ q →
        castledBoard.PieceBB c p &&& castledBoard.PieceBB c q = 0) ∧
      castledBoard.ColorBB Color.White &&& castledBoard.ColorBB Color.Black = 0) :=
  ⟨Reachable_castledBoard, C5_pieces_disjoint castledBoard Reachable_castledBoard⟩

/-- C6: `IsLegal` leaves the board as it was.  With the receiver passed on as state, a call
of `IsLegal` that returns gives back the board it was called on, for every board, pair of
squares and promotion, and so does a call of `MakeMove` that returns 0.  On every well-formed
position with the end square in 0..63 `IsLegal` does return, and when the piece it returns is
`Empty`, `MakeMove` returns 0 and the board after the call is the board before it: the whole
record, that is the piece bitboards, the occupancy bitboards, `Turn`, the castling flags, the
en-passant target and the move counter. -/
theorem C6_rejected_move_leaves_board_unchanged (b : Board) (start end_ : Nat)
    (promotion : Piece) :
    (∀ b' r, b.IsLegalRun start end_ promotion = some (b', r) → b' = b) ∧
    (∀ b', MakeMoveRun b start end_ promotion = some (b', 0) → b' = b) ∧
    (WellFormed b → end_ < 64 →
      ∃ r, b.IsLegalRun start end_ promotion = some (b, r) ∧
        (r.1 = Piece.Empty → MakeMoveRun b start end_ promotion = some (b, 0))) := by
  have key : ∀ b' r, b.IsLegalRun start end_ promotion = some (b', r) →
      b' = b ∧ b.IsLegal start end_ promotion = some r := by
    intro b' r h
    rw [IsLegalRun_eq, Option.map_eq_some'] at h
    obtain ⟨r', hr', heq⟩ := h
    simp only [Prod.mk.injEq] at heq
    exact ⟨heq.1.symm, heq.2 ▸ hr'⟩
  refine ⟨fun b' r h => (key b' r h).1, ?_, ?_⟩
  · intro b' h
    unfold MakeMoveRun at h
    rw [Option.bind_eq_some] at h
    obtain ⟨r, hr, h⟩ := h
    obtain ⟨hb, -⟩ := key r.1 r.2 hr
    split at h
    · have := Option.some.inj h
      simp only [Prod.mk.injEq] at this
      rw [← this.1, hb]
    · rw [Option.map_eq_some'] at h
      obtain ⟨m, -, hm⟩ := h
      simp only [Prod.mk.injEq] at hm
      exact absurd hm.2 (by decide)
  · intro hW he
    obtain ⟨r, hr⟩ := Option.isSome_iff_exists.1 (IsLegal_isSome hW start he promotion)
    have h1 : b.IsLegalRun start end_ promotion = some (b, r) := by
      rw [IsLegalRun_eq, hr]
      rfl
    refine ⟨r, h1, ?_⟩
    intro hempty
    unfold MakeMoveRun
    rw [h1, Option.some_bind]
    simp only [hempty, if_true]

/-- The statement of C6 for the move e2-e5 on the initial position, which `IsLegal`
rejects. -/
theorem C6_witness :
    (WellFormed NewBoard ∧ (36 : Nat) < 64) ∧
    NewBoard.IsLegalRun 12 36 Piece.Empty = some (NewBoard, (Piece.Empty, Piece.Empty)) ∧
    MakeMoveRun NewBoard 12 36 Piece.Empty = some (NewBoard, 0) := by
  obtain ⟨r, h1, h2⟩ := (C6_rejected_move_leaves_board_unchanged NewBoard 12 36
    Piece.Empty).2.2 WellFormed_NewBoard (by decide)
  have h3 : NewBoard.IsLegal 12 36 Piece.Empty = some (Piece.Empty, Piece.Empty) := by
    decide!
  have hr : r = (Piece.Empty, Piece.Empty) := by
    rw [IsLegalRun_eq, h3] at h1
    simp only [Option.map_some', Option.some.injEq, Prod.mk.injEq, true_and] at h1
    exact h1.symm
  subst hr
  exact ⟨⟨WellFormed_NewBoard, by decide⟩, h1, h2 rfl⟩

/-- C7 (the code departs from the claim): after 1.e4 d5 the black pawn on d5 stands one rank
forward and one file to the left of the white pawn on e4, yet d5 is not in
`GetPawnMoves(e4, ..)` and `IsLegal` rejects e4xd5; the White branch computes
`(1<<sq) + 7`, not `1 << (sq + 7)`.  The Black branch is written with the parentheses:
after 1.e4 d5 2.h3 the capture d5xe4 is accepted. -/
theorem C7_white_pawn_capture_rejected :
    (afterE4D5.map fun b => (b.PieceBB Color.Black Piece.Pawns).testBit 35) = some true ∧
    (afterE4D5.map fun b =>
      (GetPawnMoves 28 b.FullBB Color.White (b.ColorBB Color.Black)).testBit 35) = some false ∧
    (afterE4D5.bind fun b => b.IsLegal 28 35 Piece.Empty) = some (Piece.Empty, Piece.Empty) ∧
    (afterE4D5.bind fun b => (MakeMove b 15 23 Piece.Empty).bind fun r =>
      r.1.IsLegal 35 28 Piece.Empty) = some (Piece.Pawns, Piece.Empty) := by
  decide!

/-- C8, the claim as stated fails: after 1.e4 Nc6 2.e5 d5 it is not the case that `IsLegal`
accepts e5xd6 and that `MovePiece` removes the black pawn from d5 while placing a white pawn
on d6. -/
theorem C8_en_passant_counterexample :
    ¬ ((afterE5D5.bind fun b => b.IsLegal 36 43 Piece.Empty) =
          some (Piece.Pawns, Piece.Empty) ∧
        (afterE5D5.bind fun b => (b.MovePiece Piece.Pawns 36 43 Piece.Empty).map fun r =>
          ((r.1.PieceBB Color.Black Piece.Pawns).testBit 35,
            (r.1.PieceBB Color.White Piece.Pawns).testBit 43)) = some (false, true)) := by
  decide!

/-- C8 as amended: the four moves 1.e4 Nc6 2.e5 d5 are accepted and leave d6 as the
en-passant target, but `IsLegal` rejects the pawn move e5-d6 (the destination set of
`GetPawnMoves` does not use the en-passant target); `MovePiece` applied to that move puts a
white pawn on d6, empties e5 and leaves the black pawn on d5 in place. -/
theorem C8_en_passant_not_implemented :
    (afterE5D5.map fun b => b.EnPassantSquare) = some (some 43) ∧
    (afterE5D5.bind fun b => b.IsLegal 36 43 Piece.Empty) = some (Piece.Empty, Piece.Empty) ∧
    (afterE5D5.bind fun b => (b.MovePiece Piece.Pawns 36 43 Piece.Empty).map fun r =>
      ((r.1.PieceBB Color.White Piece.Pawns).testBit 43,
        (r.1.PieceBB Color.White Piece.Pawns).testBit 36,
        (r.1.PieceBB Color.Black Piece.Pawns).testBit 35)) = some (true, false, true) := by
  decide!

/-- C9 (the code departs from the claim): 1.e4 sets the en-passant target e3; the knight move
1...Nc6 applied next leaves it set, because `MovePiece` assigns `EnPassantSquare` in its
pawn branch only. -/
theorem C9_en_passant_target_survives_knight_move :
    ((submitAll NewBoard [(12, 28, Piece.Empty)]).map fun b => b.EnPassantSquare) =
      some (some 20) ∧
    ((submitAll NewBoard [(12, 28, Piece.Empty)]).bind fun b =>
      (b.MovePiece Piece.Knights 57 42 Piece.Empty).map fun r => r.1.EnPassantSquare) =
      some (some 20) ∧
    ((submitAll NewBoard [(12, 28, Piece.Empty), (57, 42, Piece.Empty)]).map fun b =>
      b.EnPassantSquare) = some (some 20) := by
  decide!

/-- C10 (the code departs from the claim): for a rook on b1 alone on the board the leftward
loop passes a1, its `uint8` counter wraps, and the walk continues from h8 downwards until it
meets the rook: the result is the whole board, the rook's own square included.  In the game
1.a4 h6 2.Ra3 h5 the downward loop of the rook on a3 wraps in the same way and `IsLegal`
accepts Ra3xa8, a square behind the pawns on a4 and a7. -/
theorem C10_rook_walk_wraps :
    GetRookMoves 1 (shl 1 1) = some (2 ^ 64 - 1) ∧
    (GetRookMoves 1 (shl 1 1)).map (fun m => (m.testBit 1, m.testBit 63)) =
      some (true, true) ∧
    ((submitAll NewBoard [(8, 24, Piece.Empty), (55, 47, Piece.Empty), (0, 16, Piece.Empty),
        (47, 39, Piece.Empty)]).bind fun b => b.IsLegal 16 56 Piece.Empty) =
      some (Piece.Rooks, Piece.Empty) := by
  decide!

/-- C11 (the code departs from the claim): for a bishop on the h-file the two rightward loops
start with `f = file + 1 = 8`, so their first target `r*8 + 8` is a square of the a-file: from
h1 on the empty board the result contains a3, from h5 it contains a5 and a7, from h8 it
contains a8.  In the game 1.e4 e5 2.Qh5 Nc6 `IsLegal` accepts Qh5xa7 through this wrap. -/
theorem C11_bishop_walk_wraps_on_h_file :
    (GetBishopMoves 7 0).map (fun m => m.testBit 16) = some true ∧
    (GetBishopMoves 39 0).map (fun m => (m.testBit 32, m.testBit 48)) = some (true, true) ∧
    (GetBishopMoves 63 0).map (fun m => m.testBit 56) = some true ∧
    (afterQh5Nc6.bind fun b => b.IsLegal 39 48 Piece.Empty) =
      some (Piece.Queens, Piece.Empty) := by
  decide!

/-- C12: for every square `sq` in 0..63, `GenAllKnightMoves()[sq]` is the set of the squares
of the board whose rank and file differ from those of `sq` by 1 and 2 or by 2 and 1, and
`GetKingMoves(sq, ..)` with the king flag `RKR[1]` set is the set of the squares of the board
other than `sq` whose rank and file each differ from those of `sq` by at most 1. -/
theorem C12_knight_and_king_patterns (sq : Nat) (hsq : sq < 64) :
    (∃ m, GenAllKnightMoves.get? sq = some m ∧
      ∀ t, (m.testBit t = true ↔ t < 64 ∧
        ((absDiff (sq / 8) (t / 8) = 1 ∧ absDiff (sq % 8) (t % 8) = 2) ∨
          (absDiff (sq / 8) (t / 8) = 2 ∧ absDiff (sq % 8) (t % 8) = 1)))) ∧
    ∀ (fullBB : Nat) (color : Color) (rkr : RKR) (opBB : Nat), rkr 1 = true →
      ∀ t, ((GetKingMoves sq fullBB color rkr opBB).testBit t = true ↔ t < 64 ∧ t ≠ sq ∧
        absDiff (sq / 8) (t / 8) ≤ 1 ∧ absDiff (sq % 8) (t % 8) ≤ 1) := by
  constructor
  · refine ⟨allKnightMoves.getD sq 0, ?_, ?_⟩
    · obtain ⟨m, hm⟩ := Option.isSome_iff_exists.1 (allKnightMoves_isSome hsq)
      have hm' : GenAllKnightMoves.get? sq = some m := hm
      rw [hm', List.getD_eq_getD_get?, hm]
      rfl
    · intro t
      by_cases ht : t < 64
      · rw [knight_table sq hsq t ht]
        simp [ht]
      · rw [testBit_false_of_lt (knight_bound sq hsq) (by omega)]
        simp [ht]
  · intro fullBB color rkr opBB hk t
    rw [GetKingMoves_split, GetCastles_flag _ _ _ _ hk, Nat.or_zero]
    by_cases ht : t < 64
    · rw [kingSteps_full_table sq hsq t ht]
      simp [ht]
    · rw [testBit_false_of_lt (kingSteps_bound sq hsq) (by omega)]
      simp [ht]

/-- The statement of C12 for the corner square a1. -/
theorem C12_witness :
    (0 : Nat) < 64 ∧
    ((∃ m, GenAllKnightMoves.get? 0 = some m ∧
      ∀ t, (m.testBit t = true ↔ t < 64 ∧
        ((absDiff (0 / 8) (t / 8) = 1 ∧ absDiff (0 % 8) (t % 8) = 2) ∨
          (absDiff (0 / 8) (t / 8) = 2 ∧ absDiff (0 % 8) (t % 8) = 1)))) ∧
    ∀ (fullBB : Nat) (color : Color) (rkr : RKR) (opBB : Nat), rkr 1 = true →
      ∀ t, ((GetKingMoves 0 fullBB color rkr opBB).testBit t = true ↔ t < 64 ∧ t ≠ 0 ∧
        absDiff (0 / 8) (t / 8) ≤ 1 ∧ absDiff (0 % 8) (t % 8) ≤ 1)) :=
  ⟨by decide, C12_knight_and_king_patterns 0 (by decide)⟩

/-- C13 (the code departs from the claim): `GetCastles` adds the destination inside the loop,
as soon as the first file of the side (d for the queenside, f for the kingside) is free and
unattacked.  With only b1 occupied the result contains c1; with only c1 occupied it contains
c1; with only g1 occupied it contains g1; the same on rank 8 for Black.  In the game
1.d4 d5 2.Bf4 Nf6 3.Qd3 e6 `IsLegal` accepts the castling e1-c1 with the knight on b1. -/
theorem C13_castling_destination_with_blocked_path :
    (GetCastles Color.White (shl 1 1) (fun _ => false) 0).testBit 2 = true ∧
    (GetCastles Color.White (shl 1 2) (fun _ => false) 0).testBit 2 = true ∧
    (GetCastles Color.White (shl 1 6) (fun _ => false) 0).testBit 6 = true ∧
    (GetCastles Color.Black (shl 1 57) (fun _ => false) 0).testBit 58 = true ∧
    (GetCastles Color.Black (shl 1 62) (fun _ => false) 0).testBit 62 = true ∧
    (afterQd3.map fun b => (b.PieceBB Color.White Piece.Knights).testBit 1) = some true ∧
    (afterQd3.bind fun b => b.IsLegal 4 2 Piece.Empty) = some (Piece.Kings, Piece.Empty) := by
  decide!

/-- C14: for the side to move with its king on its original square (e1 or e8), when the
king's square, the square it crosses (f- or d-file) or its landing square (g- or c-file) is in
`AllAttacks(opponent)` of the current position, `IsLegal` returns `(Empty, Empty)` for the
castling move from the king's square to the landing square, whatever the promotion
argument. -/
theorem C14_castling_through_attack_rejected (b : Board) (a e : Nat) (pr : Piece)
    (hA : b.AllAttacks b.Turn.Other = some a)
    (hK : b.GetPieceAt (kingHome b.Turn) b.Turn = Piece.Kings)
    (he : e = kingHome b.Turn + 2 ∨ e + 2 = kingHome b.Turn)
    (hatt : a.testBit (kingHome b.Turn) = true ∨
      a.testBit ((kingHome b.Turn + e) / 2) = true ∨ a.testBit e = true) :
    b.IsLegal (kingHome b.Turn) e pr = some (Piece.Empty, Piece.Empty) := by
  obtain ⟨f1, f2, f3, f4, f5⟩ := kingHome_file b.Turn
  rcases he with he | he
  · subst he
    have hmid : (kingHome b.Turn + (kingHome b.Turn + 2)) / 2 = kingHome b.Turn + 2 - 1 := by
      omega
    rw [hmid] at hatt
    apply castle_rejected pr hA f4 hK f1 (Or.inl f2)
    rcases hatt with h | h | h
    · exact Or.inr (Or.inr (Or.inr (Or.inl h)))
    · exact Or.inr (Or.inr (Or.inr (Or.inr (Or.inl ⟨f2, h⟩))))
    · exact Or.inr (Or.inr (Or.inr (Or.inr (Or.inr (Or.inr h)))))
  · have he' : e = kingHome b.Turn - 2 := by omega
    subst he'
    have hmid : (kingHome b.Turn + (kingHome b.Turn - 2)) / 2 = kingHome b.Turn - 2 + 1 := by
      omega
    rw [hmid] at hatt
    apply castle_rejected pr hA (by omega) hK f1 (Or.inr f3)
    rcases hatt with h | h | h
    · exact Or.inr (Or.inr (Or.inr (Or.inl h)))
    · exact Or.inr (Or.inr (Or.inr (Or.inr (Or.inr (Or.inl ⟨f3, h⟩)))))
    · exact Or.inr (Or.inr (Or.inr (Or.inr (Or.inr (Or.inr h)))))

/-- The statement of C14 after 1.e4 b6 2.Bc4 Ba6 3.Nf3 Bxc4: the bishop on c4 attacks f1, the
square the white king would cross, and the castling e1-g1 is rejected. -/
theorem C14_witness :
    (afterBxc4.AllAttacks afterBxc4.Turn.Other = some 288429430706671904 ∧
      afterBxc4.GetPieceAt (kingHome afterBxc4.Turn) afterBxc4.Turn = Piece.Kings ∧
      (6 = kingHome afterBxc4.Turn + 2 ∨ 6 + 2 = kingHome afterBxc4.Turn) ∧
      ((288429430706671904 : Nat).testBit (kingHome afterBxc4.Turn) = true ∨
        (288429430706671904 : Nat).testBit ((kingHome afterBxc4.Turn + 6) / 2) = true ∨
        (288429430706671904 : Nat).testBit 6 = true)) ∧
    afterBxc4.IsLegal (kingHome afterBxc4.Turn) 6 Piece.Empty =
      some (Piece.Empty, Piece.Empty) :=
  ⟨by decide!,
    C14_castling_through_attack_rejected afterBxc4 288429430706671904 6 Piece.Empty
      (by decide!) (by decide!) (by decide!) (by decide!)⟩

/-- C15: after a call of `MovePiece` on a well-formed position `b` that moves the king of the
side to move `c`, or a rook of `c` from the h-file (a-file), in the state `r.1` it produces
and in every later state `b2` (reached by further `MovePiece` calls and changes of `Turn`):
no flag of `RKRmoved` that was true in `b` is false in `b2`, and whenever `c` is to move and
its king stands on a square `s'` of the e-file, `IsLegal` returns `(Empty, Empty)` for the
king's move to any square of the g-file (c-file). -/
theorem C15_castling_rights_forfeited (b b2 : Board) (piece : Piece) (s e : Nat)
    (promo : Piece) (r : Board × Bool) (hW : WellFormed b)
    (hm : b.MovePiece piece s e promo = some r) (hl : Later r.1 b2) :
    (∀ c i, b.RKRmoved c i = true → b2.RKRmoved c i = true) ∧
    ∀ (s' e' : Nat) (pr : Piece), b2.Turn = b.Turn →
      b2.GetPieceAt s' b2.Turn = Piece.Kings → GetFile s' = FileE → e' < 64 →
      ((piece = Piece.Kings ∧ (GetFile e' = FileG ∨ GetFile e' = FileC)) ∨
        (piece = Piece.Rooks ∧ GetFile s = FileH ∧ GetFile e' = FileG) ∨
        (piece = Piece.Rooks ∧ GetFile s = FileA ∧ GetFile e' = FileC)) →
      b2.IsLegal s' e' pr = some (Piece.Empty, Piece.Empty) := by
  obtain ⟨mT, mR, mK, mH, mA⟩ := MovePiece_flags hm
  have lf := Later_flags hl
  refine ⟨fun c i hh => lf c i (mR c i hh), ?_⟩
  intro s' e' pr hT hK hsf he' hcase
  have hW2 : WellFormed b2 := Later_wellFormed (MovePiece_wellFormed hW hm) hl
  obtain ⟨a, hA⟩ := Option.isSome_iff_exists.1 (AllAttacks_isSome hW2 b2.Turn.Other)
  rcases hcase with ⟨hp, hf⟩ | ⟨hp, hf, hg⟩ | ⟨hp, hf, hc⟩
  · apply castle_rejected pr hA he' hK hsf hf
    left
    rw [hT]
    exact lf _ _ (mK hp)
  · apply castle_rejected pr hA he' hK hsf (Or.inl hg)
    right; left
    rw [hT]
    exact ⟨hg, lf _ _ (mH hp hf)⟩
  · apply castle_rejected pr hA he' hK hsf (Or.inr hc)
    right; right; left
    rw [hT]
    exact ⟨hc, lf _ _ (mA hp hf)⟩

/-- The statement of C15 for the king move e1-e2 applied after 1.e4 e5: in the state produced
the king's move from e2 to g2 is rejected. -/
theorem C15_witness :
    (WellFormed afterE4E5 ∧
      afterE4E5.MovePiece Piece.Kings 4 12 Piece.Empty = some afterKe2 ∧
      Later afterKe2.1 afterKe2.1) ∧
    ((∀ c i, afterE4E5.RKRmoved c i = true → afterKe2.1.RKRmoved c i = true) ∧
    ∀ (s' e' : Nat) (pr : Piece), afterKe2.1.Turn = afterE4E5.Turn →
      afterKe2.1.GetPieceAt s' afterKe2.1.Turn = Piece.Kings → GetFile s' = FileE → e' < 64 →
      ((Piece.Kings = Piece.Kings ∧ (GetFile e' = FileG ∨ GetFile e' = FileC)) ∨
        (Piece.Kings = Piece.Rooks ∧ GetFile 4 = FileH ∧ GetFile e' = FileG) ∨
        (Piece.Kings = Piece.Rooks ∧ GetFile 4 = FileA ∧ GetFile e' = FileC)) →
      afterKe2.1.IsLegal s' e' pr = some (Piece.Empty, Piece.Empty)) :=
  ⟨⟨Reachable_WellFormed Reachable_afterE4E5, afterKe2_eq, Later.refl _⟩,
    C15_castling_rights_forfeited afterE4E5 afterKe2.1 Piece.Kings 4 12 Piece.Empty afterKe2
      (Reachable_WellFormed Reachable_afterE4E5) afterKe2_eq (Later.refl _)⟩

/-- C16 (the code departs from the claim): in the game 1.Nf3 b6 2.g3 Bb7 3.Bh3 Bxf3 4.a3 Bxh1
the black bishop captures the rook on h1, which had never moved; the flags of White stay
false (`MovePiece` sets flags of the mover only), `IsLegal` accepts the castling e1-g1, and
`MovePiece` puts the king on g1 and a white rook on f1 while the black bishop stands on h1. -/
theorem C16_castling_after_rook_capture_accepted :
    (afterBxh1.map fun b =>
      ((b.PieceBB Color.White Piece.Rooks).testBit 7,
        (b.PieceBB Color.Black Piece.Bishops).testBit 7,
        b.RKRmoved Color.White 0, b.RKRmoved Color.White 1, b.RKRmoved Color.White 2)) =
      some (false, true, false, false, false) ∧
    (afterBxh1.bind fun b => b.IsLegal 4 6 Piece.Empty) = some (Piece.Kings, Piece.Empty) ∧
    (afterBxh1.bind fun b => (b.MovePiece Piece.Kings 4 6 Piece.Empty).map fun r =>
      ((r.1.PieceBB Color.White Piece.Kings).testBit 6,
        (r.1.PieceBB Color.White Piece.Rooks).testBit 5,
        (r.1.PieceBB Color.Black Piece.Bishops).testBit 7)) = some (true, true, true) := by
  decide!

/-- C17 (the code departs from the claim): the White queenside branch calls
`MovePiece(Rooks, 1, 4, Empty)`.  After 1.d4 d5 2.Bf4 Nf6 3.Qd3 e6 4.Nc3 a6 the castling
`MovePiece(Kings, 4, 2, Empty)` puts the king on c1, leaves the rook on a1, puts no rook on d1
and puts a rook on e1: White has the rooks a1, e1 and h1, three instead of two.  The other
three branches use the corner and the crossed square: (7, 5), (56, 59), (63, 61). -/
theorem C17_white_queenside_castling_misplaces_rook :
    (afterNc3.map fun b => b.PieceBB Color.White Piece.Rooks) = some (shl 1 0 ||| shl 1 7) ∧
    (afterNc3.bind fun b => b.IsLegal 4 2 Piece.Empty) = some (Piece.Kings, Piece.Empty) ∧
    (afterNc3.bind fun b => (b.MovePiece Piece.Kings 4 2 Piece.Empty).map fun r =>
      (r.1.PieceBB Color.White Piece.Kings, r.1.PieceBB Color.White Piece.Rooks)) =
      some (shl 1 2, shl 1 0 ||| shl 1 4 ||| shl 1 7) := by
  decide!

/-- C18 (the code departs from the claim): `IsLegal` asks for a promotion on rank 8 and on
rank 1 alike, whatever the colour, and the White branch of `GetPawnMoves` (`1<<sq + 7`, which
is `(1<<sq) + 7`) has the squares b1 and c1 among the capture squares of every white pawn.
After 1.h3 Nc6 2.h4 Nb4 3.h5 Nxa2 4.h6 Nxc1 a black knight stands on c1, and `IsLegal` accepts
the move of the white pawn from e2 back to c1 with each of `Knights`, `Bishops`, `Rooks`,
`Queens`, and returns that piece as the promotion: a move that is not a pawn reaching the
last rank is accepted with a promotion.  `MovePiece` then puts a white queen on c1. -/
theorem C18_white_pawn_promotes_on_rank_one :
    (afterNxc1.map fun b =>
      (b.Turn, b.GetPieceAt 12 Color.White, b.GetPieceAt 2 Color.Black)) =
      some (Color.White, Piece.Pawns, Piece.Knights) ∧
    (afterNxc1.map fun b =>
      (GetPawnMoves 12 b.FullBB Color.White (b.ColorBB Color.Black)).testBit 2) = some true ∧
    (afterNxc1.bind fun b => b.IsLegal 12 2 Piece.Knights) =
      some (Piece.Pawns, Piece.Knights) ∧
    (afterNxc1.bind fun b => b.IsLegal 12 2 Piece.Bishops) =
      some (Piece.Pawns, Piece.Bishops) ∧
    (afterNxc1.bind fun b => b.IsLegal 12 2 Piece.Rooks) = some (Piece.Pawns, Piece.Rooks) ∧
    (afterNxc1.bind fun b => b.IsLegal 12 2 Piece.Queens) =
      some (Piece.Pawns, Piece.Queens) ∧
    (afterNxc1.bind fun b => b.IsLegal 12 2 Piece.Empty) = some (Piece.Empty, Piece.Empty) ∧
    (afterNxc1.bind fun b => (MakeMove b 12 2 Piece.Queens).map fun r =>
      (r.2, (r.1.PieceBB Color.White Piece.Queens).testBit 2,
        (r.1.PieceBB Color.White Piece.Pawns).testBit 12,
        (r.1.PieceBB Color.Black Piece.Knights).testBit 2)) =
      some (1, true, false, false) := by
  decide!

/-- C19: on a well-formed position and for an end square in 0..63, `IsLegal` returns
`(Empty, Empty)` when no piece bitboard of the side to move has the bit of the start square;
and when `IsLegal` returns a piece other than `Empty`, that piece is
`GetPieceAt(start, Turn)`, its bitboard has the bit of the start square, and no piece of the
side to move stands on the end square. -/
theorem C19_start_and_end_squares (b : Board) (start end_ : Nat) (promotion : Piece)
    (hW : WellFormed b) (he : end_ < 64) :
    ((∀ p, p ≠ Piece.Empty → (b.PieceBB b.Turn p).testBit start = false) →
      b.IsLegal start end_ promotion = some (Piece.Empty, Piece.Empty)) ∧
    ∀ r, b.IsLegal start end_ promotion = some r → r.1 ≠ Piece.Empty →
      r.1 = b.GetPieceAt start b.Turn ∧ (b.PieceBB b.Turn r.1).testBit start = true ∧
      (b.ColorBB b.Turn).testBit end_ = false ∧
      ∀ p, p ≠ Piece.Empty → (b.PieceBB b.Turn p).testBit end_ = false := by
  constructor
  · intro hno
    obtain ⟨r, hr⟩ := Option.isSome_iff_exists.1 (IsLegal_isSome hW start he promotion)
    rcases IsLegal_some_cases hr with h | ⟨h1, h2, -⟩
    · rw [hr, h]
    · rw [GetPieceAt_empty hno] at h1
      exact absurd h1 h2
  · intro r hr hne
    obtain ⟨piece, promo⟩ := r
    obtain ⟨-, -, hat, hown, -⟩ := IsLegal_accept hr hne
    rcases IsLegal_some_cases hr with h | ⟨h1, -⟩
    · simp only [Prod.mk.injEq] at h
      exact absurd h.1 hne
    · refine ⟨h1, hat.2, hown, ?_⟩
      intro p hp
      cases hb : (b.PieceBB b.Turn p).testBit end_
      · rfl
      · have := At_ColorBB hW.1 ⟨hp, hb⟩
        rw [hown] at this
        cases this

/-- The statement of C19 for the move e2-e4 on the initial position. -/
theorem C19_witness :
    (WellFormed NewBoard ∧ (28 : Nat) < 64) ∧
    (((∀ p, p ≠ Piece.Empty → (NewBoard.PieceBB NewBoard.Turn p).testBit 12 = false) →
      NewBoard.IsLegal 12 28 Piece.Empty = some (Piece.Empty, Piece.Empty)) ∧
    ∀ r, NewBoard.IsLegal 12 28 Piece.Empty = some r → r.1 ≠ Piece.Empty →
      r.1 = NewBoard.GetPieceAt 12 NewBoard.Turn ∧
      (NewBoard.PieceBB NewBoard.Turn r.1).testBit 12 = true ∧
      (NewBoard.ColorBB NewBoard.Turn).testBit 28 = false ∧
      ∀ p, p ≠ Piece.Empty → (NewBoard.PieceBB NewBoard.Turn p).testBit 28 = false) :=
  ⟨⟨WellFormed_NewBoard, by decide⟩,
    C19_start_and_end_squares NewBoard 12 28 Piece.Empty WellFormed_NewBoard (by decide)⟩

/-- C20: on `NewBoard()` with White to move, `getLegalMoves` returns a list of exactly 20
entries; the first 16 start on the pawn squares a2..h2 (two per pawn), the last 4 on the
knight squares b1 and g1 (two per knight). -/
theorem C20_initial_position_has_twenty_moves :
    (getLegalMoves NewBoard).map List.length = some 20 ∧
    (getLegalMoves NewBoard).map (fun l => l.map fun m => m.Start) =
      some ["a2", "a2", "b2", "b2", "c2", "c2", "d2", "d2", "e2", "e2", "f2", "f2", "g2", "g2",
        "h2", "h2", "b1", "b1", "g1", "g1"] := by
  decide!

/-- C21, the claim as stated fails: the six moves 1.e4 e5 2.Nf3 Nc6 3.d4 exd4 are accepted,
but it is not the case that the position reached has no pawn on e5, a white pawn on d4, a
white knight on f3 and a black knight on c6: the pawn on d4 is the black pawn that
captured there. -/
theorem C21_scripted_sequence_counterexample :
    afterExd4.isSome = true ∧
    ¬ ((afterExd4.map fun b =>
        ((b.PieceBB Color.White Piece.Pawns).testBit 36 ||
            (b.PieceBB Color.Black Piece.Pawns).testBit 36,
          (b.PieceBB Color.White Piece.Pawns).testBit 27,
          (b.PieceBB Color.White Piece.Knights).testBit 21,
          (b.PieceBB Color.Black Piece.Knights).testBit 42)) =
        some (false, true, true, true)) := by
  decide!

/-- C21 as amended: starting from `NewBoard()`, the six moves 1.e4 e5 2.Nf3 Nc6 3.d4 exd4 are
accepted one after the other, and the position reached has no pawn on e5, a black pawn and no
white pawn on d4 (the white d-pawn was captured), the white pawn of the first move on e4, a
white knight on f3 and a black knight on c6, with White to move. -/
theorem C21_scripted_sequence :
    (afterExd4.map fun b =>
      ((b.PieceBB Color.White Piece.Pawns).testBit 36 ||
          (b.PieceBB Color.Black Piece.Pawns).testBit 36,
        (b.PieceBB Color.Black Piece.Pawns).testBit 27,
        (b.PieceBB Color.White Piece.Pawns).testBit 27,
        (b.PieceBB Color.White Piece.Pawns).testBit 28,
        (b.PieceBB Color.White Piece.Knights).testBit 21,
        (b.PieceBB Color.Black Piece.Knights).testBit 42)) =
      some (false, true, false, true, true, true) ∧
    (afterExd4.map fun b => (b.GetPieceAt 36 Color.White, b.GetPieceAt 36 Color.Black)) =
      some (Piece.Empty, Piece.Empty) ∧
    (afterExd4.map fun b => (b.GetPieceAt 27 Color.White, b.GetPieceAt 27 Color.Black)) =
      some (Piece.Empty, Piece.Pawns) ∧
    (afterExd4.map fun b => (b.GetPieceAt 21 Color.White, b.GetPieceAt 42 Color.Black)) =
      some (Piece.Knights, Piece.Knights) ∧
    (afterExd4.map fun b => b.Turn) = some Color.White := by
  decide!

/-- C22 (the code departs from the claim): after 1.g4 h5 2.a3 hxg4 3.a4 g3 4.a5 gxh2 5.a6
the black pawn on h2 can capture on g1 and promote: `IsLegal` accepts h2xg1 with each of
`Knights`, `Bishops`, `Rooks`, `Queens`.  `getLegalMoves` tests every destination with the
promotion `Empty` only, which `IsLegal` rejects for a pawn move onto rank 1 or rank 8, so the
branch that appends the four promotion choices is never entered: the list it returns has 22
entries, none with a promotion and none that starts on h2. -/
theorem C22_promotions_missing_from_legal_moves :
    (beforePromotion.map fun b => (b.Turn, b.GetPieceAt 15 Color.Black)) =
      some (Color.Black, Piece.Pawns) ∧
    (beforePromotion.bind fun b => b.IsLegal 15 6 Piece.Knights) =
      some (Piece.Pawns, Piece.Knights) ∧
    (beforePromotion.bind fun b => b.IsLegal 15 6 Piece.Bishops) =
      some (Piece.Pawns, Piece.Bishops) ∧
    (beforePromotion.bind fun b => b.IsLegal 15 6 Piece.Rooks) =
      some (Piece.Pawns, Piece.Rooks) ∧
    (beforePromotion.bind fun b => b.IsLegal 15 6 Piece.Queens) =
      some (Piece.Pawns, Piece.Queens) ∧
    (beforePromotion.bind fun b => b.IsLegal 15 6 Piece.Empty) =
      some (Piece.Empty, Piece.Empty) ∧
    (IndexToNotation 15, IndexToNotation 6) = ("h2", "g1") ∧
    ((beforePromotion.bind fun b => getLegalMoves b).map fun l =>
      (l.length, l.all (fun m => m.Promotion == ""),
        l.filter (fun m => m.Start == "h2" || m.End == "g1"))) = some (22, true, []) := by
  decide!

/-- C23: `NewBoard()` is the standard initial position.  For every square name and its index
in `NotationToIndex` (the 64 names reach every index 0..63), a piece bitboard of a colour has
the bit of the square exactly when `standardPosition` lists that colour and piece on the
square; no bitboard has a bit beyond 63 and the bitboards of `Empty` are 0; White is to move,
no castling flag is set, there is no en-passant target, the move counter is 0, and `ColorBB`
and `FullBB` are the unions of the piece bitboards. -/
theorem C23_new_board_is_standard_position :
    (∀ name sq, NotationToIndex name = some sq → ∀ c p, p ≠ Piece.Empty →
      ((NewBoard.PieceBB c p).testBit sq = true ↔
        standardPosition.lookup name = some (c, p))) ∧
    (∀ sq, sq < 64 → NotationToIndex (squareName (sq % 8) (sq / 8)) = some sq) ∧
    (∀ c p sq, 64 ≤ sq → (NewBoard.PieceBB c p).testBit sq = false) ∧
    (∀ c, NewBoard.PieceBB c Piece.Empty = 0) ∧
    NewBoard.Turn = Color.White ∧
    (∀ c i, NewBoard.RKRmoved c i = false) ∧
    NewBoard.EnPassantSquare = none ∧
    NewBoard.MoveCounter = 0 ∧
    (∀ c, NewBoard.ColorBB c =
      NewBoard.PieceBB c Piece.Pawns ||| NewBoard.PieceBB c Piece.Knights |||
        NewBoard.PieceBB c Piece.Bishops ||| NewBoard.PieceBB c Piece.Rooks |||
        NewBoard.PieceBB c Piece.Queens ||| NewBoard.PieceBB c Piece.Kings) ∧
    NewBoard.FullBB = NewBoard.ColorBB Color.White ||| NewBoard.ColorBB Color.Black := by
  refine ⟨?_, squareName_table, ?_, ?_, rfl, fun _ _ => rfl, rfl, rfl, Inv_NewBoard.1.1,
    Inv_NewBoard.1.2⟩
  · intro name sq h c p hp
    have hm := lookup_mem _ _ _ h
    exact NewBoard_standard_table (name, sq) hm c (by cases c <;> simp) p (mem_pieceRange hp)
  · intro c p sq hsq
    exact testBit_false_of_lt (NewBoard_bounded c p) hsq
  · intro c
    cases c <;> rfl

/-- C24 (the code departs from the claim): `NotationToIndex` maps the 64 names a1..h8 one to
one onto 0..63, the name of file `f` and rank `r` to `r*8 + f`; but the map `IndexToNotation`
of `api/server.go` has the sixteen keys 0..15 only.  For a3, `IndexToNotation[NotationToIndex
["a3"]]` is the empty string, and for every index from 16 to 63 the lookup gives the empty
string, which is not a key of `NotationToIndex`.  The round trip holds for the indices 0..15
only. -/
theorem C24_index_to_name_map_incomplete :
    NotationToIndexEntries.map (fun e => e.2) = List.range 64 ∧
    (∀ r, r < 8 → ∀ f, f < 8 → NotationToIndex (squareName f r) = some (r * 8 + f)) ∧
    (NotationToIndex "a3").map IndexToNotation = some "" ∧
    (∀ i, i < 64 → 16 ≤ i →
      IndexToNotation i = "" ∧ NotationToIndex (IndexToNotation i) = none) ∧
    (∀ i, i < 16 → NotationToIndex (IndexToNotation i) = some i) ∧
    (NotationToIndexEntries.filter fun e => IndexToNotation e.2 != e.1).length = 48 := by
  decide!

/-- C25 (the code departs from the claim): `ToTensor` assigns 1.0 to each of the channels 13,
14, 15 and 16 in both branches of its four tests.  After 1.e4 e5 2.Ke2 Ke7 both kings have
moved, so that no castling right is held (`GetCastles` is 0 for both colours), yet the four
channels are 1 in all 64 cells.  For every board and every cell that the loop body computes,
the four channels are 1. -/
theorem C25_castling_channels_always_one :
    (afterKe2Ke7.map fun b =>
      (b.RKRmoved Color.White 1, b.RKRmoved Color.Black 1,
        GetCastles Color.White b.FullBB (b.RKRmoved Color.White) 0,
        GetCastles Color.Black b.FullBB (b.RKRmoved Color.Black) 0)) =
      some (true, true, 0, 0) ∧
    ((afterKe2Ke7.bind fun b => b.ToTensor).map fun t =>
      (t.length, t.all fun r => r.length == 8 && r.all fun c =>
        c.get? 13 == some 1 && c.get? 14 == some 1 && c.get? 15 == some 1 &&
          c.get? 16 == some 1)) = some (8, true) ∧
    ∀ (board : Board) (row col : Nat),
      (tensorCell board row col).map
          (fun c => (c.get? 13, c.get? 14, c.get? 15, c.get? 16)) =
        (tensorCell board row col).map (fun _ => (some 1, some 1, some 1, some 1)) := by
  refine ⟨by decide!, by decide!, ?_⟩
  intro board row col
  unfold tensorCell
  dsimp only
  rcases h1 : board.AllAttacks board.Turn.Other with _ | a
  · rfl
  · rcases h2 : onEnPassantTarget board row col with _ | t
    · rfl
    · simp only [Option.some_bind, Option.map_some', ite_self, List.get?_cons_succ,
        List.get?_cons_zero]

/-- C26: on every board on which no square holds two pieces, for the side to move `c`, a
piece `p` of `c` on `start`, an end square different from `start` that holds no piece of `c`,
both in 0..63, a move that is not a king move from the e-file to the c- or g-file, and any
promotion argument `q`: `MovePiece(p, start, end, q)` returns, and afterwards the end square
holds exactly one piece, of colour `c`, namely `p` (or `q` when `q` is not `Empty`); the start
square holds no piece; every other square holds the same pieces as before, for both colours;
and the result is true exactly when a piece of the other colour stood on the end square. -/
theorem C26_plain_move_frame (b : Board) (p q : Piece) (start end_ : Nat)
    (hE : Exclusive b) (hs : start < 64) (he : end_ < 64) (hne : start ≠ end_)
    (hp : At b b.Turn p start) (hown : ∀ p', ¬ At b b.Turn p' end_)
    (hnc : ¬ isCastle p (GetFile start) (GetFile end_)) :
    ∃ r, b.MovePiece p start end_ q = some r ∧
      (∀ c' p', At r.1 c' p' end_ ↔
        c' = b.Turn ∧ p' = (if q = Piece.Empty then p else q)) ∧
      (∀ c' p', ¬ At r.1 c' p' start) ∧
      (∀ sq, sq < 64 → sq ≠ start → sq ≠ end_ → ∀ c' p',
        (r.1.PieceBB c' p').testBit sq = (b.PieceBB c' p').testBit sq) ∧
      (r.2 = true ↔ ∃ p', At b b.Turn.Other p' end_) := by
  obtain ⟨r, hr, -, hflag, hbits⟩ := MovePiece_plain_bits q hs he hp.1 hnc
  have htgt : (if q = Piece.Empty then p else q) ≠ Piece.Empty := by
    split
    · exact hp.1
    · assumption
  refine ⟨r, hr, ?_, ?_, ?_, hflag⟩
  · intro c' p'
    constructor
    · rintro ⟨hp', h⟩
      obtain ⟨h1 | h1, -⟩ := (hbits c' p' end_ he).1 h
      · obtain ⟨h1, h2⟩ := h1
        rcases color_cases b.Turn c' with hc | hc
        · subst hc
          exact absurd ⟨hp', h1⟩ (hown p')
        · exact absurd ⟨hc, hp', rfl⟩ h2
      · exact ⟨h1.1, h1.2.1⟩
    · rintro ⟨rfl, rfl⟩
      refine ⟨htgt, (hbits _ _ end_ he).2 ⟨Or.inr ⟨rfl, rfl, rfl⟩, ?_⟩⟩
      intro hh
      exact hne hh.2.2.symm
  · rintro c' p' ⟨hp', h⟩
    obtain ⟨h1 | h1, h2⟩ := (hbits c' p' start hs).1 h
    · obtain ⟨hc, hpp⟩ := hE start c' p' b.Turn p ⟨hp', h1.1⟩ hp
      exact h2 ⟨hc, hpp, rfl⟩
    · exact hne h1.2.2
  · intro sq hsq h1 h2 c' p'
    rw [Bool.eq_iff_iff, hbits c' p' sq hsq]
    constructor
    · rintro ⟨h | h, -⟩
      · exact h.1
      · exact absurd h.2.2 h2
    · intro h
      exact ⟨Or.inl ⟨h, fun hh => h2 hh.2.2⟩, fun hh => h1 hh.2.2⟩

/-- The statement of C26 for the move e2-e4 of a pawn on the initial position. -/
theorem C26_witness :
    (Exclusive NewBoard ∧ (12 : Nat) < 64 ∧ (28 : Nat) < 64 ∧ (12 : Nat) ≠ 28 ∧
      At NewBoard NewBoard.Turn Piece.Pawns 12 ∧ (∀ p', ¬ At NewBoard NewBoard.Turn p' 28) ∧
      ¬ isCastle Piece.Pawns (GetFile 12) (GetFile 28)) ∧
    ∃ r, NewBoard.MovePiece Piece.Pawns 12 28 Piece.Empty = some r ∧
      (∀ c' p', At r.1 c' p' 28 ↔
        c' = NewBoard.Turn ∧ p' = (if Piece.Empty = Piece.Empty then Piece.Pawns
          else Piece.Empty)) ∧
      (∀ c' p', ¬ At r.1 c' p' 12) ∧
      (∀ sq, sq < 64 → sq ≠ 12 → sq ≠ 28 → ∀ c' p',
        (r.1.PieceBB c' p').testBit sq = (NewBoard.PieceBB c' p').testBit sq) ∧
      (r.2 = true ↔ ∃ p', At NewBoard NewBoard.Turn.Other p' 28) :=
  have h1 : At NewBoard NewBoard.Turn Piece.Pawns 12 := ⟨by decide, by decide!⟩
  have h2 : ∀ p', ¬ At NewBoard NewBoard.Turn p' 28 := by
    rintro p' ⟨-, h⟩
    revert h
    cases p' <;> decide!
  have h3 : ¬ isCastle Piece.Pawns (GetFile 12) (GetFile 28) := fun h => by cases h.1
  ⟨⟨Inv_NewBoard.2.1, by decide, by decide, by decide, h1, h2, h3⟩,
    C26_plain_move_frame NewBoard Piece.Pawns Piece.Empty 12 28 Inv_NewBoard.2.1 (by decide)
      (by decide) (by decide) h1 h2 h3⟩

/-- C27 (the code departs from the claim): the White branch of `GetPawnAttacks` masks
`pawns << 7` with `^FileA` and `pawns << 9` with `^FileH`, the masks of the Black branch,
which are the wrong way round for shifts to the left.  After 1.b4 a5 the black pawn on a5
stands diagonally in front of the white pawn on b4, yet a5 is not in `GetPawnAttacks(White)`.
After 1.a4 h5 2.b3 h4 the square h4 is in `GetPawnAttacks(White)`, through the pawn on a4 on
the opposite edge file, although no white pawn stands next to it.  In both positions
`GetPawnAttacks(Black)` is the described set on all 64 squares. -/
theorem C27_white_pawn_attacks_wrap :
    (afterB4A5.map fun b =>
      ((b.PieceBB Color.White Piece.Pawns).testBit 25,
        (b.PieceBB Color.Black Piece.Pawns).testBit 32,
        pawnAttacked b Color.White 32, (b.GetPawnAttacks Color.White).testBit 32)) =
      some (true, true, true, false) ∧
    (afterA4H4.map fun b =>
      ((b.PieceBB Color.White Piece.Pawns).testBit 24,
        (b.PieceBB Color.Black Piece.Pawns).testBit 31,
        pawnAttacked b Color.White 31, (b.GetPawnAttacks Color.White).testBit 31)) =
      some (true, true, false, true) ∧
    (afterB4A5.map fun b => (List.range 64).all fun sq =>
      (b.GetPawnAttacks Color.Black).testBit sq == pawnAttacked b Color.Black sq) =
      some true ∧
    (afterA4H4.map fun b => (List.range 64).all fun sq =>
      (b.GetPawnAttacks Color.Black).testBit sq == pawnAttacked b Color.Black sq) =
      some true ∧
    (afterB4A5.map fun b => (b.GetPawnAttacks Color.Black).testBit 25) = some true := by
  decide!

/-- C28: for every square `sq` in 0..63 and every occupancy `fullBB` with the bit of `sq`
set, `GetRookMoves(sq, fullBB)` returns.  A loop with a decreasing `uint8` counter is left
only at an occupied target square, and the target of round 256 of the downward loop and of
the leftward loop is `sq` itself, so each of them is left within 256 rounds. -/
theorem C28_rook_moves_terminate (sq fullBB : Nat) (hsq : sq < 64)
    (hocc : fullBB.testBit sq = true) :
    (GetRookMoves sq fullBB).isSome = true ∧
    (∀ tgt n c moves m, rookLoopDec fullBB tgt n c moves = some m →
      ∃ k, k < n ∧ (fullBB &&& shl 1 (tgt (dec8^[k] c))) ≠ 0) ∧
    (dec8^[255] ((sq / 8 + 255) % 256) * 8 + sq % 8) % 256 = sq ∧
    ((sq / 8) * 8 + dec8^[255] ((sq % 8 + 255) % 256)) % 256 = sq :=
  ⟨GetRookMoves_isSome hsq hocc, rookLoopDec_exit fullBB, rookDown_table sq hsq⟩

/-- The statement of C28 for a rook on b1 alone on the board. -/
theorem C28_witness :
    ((1 : Nat) < 64 ∧ (shl 1 1).testBit 1 = true) ∧
    ((GetRookMoves 1 (shl 1 1)).isSome = true ∧
    (∀ tgt n c moves m, rookLoopDec (shl 1 1) tgt n c moves = some m →
      ∃ k, k < n ∧ (shl 1 1 &&& shl 1 (tgt (dec8^[k] c))) ≠ 0) ∧
    (dec8^[255] ((1 / 8 + 255) % 256) * 8 + 1 % 8) % 256 = 1 ∧
    ((1 / 8) * 8 + dec8^[255] ((1 % 8 + 255) % 256)) % 256 = 1) :=
  ⟨⟨by decide, by decide⟩, C28_rook_moves_terminate 1 (shl 1 1) (by decide) (by decide)⟩

end Chess
